import Mathlib

/-!
Verification development for the kvgit versioned key-value store.

The definitions below are a shallow embedding of the Python sources:
`kvgit/versioned.py` (commit log, three-way merge, LCA search),
`gitkv/gc.py` (GCVersioned: rebase + orphan sweep) and
`gitkv/content_types.py` (typed merge helpers).

Modelling conventions:
* bytes are `List Nat` (each entry a byte value);
* the backing KV store (`kvgit/kv/memory.py`) is an association list from
  string keys to a typed value domain `Val` mirroring exactly the JSON
  payloads the core serializes (`_to_bytes`/`_from_bytes` round-trip on
  these shapes, so the typed store is faithful to the byte-level one);
* Python dicts are association lists with insertion-order iteration;
* the wall clock (`time.time()`) is an explicit `now : Nat` parameter;
* a merge function may raise, modelled as `Except Unit`;
* the single interleaving point of the optimistic-concurrency protocol
  (a peer advancing the branch head between our head read and our CAS)
  is an explicit `tamper : Store → Store` parameter applied to the store
  immediately before each CAS; `id` models a quiescent store.
-/

set_option maxRecDepth 40000

namespace KvGit

/-- One byte (a natural number; the code only produces values < 256). -/
abbrev Bytes := List Nat

/-! ### UTF-8 and canonical JSON encoding (as `json.dumps` with
`separators=(",", ":")` and default `ensure_ascii=True`) -/

/-- UTF-8 encoding of a single character (as `str.encode()` does). -/
def utf8Char (c : Char) : Bytes :=
  let n := c.toNat
  if n < 128 then [n]
  else if n < 2048 then [192 + n / 64, 128 + n % 64]
  else if n < 65536 then [224 + n / 4096, 128 + (n / 64) % 64, 128 + n % 64]
  else [240 + n / 262144, 128 + (n / 4096) % 64, 128 + (n / 64) % 64, 128 + n % 64]

/-- UTF-8 bytes of a string (`key.encode()` in `_content_hash`). -/
def utf8Str (s : String) : Bytes :=
  s.data.foldr (fun c acc => utf8Char c ++ acc) []

def hexDigits : List Char :=
  ['0', '1', '2', '3', '4', '5', '6', '7', '8', '9']

def hexLetters : List Char :=
  ['a', 'b', 'c', 'd', 'e', 'f']

def hexTable : List Char := hexDigits ++ hexLetters

def hexChar (n : Nat) : Char := hexTable.getD n '0'

/-- Four lowercase hex digits, as in Python's `"\\u%04x"` escapes. -/
def hex4 (n : Nat) : List Char :=
  [hexChar (n / 4096 % 16), hexChar (n / 256 % 16), hexChar (n / 16 % 16), hexChar (n % 16)]

/-- JSON escape of one character, following CPython's
`encode_basestring_ascii`: backslash, quote and anything outside
0x20..0x7e is escaped; control characters use the short forms where
they exist, other characters use `\\uXXXX` (surrogate pairs above
0xFFFF). -/
def jsonEscChar (c : Char) : List Char :=
  let n := c.toNat
  if n = 34 then ['\\', '"']
  else if n = 92 then ['\\', '\\']
  else if 32 ≤ n ∧ n ≤ 126 then [c]
  else if n = 8 then ['\\', 'b']
  else if n = 9 then ['\\', 't']
  else if n = 10 then ['\\', 'n']
  else if n = 12 then ['\\', 'f']
  else if n = 13 then ['\\', 'r']
  else if n < 65536 then '\\' :: 'u' :: hex4 n
  else
    let m := n - 65536
    ('\\' :: 'u' :: hex4 (55296 + m / 1024)) ++ ('\\' :: 'u' :: hex4 (56320 + m % 1024))

/-- JSON string literal (ASCII character list) for a Lean string. -/
def jsonStrChars (s : String) : List Char :=
  '"' :: s.data.foldr (fun c acc => jsonEscChar c ++ acc) ['"']

/-- Comma-join pieces, as the `","` item separator does. -/
def joinComma : List (List Char) → List Char
  | [] => []
  | [x] => x
  | x :: xs => x ++ ',' :: joinComma xs

/-- JSON array from already-rendered element texts. -/
def jsonArr (items : List (List Char)) : List Char :=
  '[' :: joinComma items ++ [']']

def lbrace : Char := Char.ofNat 123
def rbrace : Char := Char.ofNat 125

/-- JSON object from already-rendered `"key":value` member texts. -/
def jsonObjOf (members : List (List Char)) : List Char :=
  lbrace :: joinComma members ++ [rbrace]

/-- A JSON-escaped ASCII character list as bytes. -/
def asciiBytes (cs : List Char) : Bytes := cs.map Char.toNat

/-! ### Python-style sorting (`sorted`) -/

/-- Code-point comparison of character lists, i.e. Python `str` order. -/
def chLe : List Char → List Char → Bool
  | [], _ => true
  | _ :: _, [] => false
  | c :: cs, d :: ds =>
    if c.toNat < d.toNat then true
    else if d.toNat < c.toNat then false
    else chLe cs ds

def strLeB (a b : String) : Bool := chLe a.data b.data

/-- Python tuple comparison on string pairs (key first, then value). -/
def pairLeB (a b : String × String) : Bool :=
  if a.1 = b.1 then strLeB a.2 b.2 else strLeB a.1 b.1

/-- Stable structural insertion used by `sortLe`. -/
def insertLe (le : α → α → Bool) (a : α) : List α → List α
  | [] => [a]
  | b :: l => if le a b then a :: b :: l else b :: insertLe le a l

/-- Insertion sort; models Python's `sorted` (for a linear order the
result is the unique sorted permutation, so it agrees with Python). -/
def sortLe (le : α → α → Bool) : List α → List α
  | [] => []
  | a :: l => insertLe le a (sortLe le l)

/-! ### SHA-256 (the `hashlib.sha256` collaborator, per FIPS 180-4) -/

def mask32 : Nat := 4294967295

def add32 (a b : Nat) : Nat := (a + b) % 4294967296

def rotr (n x : Nat) : Nat := ((x >>> n) ||| (x <<< (32 - n))) &&& mask32

def bsig0 (x : Nat) : Nat := (rotr 2 x) ^^^ (rotr 13 x) ^^^ (rotr 22 x)
def bsig1 (x : Nat) : Nat := (rotr 6 x) ^^^ (rotr 11 x) ^^^ (rotr 25 x)
def ssig0 (x : Nat) : Nat := (rotr 7 x) ^^^ (rotr 18 x) ^^^ (x >>> 3)
def ssig1 (x : Nat) : Nat := (rotr 17 x) ^^^ (rotr 19 x) ^^^ (x >>> 10)

def chF (x y z : Nat) : Nat := (x &&& y) ^^^ ((x ^^^ mask32) &&& z)
def majF (x y z : Nat) : Nat := (x &&& y) ^^^ (x &&& z) ^^^ (y &&& z)

def sha256K : List Nat :=
  [1116352408, 1899447441, 3049323471, 3921009573, 961987163,
   1508970993, 2453635748, 2870763221, 3624381080, 310598401,
   607225278, 1426881987, 1925078388, 2162078206, 2614888103,
   3248222580, 3835390401, 4022224774, 264347078, 604807628,
   770255983, 1249150122, 1555081692, 1996064986, 2554220882,
   2821834349, 2952996808, 3210313671, 3336571891, 3584528711,
   113926993, 338241895, 666307205, 773529912, 1294757372,
   1396182291, 1695183700, 1986661051, 2177026350, 2456956037,
   2730485921, 2820302411, 3259730800, 3345764771, 3516065817,
   3600352804, 4094571909, 275423344, 430227734, 506948616,
   659060556, 883997877, 958139571, 1322822218, 1537002063,
   1747873779, 1955562222, 2024104815, 2227730452, 2361852424,
   2428436474, 2756734187, 3204031479, 3329325298]

def sha256H0 : List Nat :=
  [1779033703, 3144134277, 1013904242, 2773480762,
   1359893119, 2600822924, 528734635, 1541459225]

/-- Extend a 16-word block to the 64-word message schedule. -/
def extendLoop : Nat → List Nat → List Nat
  | 0, w => w
  | n + 1, w =>
    let nw := add32
      (add32 (ssig1 (w.getD (w.length - 2) 0)) (w.getD (w.length - 7) 0))
      (add32 (ssig0 (w.getD (w.length - 15) 0)) (w.getD (w.length - 16) 0))
    extendLoop n (w ++ [nw])

/-- One SHA-256 round on the 8-word working state. -/
def roundStep (st : List Nat) (kw : Nat × Nat) : List Nat :=
  let a := st.getD 0 0
  let b := st.getD 1 0
  let c := st.getD 2 0
  let d := st.getD 3 0
  let e := st.getD 4 0
  let f := st.getD 5 0
  let g := st.getD 6 0
  let h := st.getD 7 0
  let t1 := add32 (add32 (add32 h (bsig1 e)) (add32 (chF e f g) kw.1)) kw.2
  let t2 := add32 (bsig0 a) (majF a b c)
  [add32 t1 t2, a, b, c, add32 d t1, e, f, g]

/-- Compress one 64-byte block (as 16 big-endian words) into the state. -/
def compressBlock (state : List Nat) (block : List Nat) : List Nat :=
  let w := extendLoop 48 block
  let final := (sha256K.zip w).foldl roundStep state
  (state.zip final).map (fun p => add32 p.1 p.2)

/-- Group bytes into big-endian 32-bit words. -/
def toWords : List Nat → List Nat
  | b0 :: b1 :: b2 :: b3 :: rest =>
    (((b0 * 256 + b1) * 256 + b2) * 256 + b3) :: toWords rest
  | _ => []

/-- Split padded input into 64-byte blocks (fuel = block count). -/
def blocksLoop : Nat → List Nat → List (List Nat)
  | 0, _ => []
  | n + 1, bytes => toWords (bytes.take 64) :: blocksLoop n (bytes.drop 64)

/-- Big-endian bytes of a number at a fixed width. -/
def beBytes : Nat → Nat → List Nat
  | 0, _ => []
  | n + 1, v => beBytes n (v / 256) ++ [v % 256]

/-- SHA-256 padding: 0x80, zeros, then the 64-bit bit length. -/
def sha256Pad (msg : Bytes) : Bytes :=
  let L := msg.length
  let zeros := (119 - (L % 64)) % 64
  msg ++ [128] ++ List.replicate zeros 0 ++ beBytes 8 (8 * L)

/-- SHA-256 digest of a byte list, as the 8-word final state. -/
def sha256Words (msg : Bytes) : List Nat :=
  let padded := sha256Pad msg
  (blocksLoop (padded.length / 64) padded).foldl compressBlock sha256H0

def byteToHex (b : Nat) : List Char :=
  [hexChar (b / 16), hexChar (b % 16)]

/-- Lowercase hex digest (`hashlib.sha256(..).hexdigest()`, 64 chars). -/
def sha256Hex (msg : Bytes) : List Char :=
  (sha256Words msg).foldr
    (fun w acc => (beBytes 4 w).foldr (fun b a => byteToHex b ++ a) acc) []

/-! ### Dict primitives (Python `dict` as association list) -/

/-- Python `d.get(k)` / `d[k]` on an association list. -/
def dget : List (String × α) → String → Option α
  | [], _ => none
  | (k', v) :: rest, k => if k' = k then some v else dget rest k

/-- Python `d[k] = v`: replace in place if present, else append. -/
def dset (m : List (String × α)) (k : String) (v : α) : List (String × α) :=
  if (dget m k).isSome then m.map (fun p => if p.1 = k then (k, v) else p)
  else m ++ [(k, v)]

/-- Python `k in d`. -/
def dmem (m : List (String × α)) (k : String) : Prop := (dget m k).isSome

instance (m : List (String × α)) (k : String) : Decidable (dmem m k) := by
  unfold dmem; infer_instance

/-! ### The content hash (`_content_hash` in `kvgit/versioned.py`) -/

/-- Canonical hash input stream: JSON of the parent list, JSON of the
keyset items sorted as tuples, then for each update key in sorted order
the raw key bytes followed by the raw value bytes, then (when present)
the JSON object of `info` with keys sorted. `info` is modelled as a
string-to-string mapping (the spec treats it as opaque metadata). -/
def hashStream (parents : List String) (keyset : List (String × String))
    (updates : List (String × Bytes)) (info : Option (List (String × String))) : Bytes :=
  asciiBytes (jsonArr (parents.map jsonStrChars))
  ++ asciiBytes (jsonArr ((sortLe pairLeB keyset).map
       (fun p => jsonArr [jsonStrChars p.1, jsonStrChars p.2])))
  ++ (sortLe strLeB (updates.map Prod.fst)).foldr
       (fun k acc => utf8Str k ++ (dget updates k).getD [] ++ acc) []
  ++ (match info with
      | none => []
      | some i => asciiBytes (jsonObjOf ((sortLe pairLeB i).map
          (fun p => jsonStrChars p.1 ++ ':' :: jsonStrChars p.2))))

/-- The commit id: first 40 hex characters of the SHA-256 digest of the
canonical stream (`_content_hash`). -/
def contentHash (parents : List String) (keyset : List (String × String))
    (updates : List (String × Bytes)) (info : Option (List (String × String))) : String :=
  String.mk ((sha256Hex (hashStream parents keyset updates info)).take 40)

/-! ### Data model: commit records and the byte KV store -/

/-- Per-key metadata (`MetaEntry` dataclass): monotone touch counter,
blob byte length, wall-clock creation time. -/
structure MetaEntry where
  last_touch : Nat
  size : Option Nat
  created_at : Nat
deriving DecidableEq, Repr

/-- The value domain stored in the backend. The Python store holds raw
bytes; the core serializes each record shape below with JSON
(`_to_bytes` / `_meta_to_bytes`), which round-trips exactly, so a typed
store is a faithful image of the byte-level one. `blob` is a raw user
value. -/
inductive Val where
  | blob (b : Bytes)
  | keyset (ks : List (String × String))
  | parents (ps : List String)
  | head (h : String)
  | meta (m : List (String × MetaEntry))
  | size (n : Nat)
  | info (i : List (String × String))
deriving DecidableEq, Repr

/-- The flat KV backend (`kvgit/kv/memory.py`): an insertion-ordered map. -/
abbrev Store := List (String × Val)

namespace Store

/-- Backend `get` (same dictionary lookup as `dget`). -/
def get (s : Store) (k : String) : Option Val := dget s k

/-- Backend `set` (`self.memory[key] = value`, same as `dset`). -/
def set (s : Store) (k : String) (v : Val) : Store := dset s k v

/-- Backend `set_many` (`self.memory.update(kwargs)`). -/
def setMany (s : Store) (batch : List (String × Val)) : Store :=
  batch.foldl (fun st p => set st p.1 p.2) s

/-- Backend `remove` (`self.memory.pop(key, None)`). -/
def remove (s : Store) (k : String) : Store :=
  s.filter (fun p => decide (p.1 ≠ k))

/-- Backend `remove_many`. -/
def removeMany (s : Store) (ks : List String) : Store :=
  ks.foldl remove s

/-- Backend `keys()`. -/
def keysOf (s : Store) : List String := s.map Prod.fst

/-- Backend `cas`: set only if the current value equals `expected`
(`expected = none` means create-if-missing); returns success. -/
def cas (s : Store) (k : String) (v : Val) (expected : Option Val) : Bool × Store :=
  if get s k = expected then (true, set s k v) else (false, s)

end Store

/-! ### Reserved keys (`PARENT_COMMIT` etc. in `kvgit/versioned.py`) -/

def PARENT_COMMIT (h : String) : String := "__parent_commit__" ++ h
def COMMIT_KEYSET (h : String) : String := "__commit_keyset__" ++ h
def BRANCH_HEAD (b : String) : String := "__branch_head__" ++ b
def META_KEY (h : String) : String := "__meta__" ++ h
def TOTAL_VAR_SIZE_KEY (h : String) : String := "__total_var_size__" ++ h
def INFO_KEY (h : String) : String := "__info__" ++ h

/-! ### Results, errors and merge functions -/

/-- A registered or per-call merge function
(`(old, ours, theirs) -> merged`); `Except.error` models a raised
exception inside the resolver. -/
abbrev MergeFn := Option Bytes → Option Bytes → Option Bytes → Except Unit Bytes

/-- Result of a merge operation (`MergeResult` dataclass); its Python
truthiness equals `merged`. -/
structure MergeResult where
  merged : Bool
  commit : Option String
  strategy : String
  auto_merged_keys : List String
  carried_keys : List String
deriving DecidableEq, Repr

/-- Key-level differences between two commits (`DiffResult`); the
frozensets are modelled as lists (membership is what matters). -/
structure DiffResult where
  added : List String
  removed : List String
  modified : List String
deriving DecidableEq, Repr

/-- Exceptions escaping `commit()` and the GC entry points:
`ValueError`, `ConcurrencyError`, and `MergeConflict` (carrying the
conflicting keys). -/
inductive CommitErr where
  | valueError
  | concurrency
  | mergeConflict (conflicts : List String)
deriving DecidableEq, Repr

/-! ### The versioned view (`class Versioned`) -/

/-- In-memory state of a single-branch view: the backing store (shared
by reference in Python, threaded explicitly here), branch name, the
commit the view is at, the head observed at last sync, and the cached
keyset/meta/touch snapshot, plus the merge-function registry. -/
structure Versioned where
  store : Store
  branch : String
  current_commit : String
  base_commit : String
  commit_keys : List (String × String)
  meta : List (String × MetaEntry)
  touch_counter : Nat
  merge_fns : List (String × MergeFn)
  default_merge : Option MergeFn
  last_merge_result : Option MergeResult

namespace Versioned

/-- Read the branch head directly from the store (`latest_head`). -/
def latestHead (v : Versioned) : Option String :=
  match v.store.get (BRANCH_HEAD v.branch) with
  | some (.head h) => some h
  | _ => none

/-- Load a commit's keyset (`_load_keyset`); absent or malformed reads
degrade to empty. -/
def loadKeyset (s : Store) (h : String) : List (String × String) :=
  match s.get (COMMIT_KEYSET h) with
  | some (.keyset ks) => ks
  | _ => []

/-- Load a commit's parent tuple (`_load_parents`); absent records give
the empty tuple. -/
def loadParents (s : Store) (h : String) : List String :=
  match s.get (PARENT_COMMIT h) with
  | some (.parents ps) => ps
  | _ => []

/-- Load a commit's meta record (`_meta_from_bytes` with the defensive
`except` giving an empty map). -/
def loadMeta (s : Store) (h : String) : List (String × MetaEntry) :=
  match s.get (META_KEY h) with
  | some (.meta m) => m
  | _ => []

/-- Open a view (`Versioned.__init__` with `commit_hash=None`): read the
branch head, creating and persisting an initial empty commit when the
head record is absent. -/
def init (store : Store) (branch : String) : Versioned :=
  let rootPair : String × Store :=
    match store.get (BRANCH_HEAD branch) with
    | some (.head h) => (h, store)
    | _ =>
      let h := contentHash [] [] [] none
      (h, store.setMany
        [(COMMIT_KEYSET h, .keyset []),
         (PARENT_COMMIT h, .parents []),
         (BRANCH_HEAD branch, .head h),
         (META_KEY h, .meta []),
         (TOTAL_VAR_SIZE_KEY h, .size 0)])
  let h := rootPair.1
  let store := rootPair.2
  let meta := loadMeta store h
  { store := store
    branch := branch
    current_commit := h
    base_commit := h
    commit_keys := loadKeyset store h
    meta := meta
    touch_counter := (meta.map (fun e => e.2.last_touch)).foldr max 0
    merge_fns := []
    default_merge := none
    last_merge_result := none }

/-- The pre-attempt snapshot (`_snapshot_state`): current commit, cached
keyset, cached meta, touch counter. -/
def snapshotState (v : Versioned) : String × List (String × String) × List (String × MetaEntry) × Nat :=
  (v.current_commit, v.commit_keys, v.meta, v.touch_counter)

/-- Roll the in-memory view back to a snapshot (`_restore_state`). -/
def restoreState (v : Versioned)
    (saved : String × List (String × String) × List (String × MetaEntry) × Nat) : Versioned :=
  { v with
    current_commit := saved.1
    commit_keys := saved.2.1
    meta := saved.2.2.1
    touch_counter := saved.2.2.2 }

/-- First loop of `_create_commit`: carry the parent keyset minus
removals, carrying each kept key's meta entry when present. -/
def carryKeyset (commit_keys : List (String × String)) (meta : List (String × MetaEntry))
    (removals : List String) : List (String × String) × List (String × MetaEntry) :=
  commit_keys.foldl
    (fun (acc : List (String × String) × List (String × MetaEntry)) kv =>
      if kv.1 ∈ removals then acc
      else
        (acc.1 ++ [kv],
         match dget meta kv.1 with
         | some e => acc.2 ++ [(kv.1, e)]
         | none => acc.2))
    ([], [])

/-- Preview keyset with `<pending:key>` sentinels for the updates. -/
def previewKeyset (updates : List (String × Bytes)) (ks : List (String × String)) :
    List (String × String) :=
  updates.foldl (fun ks kv => dset ks kv.1 ("<pending:" ++ kv.1 ++ ">")) ks

/-- Second loop of `_create_commit`: mint `<hash>:<key>` pointers for
the updates, collect the blob writes, and update meta/touch. -/
def applyUpdates (newHash : String) (updates : List (String × Bytes))
    (newKeys0 : List (String × String)) (newMeta0 : List (String × MetaEntry))
    (touch0 : Nat) (now : Nat) :
    List (String × Val) × List (String × String) × List (String × MetaEntry) × Nat :=
  updates.foldl
    (fun (acc : List (String × Val) × List (String × String) × List (String × MetaEntry) × Nat) kv =>
      let versionedKey := newHash ++ ":" ++ kv.1
      let diffs := acc.1 ++ [(versionedKey, Val.blob kv.2)]
      let keys := dset acc.2.1 kv.1 versionedKey
      let sz := kv.2.length
      match dget acc.2.2.1 kv.1 with
      | some e =>
        (diffs, keys, dset acc.2.2.1 kv.1 ⟨e.last_touch, some sz, e.created_at⟩, acc.2.2.2)
      | none =>
        let touch := acc.2.2.2 + 1
        (diffs, keys, dset acc.2.2.1 kv.1 ⟨touch, some sz, now⟩, touch))
    ([], newKeys0, newMeta0, touch0)

/-- The commit-record batch written alongside the blobs. -/
def commitRecords (newHash : String) (parents : List String)
    (newKeys : List (String × String)) (newMeta : List (String × MetaEntry))
    (info : Option (List (String × String))) : List (String × Val) :=
  [(COMMIT_KEYSET newHash, Val.keyset newKeys),
   (PARENT_COMMIT newHash, Val.parents parents),
   (META_KEY newHash, Val.meta newMeta),
   (TOTAL_VAR_SIZE_KEY newHash, Val.size ((newMeta.map (fun e => (e.2.size).getD 0)).sum))]
  ++ (match info with
      | some i => [(INFO_KEY newHash, Val.info i)]
      | none => [])

/-- Build a new local commit (`_create_commit`): carry the keyset minus
removals, hash with pending sentinels for updates, write blobs under
`<hash>:<key>` pointers plus the keyset/parent/meta/total-size/info
records in one batch, and advance the in-memory state. Returns the new
hash with the updated view. -/
def createCommit (v : Versioned) (updates : List (String × Bytes))
    (removals : List String) (info : Option (List (String × String)))
    (now : Nat) : String × Versioned :=
  let carried := carryKeyset v.commit_keys v.meta removals
  let newKeys0 := carried.1
  let newMeta0 := carried.2
  let preview := previewKeyset updates newKeys0
  let newHash := contentHash [v.current_commit] preview updates info
  let step := applyUpdates newHash updates newKeys0 newMeta0 v.touch_counter now
  let diffs := step.1
  let newKeys := step.2.1
  let newMeta := step.2.2.1
  let newTouch := step.2.2.2
  let records := commitRecords newHash [v.current_commit] newKeys newMeta info
  let store := v.store.setMany (diffs ++ records)
  (newHash,
   { v with
     store := store
     commit_keys := newKeys
     current_commit := newHash
     meta := newMeta
     touch_counter := newTouch })

/-- Key-level differences between two commits (`diff`). -/
def diff (v : Versioned) (a b : String) : DiffResult :=
  let ka := loadKeyset v.store a
  let kb := loadKeyset v.store b
  let keysA := ka.map Prod.fst
  let keysB := kb.map Prod.fst
  { added := keysB.filter (fun k => decide (k ∉ keysA))
    removed := keysA.filter (fun k => decide (k ∉ keysB))
    modified := (keysA.filter (fun k => decide (k ∈ keysB))).filter
      (fun k => decide (dget ka k ≠ dget kb k)) }

end Versioned

/-- All ids mentioned in parent records of the store; every id the BFS
searches can enqueue lies in this list (plus the two start ids). -/
def parentIdsOf (s : Store) : List String :=
  s.foldr (fun kv acc => match kv.2 with | .parents ps => ps ++ acc | _ => acc) []

/-- Fuel that provably dominates the number of loop iterations of the
interleaved BFS (each iteration pops at least one element and total
enqueues are bounded by the start ids plus all parent-record entries). -/
def lcaFuel (s : Store) : Nat := 4 * (parentIdsOf s).length + 8

/-- Outcome of one side's turn in the interleaved BFS. -/
inductive SideRes where
  | found (c : String)
  | cont (q seenMe : List String)
deriving Repr

/-- Expand the popped node's parents: each unseen parent is added to our
seen set and queue, returning early when it is already on the other
side (`if p in seen_b: return p`). -/
def lcaExpand (seenMe seenOther q : List String) : List String → List String × List String × Option String
  | [] => (seenMe, q, none)
  | p :: ps =>
    if p ∈ seenMe then lcaExpand seenMe seenOther q ps
    else
      let seenMe' := seenMe ++ [p]
      let q' := q ++ [p]
      if p ∈ seenOther then (seenMe', q', some p)
      else lcaExpand seenMe' seenOther q' ps

/-- One side's turn (`if queue_a: ...` body): pop, check against the
other side's seen set, then expand parents. -/
def lcaSide (s : Store) (q seenMe seenOther : List String) : SideRes :=
  match q with
  | [] => .cont [] seenMe
  | cur :: q' =>
    if cur ∈ seenOther then .found cur
    else
      match lcaExpand seenMe seenOther q' (Versioned.loadParents s cur) with
      | (_, _, some r) => .found r
      | (seenMe', q'', none) => .cont q'' seenMe'

/-- The interleaved-BFS loop of `_find_lca`; the fuel only bounds the
iteration count and is provably never exhausted at `lcaFuel`. -/
def lcaLoop (s : Store) : Nat → List String → List String → List String → List String → Option String
  | 0, _, _, _, _ => none
  | fuel + 1, qa, qb, seenA, seenB =>
    if qa = [] ∧ qb = [] then none
    else
      match lcaSide s qa seenA seenB with
      | .found c => some c
      | .cont qa' seenA' =>
        match lcaSide s qb seenB seenA' with
        | .found c => some c
        | .cont qb' seenB' => lcaLoop s fuel qa' qb' seenA' seenB'

/-- Lowest-common-ancestor search (`_find_lca`): interleaved BFS from
both commits, returning the first commit reached from both sides. -/
def findLca (s : Store) (a b : String) : Option String :=
  if a = b then some a
  else lcaLoop s (lcaFuel s) [a] [b] [a] [b]

/-- Fuel dominating the BFS of `history(all_parents=True)`. -/
def historyFuel (s : Store) : Nat := (parentIdsOf s).length + 2

/-- BFS loop of `history(all_parents=True)`, yielding each commit once. -/
def historyLoop (s : Store) : Nat → List String → List String → List String
  | 0, _, visited => visited
  | fuel + 1, q, visited =>
    match q with
    | [] => visited
    | cur :: q' =>
      if cur ∈ visited then historyLoop s fuel q' visited
      else
        let visited' := visited ++ [cur]
        let q'' := q' ++ (Versioned.loadParents s cur).filter (fun p => decide (p ∉ visited'))
        historyLoop s fuel q'' visited'

/-- Full-DAG history from a commit (`history(commit, all_parents=True)`,
consumed to a list as the orphan-sweep mark phase does). -/
def historyAll (s : Store) (start : String) : List String :=
  historyLoop s (historyFuel s) [start] []

namespace Versioned

/-- Read a blob through a pointer (`self.store.get(versioned_key)`,
`None` when absent or not a blob). -/
def getBlob (s : Store) (ptr : String) : Option Bytes :=
  match s.get ptr with
  | some (.blob b) => some b
  | _ => none

/-- The saved in-memory snapshot threaded through a commit attempt. -/
abbrev Saved := String × List (String × String) × List (String × MetaEntry) × Nat

/-- Outcome of the per-key resolution loops of `_three_way_merge`:
the merged keyset so far (carried pointers only), the resolver outputs,
the auto-merged keys, and the conflict set. -/
structure MergePlan where
  mergedKS : List (String × String)
  mergedVals : List (String × Bytes)
  autoMerged : List String
  conflicts : List String

/-- The changed-key set of one side (`added | removed | modified`). -/
def changedKeys (d : DiffResult) : List String :=
  d.added ++ d.removed ++ d.modified

/-- Loop 1 of `_three_way_merge`: keys unchanged by either side carry
the head's pointer (ours only when absent from the head). -/
def unchangedLoop (theirKS ourKS : List (String × String)) (keys : List String) :
    List (String × String) :=
  keys.foldl
    (fun m k =>
      if dmem theirKS k then dset m k ((dget theirKS k).getD "")
      else if dmem ourKS k then dset m k ((dget ourKS k).getD "")
      else m) []

/-- Loop 2: keys changed only by us — ours unless we removed them; the
second component collects `auto_merged`. -/
def oursLoop (ourRemoved : List String) (ourKS : List (String × String))
    (keys : List String) (m0 : List (String × String)) :
    List (String × String) × List String :=
  keys.foldl
    (fun (acc : List (String × String) × List String) k =>
      if k ∈ ourRemoved then acc
      else (dset acc.1 k ((dget ourKS k).getD ""), acc.2 ++ [k]))
    (m0, [])

/-- Loop 3: keys changed only by them — theirs unless they removed. -/
def theirsLoop (theirRemoved : List String) (theirKS : List (String × String))
    (keys : List String) (m0 : List (String × String)) : List (String × String) :=
  keys.foldl
    (fun m k =>
      if k ∈ theirRemoved then m
      else dset m k ((dget theirKS k).getD ""))
    m0

/-- Loop 4: contested keys — both-removed keys vanish, identical
pointers carry, and otherwise a merge function resolves or the key
joins the conflict set. -/
def contestedLoop (store : Store) (lcaKS ourKS theirKS : List (String × String))
    (ourRemoved theirRemoved : List String) (effectiveFns : List (String × MergeFn))
    (effectiveDefault : Option MergeFn) (keys : List String)
    (m0 : List (String × String)) (auto0 : List String) : MergePlan :=
  let step4 := keys.foldl
    (fun (acc : List (String × String) × List (String × Bytes) × List String × List String) k =>
      let ourRem := k ∈ ourRemoved
      let theirRem := k ∈ theirRemoved
      if ourRem ∧ theirRem then acc
      else if ¬ourRem ∧ ¬theirRem ∧ dget ourKS k = dget theirKS k then
        (dset acc.1 k ((dget theirKS k).getD ""), acc.2)
      else
        match (dget effectiveFns k).orElse (fun _ => effectiveDefault) with
        | none => (acc.1, acc.2.1, acc.2.2.1, acc.2.2.2 ++ [k])
        | some fn =>
          let oldVal := if dmem lcaKS k then getBlob store ((dget lcaKS k).getD "") else none
          let ourVal := if ourRem then none else getBlob store ((dget ourKS k).getD "")
          let theirVal := if theirRem then none else getBlob store ((dget theirKS k).getD "")
          match fn oldVal ourVal theirVal with
          | .ok merged => (acc.1, dset acc.2.1 k merged, acc.2.2.1 ++ [k], acc.2.2.2)
          | .error _ => (acc.1, acc.2.1, acc.2.2.1, acc.2.2.2 ++ [k]))
    (m0, [], auto0, [])
  ⟨step4.1, step4.2.1, step4.2.2.1, step4.2.2.2⟩

/-- The per-key resolution of `_three_way_merge` (its diff/keyset loads
and four loops), verbatim from the source. -/
def mergePlan (v : Versioned) (lca theirHead : String)
    (merge_fns : List (String × MergeFn)) (default_merge : Option MergeFn) : MergePlan :=
  let ourDiff := v.diff lca v.current_commit
  let theirDiff := v.diff lca theirHead
  let effectiveFns := merge_fns.foldl (fun m kv => dset m kv.1 kv.2) v.merge_fns
  let effectiveDefault := default_merge.orElse (fun _ => v.default_merge)
  let lcaKS := loadKeyset v.store lca
  let ourKS := loadKeyset v.store v.current_commit
  let theirKS := loadKeyset v.store theirHead
  let ourChanged := changedKeys ourDiff
  let theirChanged := changedKeys theirDiff
  let allChanged := ourChanged ++ theirChanged
  let allKeys := ourKS.map Prod.fst ++ (theirKS.map Prod.fst).filter
    (fun k => decide (k ∉ ourKS.map Prod.fst))
  let merged0 := unchangedLoop theirKS ourKS (allKeys.filter (fun k => decide (k ∉ allChanged)))
  let step2 := oursLoop ourDiff.removed ourKS
    (ourChanged.filter (fun k => decide (k ∉ theirChanged))) merged0
  let merged2 := theirsLoop theirDiff.removed theirKS
    (theirChanged.filter (fun k => decide (k ∉ ourChanged))) step2.1
  let contested := ourChanged.filter (fun k => decide (k ∈ theirChanged))
  contestedLoop v.store lcaKS ourKS theirKS ourDiff.removed theirDiff.removed
    effectiveFns effectiveDefault contested merged2 step2.2

/-- The written merge commit: hash, final keyset (resolver outputs under
fresh pointers), meta, bumped touch counter, and the store after the
batch write — the write phase of `_three_way_merge`. -/
structure MergeWrite where
  mergeHash : String
  mergedKS : List (String × String)
  mergedMeta : List (String × MetaEntry)
  newTouch : Nat
  autoMerged : List String
  store : Store

/-- Build and batch-write the merge commit from a conflict-free plan
(the write phase of `_three_way_merge`, verbatim). -/
def mergeWrite (v : Versioned) (theirHead : String) (plan : MergePlan)
    (info : Option (List (String × String))) (now : Nat) : MergeWrite :=
  let parents := [theirHead, v.current_commit]
  let preview := plan.mergedVals.foldl
    (fun ks kv => dset ks kv.1 ("<pending:" ++ kv.1 ++ ">")) plan.mergedKS
  let mergeHash := contentHash parents preview plan.mergedVals info
  let blobStep := plan.mergedVals.foldl
    (fun (acc : List (String × Val) × List (String × String)) kv =>
      let vk := mergeHash ++ ":" ++ kv.1
      (acc.1 ++ [(vk, Val.blob kv.2)], dset acc.2 kv.1 vk))
    ([], plan.mergedKS)
  let blobDiffs := blobStep.1
  let mergedKS' := blobStep.2
  let ourMeta := loadMeta v.store v.current_commit
  let theirMeta := loadMeta v.store theirHead
  let metaStep := mergedKS'.foldl
    (fun (acc : Nat × List (String × MetaEntry)) kv =>
      match dget plan.mergedVals kv.1 with
      | some merged =>
        (acc.1 + 1, dset acc.2 kv.1 ⟨acc.1 + 1, some merged.length, now⟩)
      | none =>
        match dget ourMeta kv.1 with
        | some e => (acc.1, dset acc.2 kv.1 e)
        | none =>
          match dget theirMeta kv.1 with
          | some e => (acc.1, dset acc.2 kv.1 e)
          | none => acc)
    (v.touch_counter, [])
  let newTouch := metaStep.1
  let mergedMeta := metaStep.2
  let records := commitRecords mergeHash parents mergedKS' mergedMeta info
  let store₂ := v.store.setMany (blobDiffs ++ records)
  ⟨mergeHash, mergedKS', mergedMeta, newTouch, plan.autoMerged, store₂⟩

/-- Three-way merge against the observed head (`_three_way_merge`):
find the LCA, resolve per key (`mergePlan`), fail on conflicts, write
the merge commit (`mergeWrite`) and CAS the head forward, restoring the
saved snapshot on CAS failure. -/
def threeWayMerge (v : Versioned) (theirHead : String) (on_conflict : String)
    (merge_fns : List (String × MergeFn)) (default_merge : Option MergeFn)
    (info : Option (List (String × String))) (saved : Option Saved)
    (now : Nat) (tamper : Store → Store) : Except CommitErr MergeResult × Versioned :=
  match findLca v.store v.current_commit theirHead with
  | none =>
    let v' := match saved with
      | some sv => v.restoreState sv
      | none => v
    if on_conflict = "abandon" then
      let result : MergeResult := ⟨false, none, "three_way", [], []⟩
      (.ok result, { v' with last_merge_result := some result })
    else (.error .concurrency, v')
  | some lca =>
    let plan := mergePlan v lca theirHead merge_fns default_merge
    if plan.conflicts ≠ [] then (.error (.mergeConflict plan.conflicts), v)
    else
      let wr := mergeWrite v theirHead plan info now
      let cr := Store.cas (tamper wr.store) (BRANCH_HEAD v.branch)
        (.head wr.mergeHash) (some (.head theirHead))
      if cr.1 then
        let v' := { v with
          store := cr.2
          commit_keys := wr.mergedKS
          current_commit := wr.mergeHash
          base_commit := wr.mergeHash
          meta := wr.mergedMeta
          touch_counter := wr.newTouch }
        let result : MergeResult :=
          ⟨true, some wr.mergeHash, "three_way", wr.autoMerged,
           (wr.mergedKS.map Prod.fst).filter
             (fun k => decide (k ∉ wr.autoMerged ∧ ¬ dmem plan.mergedVals k))⟩
        (.ok result, { v' with last_merge_result := some result })
      else
        let v₂ := { v with store := cr.2, touch_counter := wr.newTouch }
        let v₃ := match saved with
          | some sv => v₂.restoreState sv
          | none => v₂
        if on_conflict = "abandon" then
          let result : MergeResult := ⟨false, none, "three_way", [], []⟩
          (.ok result, { v₃ with last_merge_result := some result })
        else (.error .concurrency, v₃)

/-- Public `commit()`: no-op on an empty batch, validate `on_conflict`,
fast-forward when the head has not moved (CAS, with rollback and
abandon/raise semantics on failure), otherwise build the local commit
and enter the three-way merge. -/
def commit (v : Versioned) (updates : List (String × Bytes)) (removals : List String)
    (on_conflict : String) (merge_fns : List (String × MergeFn))
    (default_merge : Option MergeFn) (info : Option (List (String × String)))
    (now : Nat) (tamper : Store → Store) : Except CommitErr MergeResult × Versioned :=
  if updates = [] ∧ removals = [] ∧ info = none then
    let result : MergeResult := ⟨true, some v.current_commit, "no_op", [], []⟩
    (.ok result, { v with last_merge_result := some result })
  else if ¬ (on_conflict = "raise" ∨ on_conflict = "abandon") then
    (.error .valueError, v)
  else
    let currentHead := v.latestHead
    if currentHead = some v.base_commit then
      let saved := v.snapshotState
      let c := v.createCommit updates removals info now
      let v₁ := c.2
      let cr := Store.cas (tamper v₁.store) (BRANCH_HEAD v₁.branch)
        (.head v₁.current_commit) (some (.head v₁.base_commit))
      if cr.1 then
        let v₂ := { v₁ with store := cr.2, base_commit := v₁.current_commit }
        let result : MergeResult :=
          ⟨true, some v₂.current_commit, "fast_forward", [], v₂.commit_keys.map Prod.fst⟩
        (.ok result, { v₂ with last_merge_result := some result })
      else
        let v₂ := ({ v₁ with store := cr.2 } : Versioned).restoreState saved
        if on_conflict = "abandon" then
          let result : MergeResult := ⟨false, none, "fast_forward", [], []⟩
          (.ok result, { v₂ with last_merge_result := some result })
        else (.error .concurrency, v₂)
    else
      match currentHead with
      | none => (.error .valueError, v)
      | some theirHead =>
        let saved := v.snapshotState
        let c := v.createCommit updates removals none now
        threeWayMerge c.2 theirHead on_conflict merge_fns default_merge info (some saved) now tamper

end Versioned

/-! ### GC layer (`gitkv/gc.py`) -/

/-- Default `is_protected` policy (`_is_system_key`): the last `/`
segment starts with `__`. -/
def isSystemKey (key : String) : Bool :=
  let base := if '/' ∈ key.data then (key.data.splitOn '/').getLastD [] else key.data
  decide (base.take 2 = ['_', '_'])

/-- Result of a rebase/GC operation (`RebaseResult` dataclass). -/
structure RebaseResult where
  performed : Bool
  new_commit : Option String
  dropped_keys : List String
  kept_keys : List String
  total_size_before : Nat
  total_size_after : Nat
  orphans_cleaned : Nat
deriving DecidableEq, Repr

/-- Versioned view with garbage collection (`class GCVersioned`); the
constructor guarantees `0 < high_water` and normalizes `low_water` into
`(0, high_water]` (falling back to 80% of high water). -/
structure GCVersioned extends Versioned where
  high_water : Nat
  low_water : Nat
  is_protected : String → Bool
  last_rebase_result : Option RebaseResult

namespace GCVersioned

/-- Load the persisted total size of the current commit
(`_load_total_size`; absent or malformed records give `default`). -/
def loadTotalSize (g : GCVersioned) (default : Nat) : Nat :=
  match g.store.get (TOTAL_VAR_SIZE_KEY g.current_commit) with
  | some (.size n) => n
  | _ => default

/-- The high/low-water drop loop: walk candidates coldest-first and drop
until the running total is at or below the low-water mark. -/
def dropCold (low : Int) : List (String × MetaEntry) → List String → List String → Int →
    List String × List String × Int
  | [], retained, dropped, total => (retained, dropped, total)
  | (k, e) :: rest, retained, dropped, total =>
    if total ≤ low then (retained, dropped, total)
    else dropCold low rest (retained.erase k) (dropped ++ [k]) (total - ((e.size).getD 0 : Int))

/-- Candidate order for eviction: `last_touch` ascending, then size
descending (`key=lambda kv: (kv[1].last_touch, -(kv[1].size or 0))`). -/
def candLe (a b : String × MetaEntry) : Bool :=
  if a.2.last_touch < b.2.last_touch then true
  else if b.2.last_touch < a.2.last_touch then false
  else (b.2.size).getD 0 ≤ (a.2.size).getD 0

/-- Mark phase of `clean_orphans`: every commit reachable from any
branch-head record in the store. -/
def markReachable (s : Store) : List String :=
  (Store.keysOf s).foldl
    (fun acc key =>
      if List.isPrefixOf (String.data "__branch_head__") key.data then
        match s.get key with
        | some (.head h) => acc ++ historyAll s h
        | _ => acc
      else acc) []

/-- Collect phase of `clean_orphans`: unreachable commits whose first
meta entry is older than the cutoff. -/
def collectOrphans (s : Store) (reachable : List String) (cutoff : Int) : List String :=
  (Store.keysOf s).foldl
    (fun acc key =>
      if List.isPrefixOf (String.data "__meta__") key.data then
        let commitHash := String.mk (key.data.drop 8)
        if commitHash = "" ∨ commitHash ∈ reachable then acc
        else
          match s.get key with
          | some (.meta m) =>
            match m with
            | [] => acc
            | e :: _ => if (e.2.created_at : Int) < cutoff then acc ++ [commitHash] else acc
          | _ => acc
      else acc) []

/-- Sweep step of `clean_orphans`: delete one orphan's keyset-listed
blobs and its five commit records. -/
def sweepStep (st : Store) (orphan : String) : Store :=
  let st₁ :=
    match Store.get st (COMMIT_KEYSET orphan) with
    | some (.keyset ks) => Store.removeMany st (ks.map Prod.snd)
    | _ => st
  Store.removeMany st₁
    [META_KEY orphan, COMMIT_KEYSET orphan, PARENT_COMMIT orphan,
     TOTAL_VAR_SIZE_KEY orphan, INFO_KEY orphan]

/-- Orphan sweep (`clean_orphans`): mark every commit reachable from any
branch head, collect unreachable meta records older than `min_age`,
then delete each orphan's blobs and its five commit records. Returns
the orphan count with the updated view. -/
def cleanOrphans (g : GCVersioned) (min_age : Nat) (now : Nat) : Nat × GCVersioned :=
  let reachable := markReachable g.store
  let cutoff : Int := (now : Int) - (min_age : Int)
  let orphans := collectOrphans g.store reachable cutoff
  let store' := orphans.foldl sweepStep g.store
  (orphans.length, { g with toVersioned := { g.toVersioned with store := store' } })

/-- Retention phase of `rebase`: protected keys first, then the user
keys, minus the dropped ones (an explicit keep set, or the coldest-first
high/low-water strategy), with the running user-data total. -/
def rebaseRetain (g : GCVersioned) (keep_keys : Option (List String)) :
    List String × List String × Int :=
  let protectedKeys := g.commit_keys.filter (fun kv => g.is_protected kv.1)
  let userMeta := g.meta.filter (fun kv => ¬ g.is_protected kv.1)
  let retained0 := protectedKeys.map Prod.fst
    ++ (userMeta.map Prod.fst).filter (fun k => decide (k ∉ protectedKeys.map Prod.fst))
  let totalInit : Int := ((userMeta.map (fun e => (e.2.size).getD 0)).sum : Nat)
  match keep_keys with
  | some keeps =>
    retained0.foldl
      (fun (acc : List String × List String × Int) key =>
        if g.is_protected key then acc
        else if key ∈ keeps then acc
        else
          (acc.1.erase key, acc.2.1 ++ [key],
           acc.2.2 - (((dget userMeta key).bind (fun e => e.size)).getD 0 : Int)))
      (retained0, [], totalInit)
  | none =>
    dropCold (g.low_water : Int) (sortLe candLe userMeta) retained0 [] totalInit

/-- Collect phase of `rebase`: each retained non-protected key's current
blob and meta entry, in retention order. -/
def rebaseCollect (g : GCVersioned) (retainedKeys : List String) :
    List (String × Bytes) × List (String × MetaEntry) :=
  retainedKeys.foldl
    (fun (acc : List (String × Bytes) × List (String × MetaEntry)) key =>
      match dget g.commit_keys key with
      | none => acc
      | some vk =>
        if vk = "" then acc
        else
          match Versioned.getBlob g.store vk with
          | none => acc
          | some value =>
            if g.is_protected key then acc
            else
              (acc.1 ++ [(key, value)],
               match dget g.meta key with
               | some e => acc.2 ++ [(key, e)]
               | none => acc.2))
    ([], [])

/-- The written rebase commit: fresh root hash, final keyset, and the
store after the batch write. -/
structure RebaseWrite where
  newHash : String
  newCommitKeys : List (String × String)
  store : Store

/-- Write phase of `rebase`: mint the fresh root hash, copy protected
blobs and retained user blobs under new `<hash>:<key>` pointers, and
batch-write them with the commit records. -/
def rebaseWrite (g : GCVersioned) (retainedData : List (String × Bytes))
    (newMeta : List (String × MetaEntry)) (info : Option (List (String × String))) :
    RebaseWrite :=
  let protectedKeys := g.commit_keys.filter (fun kv => g.is_protected kv.1)
  let preview := retainedData.foldl
    (fun ks kv => dset ks kv.1 ("<pending:" ++ kv.1 ++ ">"))
    (protectedKeys.foldl (fun ks kv => dset ks kv.1 kv.2) [])
  let newHash := contentHash [] preview retainedData info
  let protStep := protectedKeys.foldl
    (fun (acc : List (String × Val) × List (String × String)) kv =>
      match Versioned.getBlob g.store kv.2 with
      | none => acc
      | some value =>
        let newVk := newHash ++ ":" ++ kv.1
        (acc.1 ++ [(newVk, Val.blob value)], dset acc.2 kv.1 newVk))
    ([], [])
  let dataStep := retainedData.foldl
    (fun (acc : List (String × Val) × List (String × String)) kv =>
      let newVk := newHash ++ ":" ++ kv.1
      (acc.1 ++ [(newVk, Val.blob kv.2)], dset acc.2 kv.1 newVk))
    protStep
  let records := Versioned.commitRecords newHash [] dataStep.2 newMeta info
  ⟨newHash, dataStep.2, g.store.setMany (dataStep.1 ++ records)⟩

/-- Rebase (`GCVersioned.rebase`): build a fresh root commit retaining
protected keys plus either an explicit keep set or everything warm
enough to fit under the low-water mark, CAS the head to it, delete the
dropped blobs, and run the orphan sweep. -/
def rebase (g : GCVersioned) (keep_keys : Option (List String))
    (info : Option (List (String × String))) (now : Nat)
    (tamper : Store → Store) : Except CommitErr RebaseResult × GCVersioned :=
  let totalBefore := g.loadTotalSize ((g.meta.map (fun e => (e.2.size).getD 0)).sum)
  let dropState := rebaseRetain g keep_keys
  let retainedKeys := dropState.1
  let dropped := dropState.2.1
  let collect := rebaseCollect g retainedKeys
  let retainedData := collect.1
  let newMeta := collect.2
  let totalAfter := (newMeta.map (fun e => (e.2.size).getD 0)).sum
  let wr := rebaseWrite g retainedData newMeta info
  let newHash := wr.newHash
  let newCommitKeys := wr.newCommitKeys
  let cr := Store.cas (tamper wr.store) (BRANCH_HEAD g.branch)
    (.head newHash) (some (.head g.base_commit))
  if ¬ cr.1 then
    (.error .concurrency, { g with toVersioned := { g.toVersioned with store := cr.2 } })
  else
    let toDelete := dropped.foldl
      (fun acc key =>
        match dget g.commit_keys key with
        | some vk => if vk = "" then acc else acc ++ [vk]
        | none => acc) []
    let store₃ := Store.removeMany cr.2 toDelete
    let g₁ : GCVersioned :=
      { g with toVersioned :=
        { g.toVersioned with
          store := store₃
          commit_keys := newCommitKeys
          current_commit := newHash
          base_commit := newHash
          meta := newMeta } }
    let oc := cleanOrphans g₁ 3600 now
    (.ok
      { performed := true
        new_commit := some newHash
        dropped_keys := dropped
        kept_keys := retainedKeys
        total_size_before := totalBefore
        total_size_after := totalAfter
        orphans_cleaned := oc.1 },
     oc.2)

/-- Run rebase only above the high-water mark (`maybe_rebase`). -/
def maybeRebase (g : GCVersioned) (now : Nat) (tamper : Store → Store) :
    Except CommitErr RebaseResult × GCVersioned :=
  let total := g.loadTotalSize 0
  if total ≤ g.high_water then
    (.ok
      { performed := false
        new_commit := none
        dropped_keys := []
        kept_keys := g.commit_keys.map Prod.fst
        total_size_before := total
        total_size_after := total
        orphans_cleaned := 0 }, g)
  else g.rebase none none now tamper

/-- `GCVersioned.commit`: the inherited commit, then the automatic
high/low-water check when it merged. -/
def commitGC (g : GCVersioned) (updates : List (String × Bytes)) (removals : List String)
    (on_conflict : String) (merge_fns : List (String × MergeFn))
    (default_merge : Option MergeFn) (info : Option (List (String × String)))
    (now : Nat) (tamper : Store → Store) : Except CommitErr MergeResult × GCVersioned :=
  let c := Versioned.commit g.toVersioned updates removals on_conflict merge_fns
    default_merge info now tamper
  let g₁ : GCVersioned := { g with toVersioned := c.2 }
  match c.1 with
  | .error e => (.error e, g₁)
  | .ok res =>
    if res.merged then
      let mr := g₁.maybeRebase now tamper
      match mr.1 with
      | .ok rr => (.ok res, { mr.2 with last_rebase_result := some rr })
      | .error e => (.error e, mr.2)
    else (.ok res, g₁)

end GCVersioned

/-! ### Typed merge helpers (`gitkv/content_types.py`) -/

/-- The counter merge (`counter()`): `ours + theirs - old`, with a
missing old value read as zero. -/
def counterMerge (old : Option Int) (ours theirs : Int) : Int :=
  ours + theirs - old.getD 0

/-- Last-writer-wins merge (`last_writer_wins()`): always `theirs`. -/
def lwwMerge (_old : Option Bytes) (_ours theirs : Option Bytes) : Option Bytes :=
  theirs

/-- A string whose first character is `_` (every reserved record key). -/
def startsUnderscore (s : String) : Prop := ∃ t, s.data = '_' :: t

/-- The merge keyset predicted by the claim (stated from the spec's
words, for comparison with the code's result): removed-by-either keys
are absent; keys changed by one side carry that side's pointer; and
LCA-surviving keys unchanged by both carry the head's pointer. -/
def specMergeKeyset (ourDiff theirDiff : DiffResult)
    (lcaKS ourKS theirKS : List (String × String)) (k : String) : Option String :=
  if k ∈ ourDiff.removed ∨ k ∈ theirDiff.removed then none
  else if k ∈ ourDiff.added ∨ k ∈ ourDiff.modified then dget ourKS k
  else if k ∈ theirDiff.added ∨ k ∈ theirDiff.modified then dget theirKS k
  else if dmem lcaKS k then dget theirKS k
  else none

/-- The accounting the claim predicates of a commit (stated from the
spec's words, for comparison with the code's persisted total): the sum
of `meta[k].size` over the non-protected keys of the commit's keyset. -/
def specTotalSize (s : Store) (is_protected : String → Bool) (c : String) : Nat :=
  (((Versioned.loadKeyset s c).filter (fun kv => ¬ is_protected kv.1)).map
    (fun kv => ((dget (Versioned.loadMeta s c) kv.1).bind (fun e => e.size)).getD 0)).sum

/-- `c` is an ancestor of `x`: reachable from `x` by following parent
links (the spec's notion; both parents of a merge commit count). -/
def isAncestor (s : Store) (c x : String) : Prop :=
  Relation.ReflTransGen (fun y p => p ∈ Versioned.loadParents s y) x c

/-! ### Concrete fixtures used by witnesses and counterexamples -/

deriving instance DecidableEq for Except

/-- A minimal view sitting at a (symbolic) root commit `r` whose head
record is in place; used to instantiate theorems at concrete inputs. -/
def vR : Versioned :=
  { store := [(BRANCH_HEAD "main", .head "r"),
              (COMMIT_KEYSET "r", .keyset []),
              (PARENT_COMMIT "r", .parents []),
              (META_KEY "r", .meta []),
              (TOTAL_VAR_SIZE_KEY "r", .size 0)]
    branch := "main"
    current_commit := "r"
    base_commit := "r"
    commit_keys := []
    meta := []
    touch_counter := 0
    merge_fns := []
    default_merge := none
    last_merge_result := none }

/-- The view `vR` wrapped in the GC layer with the default protection
policy and water marks 100/80. -/
def gProt : GCVersioned :=
  { toVersioned := vR
    high_water := 100
    low_water := 80
    is_protected := isSystemKey
    last_rebase_result := none }

/-- A three-commit history: `b` is a merge commit with parents `p` and
`a`, and `a`'s parent is `p` — so `a` is both a parent of `b` and a
sibling route to the common ancestor `p`. -/
def sLca : Store :=
  [(PARENT_COMMIT "b", .parents ["p", "a"]),
   (PARENT_COMMIT "a", .parents ["p"]),
   (PARENT_COMMIT "p", .parents [])]

/-- A view at commit `L` whose branch head has moved on to `H` (which
added key `b`); committing `c` from here forces a three-way merge. -/
def vL : Versioned :=
  { store := [
      (BRANCH_HEAD "main", .head "H"),
      (COMMIT_KEYSET "L", .keyset [("a", "L:a")]),
      (PARENT_COMMIT "L", .parents []),
      (META_KEY "L", .meta []),
      (COMMIT_KEYSET "H", .keyset [("a", "L:a"), ("b", "H:b")]),
      (PARENT_COMMIT "H", .parents ["L"]),
      (META_KEY "H", .meta []),
      ("L:a", .blob [9]),
      ("H:b", .blob [8])]
    branch := "main"
    current_commit := "L"
    base_commit := "L"
    commit_keys := [("a", "L:a")]
    meta := []
    touch_counter := 0
    merge_fns := []
    default_merge := none
    last_merge_result := none }

/-- A store with a reachable root commit `r` (owning blob `r:k`) and an
unreachable commit `o` whose keyset carries `r`'s pointer forward —
exactly the shape an abandoned local commit leaves behind. -/
def gOrph : GCVersioned :=
  { toVersioned :=
    { store := [
        (BRANCH_HEAD "main", .head "r"),
        (COMMIT_KEYSET "r", .keyset [("k", "r:k")]),
        (PARENT_COMMIT "r", .parents []),
        (META_KEY "r", .meta [("k", ⟨1, some 1, 0⟩)]),
        (TOTAL_VAR_SIZE_KEY "r", .size 1),
        ("r:k", .blob [7]),
        (COMMIT_KEYSET "o", .keyset [("k", "r:k")]),
        (PARENT_COMMIT "o", .parents ["r"]),
        (META_KEY "o", .meta [("k", ⟨1, some 1, 0⟩)]),
        (TOTAL_VAR_SIZE_KEY "o", .size 1)]
      branch := "main"
      current_commit := "r"
      base_commit := "r"
      commit_keys := [("k", "r:k")]
      meta := [("k", ⟨1, some 1, 0⟩)]
      touch_counter := 1
      merge_fns := []
      default_merge := none
      last_merge_result := none }
    high_water := 1000
    low_water := 800
    is_protected := isSystemKey
    last_rebase_result := none }

/-! ### Basic lemmas: dictionaries -/

theorem dget_map_update_self (m : List (String × α)) (k : String) (v : α) :
    dget (m.map (fun p => if p.1 = k then (k, v) else p)) k =
      if (dget m k).isSome then some v else none := by
  induction m with
  | nil => simp [dget]
  | cons p rest ih =>
    simp only [List.map_cons]
    by_cases hp : p.1 = k
    · rw [if_pos hp]
      simp [dget, hp]
    · rw [if_neg hp]
      simp [dget, hp, ih]

theorem dget_map_update_ne (m : List (String × α)) (k : String) (v : α)
    (k' : String) (hk : ¬ k = k') :
    dget (m.map (fun p => if p.1 = k then (k, v) else p)) k' = dget m k' := by
  induction m with
  | nil => simp [dget]
  | cons p rest ih =>
    simp only [List.map_cons]
    by_cases hp : p.1 = k
    · rw [if_pos hp]
      have hpk : ¬ p.1 = k' := fun h => hk (hp ▸ h)
      simp [dget, hk, hpk, ih]
    · rw [if_neg hp]
      simp only [dget]
      by_cases hp' : p.1 = k'
      · simp [hp']
      · simp [hp', ih]

theorem dget_append (m t : List (String × α)) (k : String) :
    dget (m ++ t) k = if (dget m k).isSome then dget m k else dget t k := by
  induction m with
  | nil => simp [dget]
  | cons p rest ih =>
    by_cases hp : p.1 = k
    · simp [dget, hp]
    · simp [dget, hp, ih]

theorem dget_dset (m : List (String × α)) (k k' : String) (v : α) :
    dget (dset m k v) k' = if k = k' then some v else dget m k' := by
  unfold dset
  by_cases hs : (dget m k).isSome
  · rw [if_pos hs]
    by_cases hk : k = k'
    · subst hk
      rw [if_pos rfl, dget_map_update_self, if_pos hs]
    · rw [if_neg hk, dget_map_update_ne m k v k' hk]
  · rw [if_neg hs]
    have hnone : dget m k = none := Option.not_isSome_iff_eq_none.mp hs
    rw [dget_append]
    by_cases hk : k = k'
    · subst hk
      simp [hnone, dget]
    · rw [if_neg hk]
      cases h : dget m k'
      · simp [h, dget, hk]
      · simp [h]

theorem dmem_iff (m : List (String × α)) (k : String) :
    dmem m k ↔ k ∈ m.map Prod.fst := by
  induction m with
  | nil => simp [dmem, dget]
  | cons p rest ih =>
    by_cases hp : p.1 = k
    · simp [dmem, dget, hp]
    · simp only [dmem, dget, hp, if_false, List.map_cons, List.mem_cons]
      rw [← dmem]
      rw [ih]
      constructor
      · exact fun h => Or.inr h
      · rintro (h | h)
        · exact absurd h.symm hp
        · exact h

theorem dget_isSome_iff (m : List (String × α)) (k : String) :
    (dget m k).isSome ↔ k ∈ m.map Prod.fst := dmem_iff m k

/-- Lookup through a guarded insertion fold, when the guard and the
inserted value depend only on the key. -/
theorem dget_foldl_ite (l : List String) (p : String → Bool) (g : String → α)
    (m₀ : List (String × α)) (k : String) :
    dget (l.foldl (fun m k' => if p k' then dset m k' (g k') else m) m₀) k =
      if k ∈ l ∧ p k = true then some (g k) else dget m₀ k := by
  induction l generalizing m₀ with
  | nil => simp
  | cons a rest ih =>
    simp only [List.foldl_cons]
    rw [ih]
    by_cases hpk : p k = true
    · by_cases hmem : k ∈ rest
      · rw [if_pos ⟨hmem, hpk⟩, if_pos ⟨List.mem_cons_of_mem _ hmem, hpk⟩]
      · have h1 : ¬ (k ∈ rest ∧ p k = true) := fun h => hmem h.1
        rw [if_neg h1]
        by_cases hak : a = k
        · subst hak
          rw [if_pos hpk, dget_dset, if_pos rfl, if_pos ⟨List.mem_cons_self _ _, hpk⟩]
        · have hstep : dget (if p a = true then dset m₀ a (g a) else m₀) k = dget m₀ k := by
            by_cases hpa : p a = true
            · rw [if_pos hpa, dget_dset, if_neg hak]
            · rw [if_neg hpa]
          have h2 : ¬ (k ∈ a :: rest ∧ p k = true) := by
            intro h
            rcases List.mem_cons.mp h.1 with h' | h'
            · exact hak h'.symm
            · exact hmem h'
          rw [hstep, if_neg h2]
    · have h1 : ¬ (k ∈ rest ∧ p k = true) := fun h => hpk h.2
      have h2 : ¬ (k ∈ a :: rest ∧ p k = true) := fun h => hpk h.2
      rw [if_neg h1, if_neg h2]
      by_cases hak : a = k
      · subst hak
        rw [if_neg hpk]
      · by_cases hpa : p a = true
        · rw [if_pos hpa, dget_dset, if_neg hak]
        · rw [if_neg hpa]

/-! ### Basic lemmas: the store -/

namespace Store

theorem get_append (s t : Store) (k : String) :
    get (s ++ t) k = if (get s k).isSome then get s k else get t k := by
  unfold get
  exact dget_append s t k

theorem get_set (s : Store) (k k' : String) (v : Val) :
    get (set s k v) k' = if k = k' then some v else get s k' :=
  dget_dset s k k' v

theorem setMany_append (s : Store) (b₁ b₂ : List (String × Val)) :
    setMany s (b₁ ++ b₂) = setMany (setMany s b₁) b₂ := by
  simp [setMany, List.foldl_append]

theorem get_setMany_of_not_mem (s : Store) (batch : List (String × Val)) (k : String)
    (h : ∀ kv ∈ batch, kv.1 ≠ k) : get (setMany s batch) k = get s k := by
  induction batch generalizing s with
  | nil => rfl
  | cons p rest ih =>
    simp only [setMany, List.foldl_cons]
    rw [← setMany, ih _ (fun kv hkv => h kv (List.mem_cons_of_mem _ hkv))]
    rw [get_set]
    simp [h p (List.mem_cons_self _ _)]

theorem dget_filter_ne (s : List (String × α)) (k k' : String) :
    dget (s.filter (fun p => decide (p.1 ≠ k))) k' = if k' = k then none else dget s k' := by
  induction s with
  | nil => by_cases h : k' = k <;> simp [dget, h]
  | cons p rest ih =>
    simp only [List.filter_cons]
    by_cases hp : p.1 = k
    · have hd : decide (p.1 ≠ k) = false := by simp [hp]
      rw [hd]
      simp only [Bool.false_eq_true, if_false]
      rw [ih]
      by_cases hk : k' = k
      · simp [hk]
      · have hpk' : ¬ p.1 = k' := by rw [hp]; exact fun h => hk h.symm
        simp [dget, hpk', hk]
    · have hd : decide (p.1 ≠ k) = true := by simp [hp]
      rw [hd]
      simp only [if_true]
      simp only [dget]
      by_cases hpk : p.1 = k'
      · have hk' : ¬ k' = k := fun h => hp (hpk.trans h)
        simp [hpk, hk']
      · simp only [hpk, if_false]
        rw [ih]

theorem get_remove (s : Store) (k k' : String) :
    get (remove s k) k' = if k' = k then none else get s k' := by
  unfold get remove
  exact dget_filter_ne s k k'

theorem get_removeMany_of_not_mem (s : Store) (ks : List String) (k : String)
    (h : k ∉ ks) : get (removeMany s ks) k = get s k := by
  induction ks generalizing s with
  | nil => rfl
  | cons a rest ih =>
    simp only [removeMany, List.foldl_cons]
    rw [← removeMany, ih _ (fun hm => h (List.mem_cons_of_mem _ hm))]
    rw [get_remove]
    have : ¬ k = a := fun he => h (he ▸ List.mem_cons_self _ _)
    simp [this]

end Store

/-! ### Dictionary, fold and sum lemmas for the GC bound -/

/-- Reading after a batch write: untouched, or the batch supplied it. -/
theorem get_setMany_cases (s : Store) (batch : List (String × Val)) (k : String) :
    Store.get (Store.setMany s batch) k = Store.get s k ∨
    ∃ v, (k, v) ∈ batch ∧ Store.get (Store.setMany s batch) k = some v := by
  induction batch generalizing s with
  | nil => exact Or.inl rfl
  | cons p rest ih =>
    have hst : Store.setMany s (p :: rest) = Store.setMany (Store.set s p.1 p.2) rest := rfl
    rw [hst]
    rcases ih (Store.set s p.1 p.2) with h | ⟨v, hv, hg⟩
    · rw [h, Store.get_set]
      by_cases hk : p.1 = k
      · subst hk
        exact Or.inr ⟨p.2, List.mem_cons_self _ _, by rw [if_pos rfl]⟩
      · rw [if_neg hk]
        exact Or.inl rfl
    · exact Or.inr ⟨v, List.mem_cons_of_mem _ hv, hg⟩

/-- Reading after batched removal: untouched or gone. -/
theorem get_removeMany_cases (s : Store) (ks : List String) (k : String) :
    Store.get (Store.removeMany s ks) k = Store.get s k ∨
    Store.get (Store.removeMany s ks) k = none := by
  induction ks generalizing s with
  | nil => exact Or.inl rfl
  | cons a rest ih =>
    have hst : Store.removeMany s (a :: rest) = Store.removeMany (Store.remove s a) rest := rfl
    rw [hst]
    rcases ih (Store.remove s a) with h | h
    · rw [h, Store.get_remove]
      by_cases hk : k = a
      · rw [if_pos hk]
        exact Or.inr rfl
      · rw [if_neg hk]
        exact Or.inl rfl
    · exact Or.inr h

/-- Members of an insert-or-update are the new pair or old members. -/
theorem mem_dset (m : List (String × α)) (k : String) (v : α) :
    ∀ kv ∈ dset m k v, kv = (k, v) ∨ kv ∈ m := by
  intro kv hkv
  unfold dset at hkv
  by_cases hs : (dget m k).isSome
  · rw [if_pos hs] at hkv
    rcases List.mem_map.mp hkv with ⟨p, hp, he⟩
    by_cases hpk : p.1 = k
    · rw [if_pos hpk] at he
      exact Or.inl he.symm
    · rw [if_neg hpk] at he
      exact Or.inr (he ▸ hp)
  · rw [if_neg hs] at hkv
    rcases List.mem_append.mp hkv with h | h
    · exact Or.inr h
    · exact Or.inl (by simpa using h)

/-- A listed pair's key is never a lookup miss. -/
theorem dget_mem_ne_none (m : List (String × α)) (p : String × α) (hp : p ∈ m) :
    dget m p.1 ≠ none := by
  induction m with
  | nil => simp at hp
  | cons q rest ih =>
    unfold dget
    rcases List.mem_cons.mp hp with h | h
    · rw [h]
      simp
    · by_cases hq : q.1 = p.1
      · rw [if_pos hq]
        simp
      · rw [if_neg hq]
        exact ih h

/-- The key list after an insert-or-update. -/
theorem dset_map_fst (m : List (String × α)) (k : String) (v : α) :
    (dset m k v).map Prod.fst = m.map Prod.fst ∨
    ((dset m k v).map Prod.fst = m.map Prod.fst ++ [k] ∧ k ∉ m.map Prod.fst) := by
  unfold dset
  by_cases hs : (dget m k).isSome
  · rw [if_pos hs]
    refine Or.inl ?_
    rw [List.map_map]
    apply List.map_congr_left
    intro p _
    by_cases hpk : p.1 = k
    · simp [hpk]
    · simp [hpk]
  · rw [if_neg hs]
    refine Or.inr ⟨by simp, ?_⟩
    intro hmem
    rcases List.mem_map.mp hmem with ⟨p, hp, he⟩
    have : (dget m k).isSome := by
      have : dget m p.1 ≠ none := dget_mem_ne_none m p hp
      rw [he] at this
      exact Option.isSome_iff_ne_none.mpr this
    exact hs this

/-- Insert-or-update preserves key distinctness. -/
theorem dset_nodup (m : List (String × α)) (k : String) (v : α)
    (h : (m.map Prod.fst).Nodup) : ((dset m k v).map Prod.fst).Nodup := by
  rcases dset_map_fst m k v with he | ⟨he, hk⟩
  · rw [he]; exact h
  · rw [he]
    rw [List.nodup_append]
    refine ⟨h, List.nodup_singleton _, ?_⟩
    intro a ha hmem
    rw [List.mem_singleton] at hmem
    exact hk (hmem ▸ ha)

/-- With distinct keys, a listed pair is what lookup returns. -/
theorem dget_of_mem_nodup (m : List (String × α)) (k : String) (e : α)
    (hnd : (m.map Prod.fst).Nodup) (hmem : (k, e) ∈ m) : dget m k = some e := by
  induction m with
  | nil => simp at hmem
  | cons q rest ih =>
    unfold dget
    rcases List.mem_cons.mp hmem with h | h
    · rw [← h]
      simp
    · by_cases hq : q.1 = k
      · exfalso
        rw [List.map_cons, List.nodup_cons] at hnd
        exact hnd.1 (hq ▸ List.mem_map.mpr ⟨(k, e), h, rfl⟩)
      · rw [if_neg hq]
        have hnd' : (rest.map Prod.fst).Nodup := by
          rw [List.map_cons, List.nodup_cons] at hnd
          exact hnd.2
        exact ih hnd' h

/-- A fold whose steps only grow a projection by satisfying elements. -/
theorem foldl_proj_preserve {σ γ δ : Type} (proj : σ → List δ) (step : σ → γ → σ)
    (P : δ → Prop) :
    ∀ (l : List γ) (init : σ),
    (∀ acc, ∀ x ∈ l, ∀ kv ∈ proj (step acc x), kv ∈ proj acc ∨ P kv) →
    ∀ kv ∈ proj (l.foldl step init), kv ∈ proj init ∨ P kv := by
  intro l
  induction l with
  | nil => exact fun init _ kv hkv => Or.inl hkv
  | cons a rest ih =>
    intro init hstep kv hkv
    rcases ih (step init a)
      (fun acc x hx => hstep acc x (List.mem_cons_of_mem _ hx)) kv hkv with h | h
    · rcases hstep init a (List.mem_cons_self _ _) kv h with h' | h'
      · exact Or.inl h'
      · exact Or.inr h'
    · exact Or.inr h

/-- A fold preserving an invariant of the accumulator. -/
theorem foldl_preserve {σ γ : Type} (Inv : σ → Prop) (step : σ → γ → σ) :
    ∀ (l : List γ) (init : σ),
    (∀ acc, ∀ x ∈ l, Inv acc → Inv (step acc x)) → Inv init →
    Inv (l.foldl step init) := by
  intro l
  induction l with
  | nil => exact fun init _ h => h
  | cons a rest ih =>
    intro init hstep h
    exact ih (step init a) (fun acc x hx => hstep acc x (List.mem_cons_of_mem _ hx))
      (hstep init a (List.mem_cons_self _ _) h)

/-- A sum over distinct keys is at most the sum over a superset. -/
theorem sum_map_subset (f : String → Nat) :
    ∀ (l₁ : List String), l₁.Nodup → ∀ (l₂ : List String), (∀ x ∈ l₁, x ∈ l₂) →
    (l₁.map f).sum ≤ (l₂.map f).sum := by
  intro l₁
  induction l₁ with
  | nil => simp
  | cons x rest ih =>
    intro hnd l₂ hsub
    have hx : x ∈ l₂ := hsub x (List.mem_cons_self _ _)
    have hperm : l₂.Perm (x :: l₂.erase x) := List.perm_cons_erase hx
    have hsum : (l₂.map f).sum = f x + ((l₂.erase x).map f).sum := by
      rw [List.Perm.sum_eq (hperm.map f)]
      simp
    rw [hsum]
    simp only [List.map_cons, List.sum_cons]
    have hrest : ∀ y ∈ rest, y ∈ l₂.erase x := by
      intro y hy
      have hyx : y ≠ x := by
        intro he
        subst he
        exact (List.nodup_cons.mp hnd).1 hy
      exact (List.mem_erase_of_ne hyx).mpr (hsub y (List.mem_cons_of_mem _ hy))
    exact Nat.add_le_add_left (ih (List.nodup_cons.mp hnd).2 _ hrest) _

/-- A listed key appears in the key list. -/
theorem dget_some_mem_fst (m : List (String × α)) (k : String) (v : α)
    (h : dget m k = some v) : k ∈ m.map Prod.fst := by
  induction m with
  | nil => simp [dget] at h
  | cons q rest ih =>
    unfold dget at h
    by_cases hq : q.1 = k
    · rw [List.map_cons]
      exact hq ▸ List.mem_cons_self _ _
    · rw [if_neg hq] at h
      exact List.mem_cons_of_mem _ (ih h)

/-- A successful lookup's pair is listed. -/
theorem dget_some_mem (m : List (String × α)) (k : String) (v : α)
    (h : dget m k = some v) : (k, v) ∈ m := by
  induction m with
  | nil => simp [dget] at h
  | cons q rest ih =>
    unfold dget at h
    by_cases hq : q.1 = k
    · rw [if_pos hq] at h
      have : q = (k, v) := by
        obtain ⟨q1, q2⟩ := q
        simp only at hq h
        simp [hq, ← Option.some.injEq _ _ ▸ h]
      rw [← this]
      exact List.mem_cons_self _ _
    · rw [if_neg hq] at h
      exact List.mem_cons_of_mem _ (ih h)

/-! ### Reserved-key disequalities -/

theorem KEYSET_ne_PARENT (h h' : String) : COMMIT_KEYSET h ≠ PARENT_COMMIT h' := by
  intro e
  have := congrArg String.data e
  simp only [COMMIT_KEYSET, PARENT_COMMIT, String.data_append] at this
  simp at this

theorem KEYSET_ne_HEAD (h b : String) : COMMIT_KEYSET h ≠ BRANCH_HEAD b := by
  intro e
  have := congrArg String.data e
  simp only [COMMIT_KEYSET, BRANCH_HEAD, String.data_append] at this
  simp at this

theorem KEYSET_ne_META (h h' : String) : COMMIT_KEYSET h ≠ META_KEY h' := by
  intro e
  have := congrArg String.data e
  simp only [COMMIT_KEYSET, META_KEY, String.data_append] at this
  simp at this

theorem KEYSET_ne_TOTAL (h h' : String) : COMMIT_KEYSET h ≠ TOTAL_VAR_SIZE_KEY h' := by
  intro e
  have := congrArg String.data e
  simp only [COMMIT_KEYSET, TOTAL_VAR_SIZE_KEY, String.data_append] at this
  simp at this

theorem KEYSET_ne_INFO (h h' : String) : COMMIT_KEYSET h ≠ INFO_KEY h' := by
  intro e
  have := congrArg String.data e
  simp only [COMMIT_KEYSET, INFO_KEY, String.data_append] at this
  simp at this

theorem PARENT_ne_HEAD (h b : String) : PARENT_COMMIT h ≠ BRANCH_HEAD b := by
  intro e
  have := congrArg String.data e
  simp only [PARENT_COMMIT, BRANCH_HEAD, String.data_append] at this
  simp at this

theorem PARENT_ne_META (h h' : String) : PARENT_COMMIT h ≠ META_KEY h' := by
  intro e
  have := congrArg String.data e
  simp only [PARENT_COMMIT, META_KEY, String.data_append] at this
  simp at this

theorem PARENT_ne_TOTAL (h h' : String) : PARENT_COMMIT h ≠ TOTAL_VAR_SIZE_KEY h' := by
  intro e
  have := congrArg String.data e
  simp only [PARENT_COMMIT, TOTAL_VAR_SIZE_KEY, String.data_append] at this
  simp at this

theorem PARENT_ne_INFO (h h' : String) : PARENT_COMMIT h ≠ INFO_KEY h' := by
  intro e
  have := congrArg String.data e
  simp only [PARENT_COMMIT, INFO_KEY, String.data_append] at this
  simp at this

theorem HEAD_ne_META (b h : String) : BRANCH_HEAD b ≠ META_KEY h := by
  intro e
  have := congrArg String.data e
  simp only [BRANCH_HEAD, META_KEY, String.data_append] at this
  simp at this

theorem HEAD_ne_TOTAL (b h : String) : BRANCH_HEAD b ≠ TOTAL_VAR_SIZE_KEY h := by
  intro e
  have := congrArg String.data e
  simp only [BRANCH_HEAD, TOTAL_VAR_SIZE_KEY, String.data_append] at this
  simp at this

theorem HEAD_ne_INFO (b h : String) : BRANCH_HEAD b ≠ INFO_KEY h := by
  intro e
  have := congrArg String.data e
  simp only [BRANCH_HEAD, INFO_KEY, String.data_append] at this
  simp at this

theorem META_ne_TOTAL (h h' : String) : META_KEY h ≠ TOTAL_VAR_SIZE_KEY h' := by
  intro e
  have := congrArg String.data e
  simp only [META_KEY, TOTAL_VAR_SIZE_KEY, String.data_append] at this
  simp at this

theorem META_ne_INFO (h h' : String) : META_KEY h ≠ INFO_KEY h' := by
  intro e
  have := congrArg String.data e
  simp only [META_KEY, INFO_KEY, String.data_append] at this
  simp at this

theorem TOTAL_ne_INFO (h h' : String) : TOTAL_VAR_SIZE_KEY h ≠ INFO_KEY h' := by
  intro e
  have := congrArg String.data e
  simp only [TOTAL_VAR_SIZE_KEY, INFO_KEY, String.data_append] at this
  simp at this

theorem KEYSET_inj {h h' : String} (e : COMMIT_KEYSET h = COMMIT_KEYSET h') : h = h' := by
  have := congrArg String.data e
  simp only [COMMIT_KEYSET, String.data_append] at this
  exact String.ext (List.append_cancel_left this)

theorem PARENT_inj {h h' : String} (e : PARENT_COMMIT h = PARENT_COMMIT h') : h = h' := by
  have := congrArg String.data e
  simp only [PARENT_COMMIT, String.data_append] at this
  exact String.ext (List.append_cancel_left this)

theorem META_inj {h h' : String} (e : META_KEY h = META_KEY h') : h = h' := by
  have := congrArg String.data e
  simp only [META_KEY, String.data_append] at this
  exact String.ext (List.append_cancel_left this)

theorem TOTAL_inj {h h' : String} (e : TOTAL_VAR_SIZE_KEY h = TOTAL_VAR_SIZE_KEY h') : h = h' := by
  have := congrArg String.data e
  simp only [TOTAL_VAR_SIZE_KEY, String.data_append] at this
  exact String.ext (List.append_cancel_left this)

theorem INFO_inj {h h' : String} (e : INFO_KEY h = INFO_KEY h') : h = h' := by
  have := congrArg String.data e
  simp only [INFO_KEY, String.data_append] at this
  exact String.ext (List.append_cancel_left this)

theorem HEAD_inj {b b' : String} (e : BRANCH_HEAD b = BRANCH_HEAD b') : b = b' := by
  have := congrArg String.data e
  simp only [BRANCH_HEAD, String.data_append] at this
  exact String.ext (List.append_cancel_left this)

theorem KEYSET_underscore (h : String) : startsUnderscore (COMMIT_KEYSET h) := by
  refine ⟨("_commit_keyset__" : String).data ++ h.data, ?_⟩
  rw [COMMIT_KEYSET, String.data_append]
  have hx : ("__commit_keyset__" : String).data = '_' :: ("_commit_keyset__" : String).data := by decide
  rw [hx]
  simp

theorem PARENT_underscore (h : String) : startsUnderscore (PARENT_COMMIT h) := by
  refine ⟨("_parent_commit__" : String).data ++ h.data, ?_⟩
  rw [PARENT_COMMIT, String.data_append]
  have hx : ("__parent_commit__" : String).data = '_' :: ("_parent_commit__" : String).data := by decide
  rw [hx]
  simp

theorem HEAD_underscore (b : String) : startsUnderscore (BRANCH_HEAD b) := by
  refine ⟨("_branch_head__" : String).data ++ b.data, ?_⟩
  rw [BRANCH_HEAD, String.data_append]
  have hx : ("__branch_head__" : String).data = '_' :: ("_branch_head__" : String).data := by decide
  rw [hx]
  simp

theorem META_underscore (h : String) : startsUnderscore (META_KEY h) := by
  refine ⟨("_meta__" : String).data ++ h.data, ?_⟩
  rw [META_KEY, String.data_append]
  have hx : ("__meta__" : String).data = '_' :: ("_meta__" : String).data := by decide
  rw [hx]
  simp

theorem TOTAL_underscore (h : String) : startsUnderscore (TOTAL_VAR_SIZE_KEY h) := by
  refine ⟨("_total_var_size__" : String).data ++ h.data, ?_⟩
  rw [TOTAL_VAR_SIZE_KEY, String.data_append]
  have hx : ("__total_var_size__" : String).data = '_' :: ("_total_var_size__" : String).data := by decide
  rw [hx]
  simp

theorem INFO_underscore (h : String) : startsUnderscore (INFO_KEY h) := by
  refine ⟨("_info__" : String).data ++ h.data, ?_⟩
  rw [INFO_KEY, String.data_append]
  have hx : ("__info__" : String).data = '_' :: ("_info__" : String).data := by decide
  rw [hx]
  simp

/-! ### The commit hash starts with a hex character -/

theorem beBytes_length (n v : Nat) : (beBytes n v).length = n := by
  induction n generalizing v with
  | zero => rfl
  | succ m ih => simp [beBytes, ih]

theorem roundStep_length (st : List Nat) (kw : Nat × Nat) : (roundStep st kw).length = 8 := rfl

theorem foldl_roundStep_length (l : List (Nat × Nat)) (st : List Nat) (h : st.length = 8) :
    (List.foldl roundStep st l).length = 8 := by
  induction l generalizing st with
  | nil => exact h
  | cons a rest ih => exact ih _ (roundStep_length _ _)

theorem compressBlock_length (st b : List Nat) (h : st.length = 8) :
    (compressBlock st b).length = 8 := by
  unfold compressBlock
  rw [List.length_map, List.length_zip, h,
    foldl_roundStep_length _ _ h]
  rfl

theorem sha256Words_length (msg : Bytes) : (sha256Words msg).length = 8 := by
  have hdef : sha256Words msg =
      List.foldl compressBlock sha256H0
        (blocksLoop ((sha256Pad msg).length / 64) (sha256Pad msg)) := rfl
  rw [hdef]
  generalize blocksLoop ((sha256Pad msg).length / 64) (sha256Pad msg) = bs
  induction bs using List.reverseRecOn with
  | nil => rfl
  | append_singleton l b ih =>
    rw [List.foldl_append]
    exact compressBlock_length _ _ ih

theorem hexChar_mem (n : Nat) : hexChar n ∈ hexTable := by
  unfold hexChar
  rcases Nat.lt_or_ge n 16 with h | h
  · have hlt : n < hexTable.length := by simpa [hexTable, hexDigits, hexLetters] using h
    rw [List.getD_eq_getElem hexTable '0' hlt]
    exact List.getElem_mem hlt
  · rw [List.getD_eq_default]
    · decide
    · simpa [hexTable, hexDigits, hexLetters] using h

theorem byteToHex_mem (b : Nat) (c : Char) (h : c ∈ byteToHex b) : c ∈ hexTable := by
  unfold byteToHex at h
  rcases List.mem_cons.mp h with h | h
  · exact h ▸ hexChar_mem _
  · rcases List.mem_cons.mp h with h | h
    · exact h ▸ hexChar_mem _
    · simp at h

theorem sha256Hex_mem (msg : Bytes) (c : Char) (h : c ∈ sha256Hex msg) : c ∈ hexTable := by
  unfold sha256Hex at h
  generalize sha256Words msg = ws at h
  induction ws with
  | nil => simp at h
  | cons w rest ih =>
    simp only [List.foldr_cons] at h
    generalize hacc : (List.foldr _ [] rest) = acc at *
    generalize hb : beBytes 4 w = bl at h
    clear hacc hb
    induction bl with
    | nil => exact ih h
    | cons b bt ih2 =>
      simp only [List.foldr_cons, List.mem_append] at h
      rcases h with h | h
      · exact byteToHex_mem _ _ h
      · exact ih2 h

theorem sha256Hex_length (msg : Bytes) : (sha256Hex msg).length = 64 := by
  unfold sha256Hex
  have inner : ∀ (bl : List Nat) (acc : List Char),
      (List.foldr (fun b a => byteToHex b ++ a) acc bl).length = 2 * bl.length + acc.length := by
    intro bl acc
    induction bl with
    | nil => simp
    | cons b bt ih =>
      simp only [List.foldr_cons, List.length_append, ih, List.length_cons]
      simp [byteToHex]
      ring
  have outer : ∀ (ws : List Nat) (acc : List Char),
      (List.foldr (fun w a => (beBytes 4 w).foldr (fun b x => byteToHex b ++ x) a) acc ws).length
        = 8 * ws.length + acc.length := by
    intro ws acc
    induction ws with
    | nil => simp
    | cons w rest ih =>
      simp only [List.foldr_cons, inner, beBytes_length, ih, List.length_cons]
      ring
  rw [outer]
  rw [sha256Words_length]
  rfl

theorem contentHash_head (parents : List String) (keyset : List (String × String))
    (updates : List (String × Bytes)) (info : Option (List (String × String))) :
    ∃ c t, (contentHash parents keyset updates info).data = c :: t ∧ c ∈ hexTable := by
  unfold contentHash
  generalize hmsg : hashStream parents keyset updates info = msg
  have hlen := sha256Hex_length msg
  cases hh : sha256Hex msg with
  | nil => rw [hh] at hlen; simp at hlen
  | cons c t =>
    refine ⟨c, t.take 39, ?_, ?_⟩
    · simp [String.mk, hh]
    · exact sha256Hex_mem msg c (hh ▸ List.mem_cons_self _ _)

/-- A key headed by a hex character is never a reserved record key. -/
theorem hexHead_ne_underscore (s r : String) (c : Char) (t : List Char)
    (hd : s.data = c :: t) (hc : c ∈ hexTable) (hr : startsUnderscore r) : s ≠ r := by
  intro e
  rcases hr with ⟨u, hu⟩
  rw [e, hu] at hd
  have : c = '_' := by
    have := hd.symm
    exact (List.cons.injEq _ _ _ _ ▸ this).1
  subst this
  revert hc
  decide

/-- A blob pointer minted under a commit hash is never a reserved key. -/
theorem hashBlobKey_ne_reserved (parents : List String) (keyset : List (String × String))
    (updates : List (String × Bytes)) (info : Option (List (String × String)))
    (suffix r : String) (hr : startsUnderscore r) :
    contentHash parents keyset updates info ++ suffix ≠ r := by
  obtain ⟨c, t, hd, hc⟩ := contentHash_head parents keyset updates info
  refine hexHead_ne_underscore _ _ c (t ++ suffix.data) ?_ hc hr
  rw [String.data_append, hd]
  rfl

/-! ### Sorting lemmas -/

theorem insertLe_perm (le : α → α → Bool) (a : α) (l : List α) :
    (insertLe le a l).Perm (a :: l) := by
  induction l with
  | nil => exact List.Perm.refl _
  | cons b t ih =>
    unfold insertLe
    by_cases h : le a b
    · rw [if_pos h]
    · rw [if_neg h]
      exact (ih.cons b).trans (List.Perm.swap a b t)

theorem sortLe_perm (le : α → α → Bool) (l : List α) : (sortLe le l).Perm l := by
  induction l with
  | nil => exact List.Perm.refl _
  | cons a t ih =>
    exact (insertLe_perm le a (sortLe le t)).trans (ih.cons a)

theorem insertLe_pairwise (le : α → α → Bool)
    (htrans : ∀ a b c, le a b = true → le b c = true → le a c = true)
    (htot : ∀ a b, le a b = true ∨ le b a = true)
    (a : α) (l : List α) (hl : l.Pairwise (fun x y => le x y = true)) :
    (insertLe le a l).Pairwise (fun x y => le x y = true) := by
  induction l with
  | nil => simp [insertLe]
  | cons b t ih =>
    rcases hl with _ | ⟨hb, ht⟩
    unfold insertLe
    by_cases h : le a b
    · rw [if_pos h]
      refine List.Pairwise.cons ?_ (List.Pairwise.cons hb ht)
      intro x hx
      rcases List.mem_cons.mp hx with hx | hx
      · exact hx ▸ h
      · exact htrans a b x h (hb x hx)
    · rw [if_neg h]
      have hba : le b a = true := (htot a b).resolve_left h
      refine List.Pairwise.cons ?_ (ih ht)
      intro x hx
      have hx' := (insertLe_perm le a t).mem_iff.mp hx
      rcases List.mem_cons.mp hx' with hx' | hx'
      · exact hx' ▸ hba
      · exact hb x hx'

theorem sortLe_pairwise (le : α → α → Bool)
    (htrans : ∀ a b c, le a b = true → le b c = true → le a c = true)
    (htot : ∀ a b, le a b = true ∨ le b a = true)
    (l : List α) : (sortLe le l).Pairwise (fun x y => le x y = true) := by
  induction l with
  | nil => simp [sortLe]
  | cons a t ih => exact insertLe_pairwise le htrans htot a (sortLe le t) ih

theorem sortLe_eq_of_perm (le : α → α → Bool)
    (hanti : ∀ a b, le a b = true → le b a = true → a = b)
    (htrans : ∀ a b c, le a b = true → le b c = true → le a c = true)
    (htot : ∀ a b, le a b = true ∨ le b a = true)
    (l₁ l₂ : List α) (hp : l₁.Perm l₂) : sortLe le l₁ = sortLe le l₂ := by
  haveI : IsAntisymm α (fun a b => le a b = true) := ⟨hanti⟩
  refine List.eq_of_perm_of_sorted ?_ (sortLe_pairwise le htrans htot l₁)
    (sortLe_pairwise le htrans htot l₂)
  exact (sortLe_perm le l₁).trans (hp.trans (sortLe_perm le l₂).symm)

theorem chLe_total (a b : List Char) : chLe a b = true ∨ chLe b a = true := by
  induction a generalizing b with
  | nil => left; rfl
  | cons c cs ih =>
    cases b with
    | nil => right; rfl
    | cons d ds =>
      unfold chLe
      rcases Nat.lt_trichotomy c.toNat d.toNat with h | h | h
      · left; simp [h]
      · have h1 : ¬ c.toNat < d.toNat := by omega
        have h2 : ¬ d.toNat < c.toNat := by omega
        simp only [h1, h2, if_false]
        exact ih ds
      · right; simp [h]

theorem chLe_trans (a b c : List Char) (h1 : chLe a b = true) (h2 : chLe b c = true) :
    chLe a c = true := by
  induction a generalizing b c with
  | nil => rfl
  | cons x xs ih =>
    cases b with
    | nil => simp [chLe] at h1
    | cons y ys =>
      cases c with
      | nil => simp [chLe] at h2
      | cons z zs =>
        unfold chLe at h1 h2 ⊢
        by_cases hxy : x.toNat < y.toNat
        · by_cases hyz : y.toNat < z.toNat
          · have : x.toNat < z.toNat := by omega
            simp [this]
          · by_cases hzy : z.toNat < y.toNat
            · simp [hyz, hzy] at h2
            · have : x.toNat < z.toNat := by omega
              simp [this]
        · by_cases hyx : y.toNat < x.toNat
          · simp [hxy, hyx] at h1
          · simp only [hxy, hyx, if_false] at h1
            by_cases hyz : y.toNat < z.toNat
            · have : x.toNat < z.toNat := by omega
              simp [this]
            · by_cases hzy : z.toNat < y.toNat
              · simp [hyz, hzy] at h2
              · simp only [hyz, hzy, if_false] at h2
                have hxz1 : ¬ x.toNat < z.toNat := by omega
                have hxz2 : ¬ z.toNat < x.toNat := by omega
                simp only [hxz1, hxz2, if_false]
                exact ih ys zs h1 h2

theorem chLe_antisymm (a b : List Char) (h1 : chLe a b = true) (h2 : chLe b a = true) :
    a = b := by
  induction a generalizing b with
  | nil =>
    cases b with
    | nil => rfl
    | cons d ds => simp [chLe] at h2
  | cons c cs ih =>
    cases b with
    | nil => simp [chLe] at h1
    | cons d ds =>
      unfold chLe at h1 h2
      rcases Nat.lt_trichotomy c.toNat d.toNat with h | h | h
      · exfalso; revert h2; simp [h]; omega
      · have hne1 : ¬ c.toNat < d.toNat := by omega
        have hne2 : ¬ d.toNat < c.toNat := by omega
        simp only [hne1, hne2, if_false] at h1 h2
        have hcd : c = d := Char.eq_of_val_eq (UInt32.eq_of_val_eq (Fin.ext h))
        rw [hcd, ih ds h1 h2]
      · exfalso; revert h1; simp [h]; omega

theorem strLeB_total (a b : String) : strLeB a b = true ∨ strLeB b a = true :=
  chLe_total a.data b.data

theorem strLeB_trans (a b c : String) (h1 : strLeB a b = true) (h2 : strLeB b c = true) :
    strLeB a c = true :=
  chLe_trans a.data b.data c.data h1 h2

theorem strLeB_antisymm (a b : String) (h1 : strLeB a b = true) (h2 : strLeB b a = true) :
    a = b :=
  String.ext (chLe_antisymm a.data b.data h1 h2)

theorem pairLeB_total (a b : String × String) : pairLeB a b = true ∨ pairLeB b a = true := by
  unfold pairLeB
  by_cases h : a.1 = b.1
  · simp [h, strLeB_total a.2 b.2]
  · have h' : ¬ b.1 = a.1 := fun e => h e.symm
    simp [h, h', strLeB_total a.1 b.1]

theorem pairLeB_trans (a b c : String × String) (h1 : pairLeB a b = true)
    (h2 : pairLeB b c = true) : pairLeB a c = true := by
  unfold pairLeB at h1 h2 ⊢
  by_cases hab : a.1 = b.1
  · by_cases hbc : b.1 = c.1
    · have hac : a.1 = c.1 := hab.trans hbc
      rw [if_pos hab] at h1
      rw [if_pos hbc] at h2
      rw [if_pos hac]
      exact strLeB_trans _ _ _ h1 h2
    · have hac : ¬ a.1 = c.1 := fun e => hbc (hab.symm.trans e)
      rw [if_neg hbc] at h2
      rw [if_neg hac, hab]
      exact h2
  · by_cases hbc : b.1 = c.1
    · have hac : ¬ a.1 = c.1 := fun e => hab (e.trans hbc.symm)
      rw [if_neg hab] at h1
      rw [if_neg hac, ← hbc]
      exact h1
    · rw [if_neg hab] at h1
      rw [if_neg hbc] at h2
      by_cases hac : a.1 = c.1
      · exfalso
        rw [← hac] at h2
        exact hab (strLeB_antisymm _ _ h1 h2)
      · rw [if_neg hac]
        exact strLeB_trans _ _ _ h1 h2

theorem pairLeB_antisymm (a b : String × String) (h1 : pairLeB a b = true)
    (h2 : pairLeB b a = true) : a = b := by
  unfold pairLeB at h1 h2
  by_cases hab : a.1 = b.1
  · rw [if_pos hab] at h1
    have hba : b.1 = a.1 := hab.symm
    rw [if_pos hba] at h2
    have := strLeB_antisymm _ _ h1 h2
    exact Prod.ext hab this
  · have hba : ¬ b.1 = a.1 := fun e => hab e.symm
    rw [if_neg hab] at h1
    rw [if_neg hba] at h2
    exact absurd (strLeB_antisymm _ _ h1 h2) hab

/-- Association-list lookup is invariant under permutation when the keys
are distinct (the dictionary semantics of Python dicts). -/
theorem dget_perm (l₁ l₂ : List (String × α)) (hp : l₁.Perm l₂)
    (hnd : (l₁.map Prod.fst).Nodup) (k : String) : dget l₁ k = dget l₂ k := by
  induction hp with
  | nil => rfl
  | cons x _ ih =>
    simp only [List.map_cons, List.nodup_cons] at hnd
    simp only [dget]
    by_cases hx : x.1 = k
    · simp [hx]
    · simp only [hx, if_false]
      exact ih hnd.2
  | swap x y l =>
    simp only [List.map_cons, List.nodup_cons, List.mem_cons] at hnd
    have hyx : ¬ y.1 = x.1 := fun e => hnd.1 (Or.inl e)
    simp only [dget]
    by_cases hy : y.1 = k
    · by_cases hx : x.1 = k
      · exact absurd (hy.trans hx.symm) hyx
      · simp [hy, hx]
    · simp [hy]
  | trans h₁ _ ih₁ ih₂ =>
    rename_i l₁' l₂' l₃' _
    refine (ih₁ hnd).trans (ih₂ ?_)
    have : (l₁'.map Prod.fst).Perm (l₂'.map Prod.fst) := h₁.map Prod.fst
    exact this.nodup_iff.mp hnd

/-! ### Merge-loop lookup characterizations -/

theorem foldl_fun_ext (f g : β → α → β) (l : List α) (init : β)
    (h : ∀ acc x, f acc x = g acc x) : l.foldl f init = l.foldl g init := by
  induction l generalizing init with
  | nil => rfl
  | cons a rest ih => simp only [List.foldl_cons, h, ih]

theorem Versioned.unchangedLoop_dget (theirKS ourKS : List (String × String)) (keys : List String)
    (k : String) :
    dget (Versioned.unchangedLoop theirKS ourKS keys) k =
      if k ∈ keys ∧ (dmem theirKS k ∨ dmem ourKS k) then
        some (if dmem theirKS k then (dget theirKS k).getD "" else (dget ourKS k).getD "")
      else none := by
  unfold Versioned.unchangedLoop
  rw [foldl_fun_ext _
    (fun m k' => if (decide (dmem theirKS k' ∨ dmem ourKS k')) then
      dset m k' (if dmem theirKS k' then (dget theirKS k').getD "" else (dget ourKS k').getD "")
      else m)]
  · rw [dget_foldl_ite]
    by_cases h1 : k ∈ keys ∧ (dmem theirKS k ∨ dmem ourKS k)
    · rw [if_pos ⟨h1.1, by simpa using h1.2⟩, if_pos h1]
    · rw [if_neg (fun hc => h1 ⟨hc.1, by simpa using hc.2⟩), if_neg h1]
      simp [dget]
  · intro m k'
    by_cases ht : dmem theirKS k'
    · simp [ht]
    · by_cases ho : dmem ourKS k'
      · simp [ht, ho]
      · simp [ht, ho]

theorem Versioned.oursLoop_fst (ourRemoved : List String) (ourKS : List (String × String))
    (keys : List String) (m0 : List (String × String)) (a0 : List String) :
    (keys.foldl
      (fun (acc : List (String × String) × List String) k =>
        if k ∈ ourRemoved then acc
        else (dset acc.1 k ((dget ourKS k).getD ""), acc.2 ++ [k]))
      (m0, a0)).1 =
      keys.foldl
        (fun m k => if decide (k ∉ ourRemoved) then dset m k ((dget ourKS k).getD "") else m)
        m0 := by
  induction keys generalizing m0 a0 with
  | nil => rfl
  | cons a rest ih =>
    simp only [List.foldl_cons]
    by_cases h : a ∈ ourRemoved
    · rw [if_pos h, if_neg (by simpa using h)]
      exact ih m0 a0
    · rw [if_neg h, if_pos (by simpa using h)]
      exact ih _ _

theorem Versioned.oursLoop_dget (ourRemoved : List String) (ourKS : List (String × String))
    (keys : List String) (m0 : List (String × String)) (k : String) :
    dget (Versioned.oursLoop ourRemoved ourKS keys m0).1 k =
      if k ∈ keys ∧ k ∉ ourRemoved then some ((dget ourKS k).getD "") else dget m0 k := by
  unfold Versioned.oursLoop
  rw [Versioned.oursLoop_fst, dget_foldl_ite]
  by_cases h : k ∈ keys ∧ k ∉ ourRemoved
  · rw [if_pos ⟨h.1, by simpa using h.2⟩, if_pos h]
  · rw [if_neg (fun hc => h ⟨hc.1, by simpa using hc.2⟩), if_neg h]

theorem Versioned.theirsLoop_dget (theirRemoved : List String) (theirKS : List (String × String))
    (keys : List String) (m0 : List (String × String)) (k : String) :
    dget (Versioned.theirsLoop theirRemoved theirKS keys m0) k =
      if k ∈ keys ∧ k ∉ theirRemoved then some ((dget theirKS k).getD "") else dget m0 k := by
  unfold Versioned.theirsLoop
  rw [foldl_fun_ext _
    (fun m k' => if decide (k' ∉ theirRemoved) then dset m k' ((dget theirKS k').getD "") else m)]
  · rw [dget_foldl_ite]
    by_cases h : k ∈ keys ∧ k ∉ theirRemoved
    · rw [if_pos ⟨h.1, by simpa using h.2⟩, if_pos h]
    · rw [if_neg (fun hc => h ⟨hc.1, by simpa using hc.2⟩), if_neg h]
  · intro m k'
    by_cases h : k' ∈ theirRemoved
    · simp [h]
    · simp [h]

theorem Versioned.contestedLoop_nil (store : Store) (lcaKS ourKS theirKS : List (String × String))
    (ourRemoved theirRemoved : List String) (effectiveFns : List (String × MergeFn))
    (effectiveDefault : Option MergeFn) (m0 : List (String × String)) (auto0 : List String) :
    Versioned.contestedLoop store lcaKS ourKS theirKS ourRemoved theirRemoved effectiveFns
      effectiveDefault [] m0 auto0 = ⟨m0, [], auto0, []⟩ := rfl

/-! ### Diff membership characterizations -/

theorem diff_added_mem (v : Versioned) (a b : String) (k : String) :
    k ∈ (v.diff a b).added ↔
      k ∈ (Versioned.loadKeyset v.store b).map Prod.fst ∧
      k ∉ (Versioned.loadKeyset v.store a).map Prod.fst := by
  simp [Versioned.diff, List.mem_filter]

theorem diff_removed_mem (v : Versioned) (a b : String) (k : String) :
    k ∈ (v.diff a b).removed ↔
      k ∈ (Versioned.loadKeyset v.store a).map Prod.fst ∧
      k ∉ (Versioned.loadKeyset v.store b).map Prod.fst := by
  simp [Versioned.diff, List.mem_filter]

theorem diff_modified_mem (v : Versioned) (a b : String) (k : String) :
    k ∈ (v.diff a b).modified ↔
      (k ∈ (Versioned.loadKeyset v.store a).map Prod.fst ∧
       k ∈ (Versioned.loadKeyset v.store b).map Prod.fst) ∧
      dget (Versioned.loadKeyset v.store a) k ≠ dget (Versioned.loadKeyset v.store b) k := by
  simp only [Versioned.diff, List.mem_filter, List.mem_map, decide_eq_true_eq]

theorem mem_changedKeys (d : DiffResult) (k : String) :
    k ∈ Versioned.changedKeys d ↔ k ∈ d.added ∨ k ∈ d.removed ∨ k ∈ d.modified := by
  simp [Versioned.changedKeys]

/-- With no key contested, the per-key resolution yields no conflicts,
no resolver outputs, and exactly the keyset the claim describes. -/
theorem mergePlan_disjoint (v : Versioned) (lca th : String)
    (fns : List (String × MergeFn)) (dm : Option MergeFn)
    (hdisj : ∀ k, k ∈ Versioned.changedKeys (v.diff lca v.current_commit) →
      k ∉ Versioned.changedKeys (v.diff lca th)) :
    (Versioned.mergePlan v lca th fns dm).conflicts = [] ∧
    (Versioned.mergePlan v lca th fns dm).mergedVals = [] ∧
    ∀ k, dget (Versioned.mergePlan v lca th fns dm).mergedKS k =
      specMergeKeyset (v.diff lca v.current_commit) (v.diff lca th)
        (Versioned.loadKeyset v.store lca) (Versioned.loadKeyset v.store v.current_commit)
        (Versioned.loadKeyset v.store th) k := by
  have hcont : (Versioned.changedKeys (v.diff lca v.current_commit)).filter
      (fun k => decide (k ∈ Versioned.changedKeys (v.diff lca th))) = [] := by
    rw [List.filter_eq_nil_iff]
    intro a ha
    simpa using hdisj a ha
  unfold Versioned.mergePlan
  simp only [hcont, Versioned.contestedLoop_nil]
  refine ⟨trivial, trivial, ?_⟩
  intro k
  simp only [Versioned.theirsLoop_dget, Versioned.oursLoop_dget, Versioned.unchangedLoop_dget]
  -- abbreviations
  set od := v.diff lca v.current_commit with hod
  set td := v.diff lca th with htd
  set lcaKS := Versioned.loadKeyset v.store lca with hlk
  set ourKS := Versioned.loadKeyset v.store v.current_commit with hok
  set theirKS := Versioned.loadKeyset v.store th with htk
  have hdisj' : ∀ x, x ∈ Versioned.changedKeys td → x ∉ Versioned.changedKeys od :=
    fun x hx hc => hdisj x hc hx
  have hoA := diff_added_mem v lca v.current_commit k
  have hoR := diff_removed_mem v lca v.current_commit k
  have hoM := diff_modified_mem v lca v.current_commit k
  have htA := diff_added_mem v lca th k
  have htR := diff_removed_mem v lca th k
  have htM := diff_modified_mem v lca th k
  rw [← hod] at hoA hoR hoM
  rw [← htd] at htA htR htM
  rw [← hlk, ← hok] at hoA hoR hoM
  rw [← hlk, ← htk] at htA htR htM
  unfold specMergeKeyset
  by_cases hrem : k ∈ od.removed ∨ k ∈ td.removed
  · rw [if_pos hrem]
    rcases hrem with hr | hr
    · have hco : k ∈ Versioned.changedKeys od := (mem_changedKeys od k).mpr (Or.inr (Or.inl hr))
      have hct : k ∉ Versioned.changedKeys td := hdisj k hco
      rw [if_neg (fun hc => hct (List.mem_filter.mp hc.1).1)]
      rw [if_neg (fun hc => hc.2 hr)]
      rw [if_neg (fun hc => by
        have := (List.mem_filter.mp hc.1).2
        simp only [decide_eq_true_eq, List.mem_append] at this
        exact this (Or.inl hco))]
    · have hct : k ∈ Versioned.changedKeys td := (mem_changedKeys td k).mpr (Or.inr (Or.inl hr))
      have hco : k ∉ Versioned.changedKeys od := hdisj' k hct
      rw [if_neg (fun hc => hc.2 hr)]
      rw [if_neg (fun hc => hco (List.mem_filter.mp hc.1).1)]
      rw [if_neg (fun hc => by
        have := (List.mem_filter.mp hc.1).2
        simp only [decide_eq_true_eq, List.mem_append] at this
        exact this (Or.inr hct))]
  · rw [if_neg hrem]
    have hor : k ∉ od.removed := fun h => hrem (Or.inl h)
    have htr : k ∉ td.removed := fun h => hrem (Or.inr h)
    by_cases hours : k ∈ od.added ∨ k ∈ od.modified
    · rw [if_pos hours]
      have hco : k ∈ Versioned.changedKeys od := (mem_changedKeys od k).mpr
        (hours.elim Or.inl (fun h => Or.inr (Or.inr h)))
      have hct : k ∉ Versioned.changedKeys td := hdisj k hco
      rw [if_neg (fun hc => hct (List.mem_filter.mp hc.1).1)]
      rw [if_pos ⟨List.mem_filter.mpr ⟨hco, by simpa using hct⟩, hor⟩]
      have hsome : (dget ourKS k).isSome := by
        rw [dget_isSome_iff]
        rcases hours with h | h
        · exact (hoA.mp h).1
        · exact ((hoM.mp h).1).2
      cases hd : dget ourKS k
      · rw [hd] at hsome; simp at hsome
      · simp [hd]
    · rw [if_neg hours]
      have hco : k ∉ Versioned.changedKeys od := by
        rw [mem_changedKeys]
        rintro (h | h | h)
        · exact hours (Or.inl h)
        · exact hor h
        · exact hours (Or.inr h)
      by_cases htheirs : k ∈ td.added ∨ k ∈ td.modified
      · rw [if_pos htheirs]
        have hct : k ∈ Versioned.changedKeys td := (mem_changedKeys td k).mpr
          (htheirs.elim Or.inl (fun h => Or.inr (Or.inr h)))
        rw [if_pos ⟨List.mem_filter.mpr ⟨hct, by simpa using hco⟩, htr⟩]
        have hsome : (dget theirKS k).isSome := by
          rw [dget_isSome_iff]
          rcases htheirs with h | h
          · exact (htA.mp h).1
          · exact ((htM.mp h).1).2
        cases hd : dget theirKS k
        · rw [hd] at hsome; simp at hsome
        · simp [hd]
      · rw [if_neg htheirs]
        have hct : k ∉ Versioned.changedKeys td := by
          rw [mem_changedKeys]
          rintro (h | h | h)
          · exact htheirs (Or.inl h)
          · exact htr h
          · exact htheirs (Or.inr h)
        rw [if_neg (fun hc => hct (List.mem_filter.mp hc.1).1)]
        rw [if_neg (fun hc => hco (List.mem_filter.mp hc.1).1)]
        -- unchanged by both sides
        by_cases hmt : dmem theirKS k
        · -- present at the head, hence (being unchanged) an LCA survivor
          have hklca : dmem lcaKS k := by
            by_contra habs
            refine hct ((mem_changedKeys td k).mpr (Or.inl (htA.mpr ⟨?_, ?_⟩)))
            · exact (dmem_iff theirKS k).mp hmt
            · intro hmem
              exact habs ((dmem_iff lcaKS k).mpr hmem)
          rw [if_pos hklca]
          have hmem : k ∈ List.map Prod.fst ourKS ++
              (List.map Prod.fst theirKS).filter (fun x => decide (x ∉ List.map Prod.fst ourKS)) := by
            by_cases hmo : k ∈ List.map Prod.fst ourKS
            · exact List.mem_append.mpr (Or.inl hmo)
            · exact List.mem_append.mpr (Or.inr (List.mem_filter.mpr
                ⟨(dmem_iff theirKS k).mp hmt, by simpa using hmo⟩))
          rw [if_pos ⟨List.mem_filter.mpr ⟨hmem, by
            simp only [decide_eq_true_eq, List.mem_append]
            rintro (h | h)
            · exact hco h
            · exact hct h⟩, Or.inl hmt⟩]
          rw [if_pos hmt]
          have hsome : (dget theirKS k).isSome := hmt
          cases hd : dget theirKS k
          · rw [hd] at hsome; simp at hsome
          · simp [hd]
        · -- not at the head: being unchanged it can be nowhere at all
          have hnlca : ¬ dmem lcaKS k := by
            intro habs
            exact hct ((mem_changedKeys td k).mpr (Or.inr (Or.inl (htR.mpr
              ⟨(dmem_iff lcaKS k).mp habs, fun h => hmt ((dmem_iff theirKS k).mpr h)⟩))))
          rw [if_neg hnlca]
          by_cases hmo : dmem ourKS k
          · exfalso
            refine hco ((mem_changedKeys od k).mpr (Or.inl (hoA.mpr ⟨?_, ?_⟩)))
            · exact (dmem_iff ourKS k).mp hmo
            · intro h
              exact hnlca ((dmem_iff lcaKS k).mpr h)
          · rw [if_neg (fun hc => hc.2.elim hmt hmo)]

/-! ### Write batches never touch foreign reserved keys -/

theorem foldl_proj_append {σ γ δ : Type} (proj : σ → List δ) (step : σ → γ → σ)
    (P : δ → Prop) (l : List γ) (init : σ)
    (h : ∀ acc x, ∃ suffix, proj (step acc x) = proj acc ++ suffix ∧ ∀ kv ∈ suffix, P kv) :
    ∀ kv ∈ proj (l.foldl step init), kv ∈ proj init ∨ P kv := by
  induction l generalizing init with
  | nil => exact fun kv hkv => Or.inl hkv
  | cons a rest ih =>
    intro kv hkv
    rcases ih (step init a) kv hkv with hin | hP
    · rcases h init a with ⟨suffix, hs, hsP⟩
      rw [hs] at hin
      rcases List.mem_append.mp hin with hin | hin
      · exact Or.inl hin
      · exact Or.inr (hsP kv hin)
    · exact Or.inr hP

theorem applyUpdates_diff_keys (newHash : String) (updates : List (String × Bytes))
    (newKeys0 : List (String × String)) (newMeta0 : List (String × MetaEntry))
    (touch0 now : Nat) :
    ∀ kv ∈ (Versioned.applyUpdates newHash updates newKeys0 newMeta0 touch0 now).1,
      ∃ key, kv.1 = newHash ++ ":" ++ key := by
  intro kv hkv
  have := foldl_proj_append (σ := List (String × Val) × List (String × String) ×
      List (String × MetaEntry) × Nat) (fun acc => acc.1) _
    (fun kv => ∃ key, kv.1 = newHash ++ ":" ++ key) updates ([], newKeys0, newMeta0, touch0)
    (fun acc x => by
      by_cases h : (dget acc.2.2.1 x.1).isSome
      · cases hd : dget acc.2.2.1 x.1 with
        | none => rw [hd] at h; simp at h
        | some e =>
          refine ⟨[(newHash ++ ":" ++ x.1, Val.blob x.2)], ?_, ?_⟩
          · simp [hd]
          · rintro kv' hkv'
            rcases List.mem_cons.mp hkv' with h' | h'
            · exact ⟨x.1, by rw [h']⟩
            · simp at h'
      · cases hd : dget acc.2.2.1 x.1 with
        | some e => rw [hd] at h; simp at h
        | none =>
          refine ⟨[(newHash ++ ":" ++ x.1, Val.blob x.2)], ?_, ?_⟩
          · simp [hd]
          · rintro kv' hkv'
            rcases List.mem_cons.mp hkv' with h' | h'
            · exact ⟨x.1, by rw [h']⟩
            · simp at h')
    kv hkv
  rcases this with hin | hP
  · simp at hin
  · exact hP

/-- A blob pointer written as `hash ++ ":" ++ key` is never reserved. -/
theorem hashPtr_ne_reserved (parents : List String) (keyset : List (String × String))
    (updates : List (String × Bytes)) (info : Option (List (String × String)))
    (key r : String) (hr : startsUnderscore r) :
    contentHash parents keyset updates info ++ ":" ++ key ≠ r := by
  have : contentHash parents keyset updates info ++ ":" ++ key =
      contentHash parents keyset updates info ++ (":" ++ key) := by
    apply String.ext
    simp [String.data_append]
  rw [this]
  exact hashBlobKey_ne_reserved parents keyset updates info (":" ++ key) r hr

theorem commitRecords_keys (newHash : String) (parents : List String)
    (newKeys : List (String × String)) (newMeta : List (String × MetaEntry))
    (info : Option (List (String × String))) :
    ∀ kv ∈ Versioned.commitRecords newHash parents newKeys newMeta info,
      kv.1 = COMMIT_KEYSET newHash ∨ kv.1 = PARENT_COMMIT newHash ∨
      kv.1 = META_KEY newHash ∨ kv.1 = TOTAL_VAR_SIZE_KEY newHash ∨
      kv.1 = INFO_KEY newHash := by
  intro kv hkv
  unfold Versioned.commitRecords at hkv
  rcases List.mem_append.mp hkv with h | h
  · rcases List.mem_cons.mp h with h | h
    · exact Or.inl (by rw [h])
    rcases List.mem_cons.mp h with h | h
    · exact Or.inr (Or.inl (by rw [h]))
    rcases List.mem_cons.mp h with h | h
    · exact Or.inr (Or.inr (Or.inl (by rw [h])))
    rcases List.mem_cons.mp h with h | h
    · exact Or.inr (Or.inr (Or.inr (Or.inl (by rw [h]))))
    · simp at h
  · cases info with
    | none => simp at h
    | some i =>
      rcases List.mem_cons.mp h with h | h
      · exact Or.inr (Or.inr (Or.inr (Or.inr (by rw [h]))))
      · simp at h

/-- Looking up the keyset record right after the record batch. -/
theorem get_records_keyset (s : Store) (h : String) (parents : List String)
    (ks : List (String × String)) (m : List (String × MetaEntry))
    (info : Option (List (String × String))) :
    Store.get (Store.setMany s (Versioned.commitRecords h parents ks m info))
      (COMMIT_KEYSET h) = some (.keyset ks) := by
  cases info with
  | none =>
    simp only [Versioned.commitRecords, List.append_nil, Store.setMany,
      List.foldl_cons, List.foldl_nil]
    rw [Store.get_set, if_neg (fun e => KEYSET_ne_TOTAL h h e.symm)]
    rw [Store.get_set, if_neg (fun e => KEYSET_ne_META h h e.symm)]
    rw [Store.get_set, if_neg (fun e => KEYSET_ne_PARENT h h e.symm)]
    rw [Store.get_set, if_pos rfl]
  | some i =>
    simp only [Versioned.commitRecords, Store.setMany, List.foldl_append,
      List.foldl_cons, List.foldl_nil]
    rw [Store.get_set, if_neg (fun e => KEYSET_ne_INFO h h e.symm)]
    rw [Store.get_set, if_neg (fun e => KEYSET_ne_TOTAL h h e.symm)]
    rw [Store.get_set, if_neg (fun e => KEYSET_ne_META h h e.symm)]
    rw [Store.get_set, if_neg (fun e => KEYSET_ne_PARENT h h e.symm)]
    rw [Store.get_set, if_pos rfl]

/-- Looking up the meta record right after the record batch. -/
theorem get_records_meta (s : Store) (h : String) (parents : List String)
    (ks : List (String × String)) (m : List (String × MetaEntry))
    (info : Option (List (String × String))) :
    Store.get (Store.setMany s (Versioned.commitRecords h parents ks m info))
      (META_KEY h) = some (.meta m) := by
  cases info with
  | none =>
    simp only [Versioned.commitRecords, List.append_nil, Store.setMany,
      List.foldl_cons, List.foldl_nil]
    rw [Store.get_set, if_neg (fun e => META_ne_TOTAL h h e.symm)]
    rw [Store.get_set, if_pos rfl]
  | some i =>
    simp only [Versioned.commitRecords, Store.setMany, List.foldl_append,
      List.foldl_cons, List.foldl_nil]
    rw [Store.get_set, if_neg (fun e => META_ne_INFO h h e.symm)]
    rw [Store.get_set, if_neg (fun e => META_ne_TOTAL h h e.symm)]
    rw [Store.get_set, if_pos rfl]

/-- Looking up the total-size record right after the record batch: it
carries the sum of sizes over every meta entry. -/
theorem get_records_total (s : Store) (h : String) (parents : List String)
    (ks : List (String × String)) (m : List (String × MetaEntry))
    (info : Option (List (String × String))) :
    Store.get (Store.setMany s (Versioned.commitRecords h parents ks m info))
      (TOTAL_VAR_SIZE_KEY h) = some (.size ((m.map (fun e => (e.2.size).getD 0)).sum)) := by
  cases info with
  | none =>
    simp only [Versioned.commitRecords, List.append_nil, Store.setMany,
      List.foldl_cons, List.foldl_nil]
    rw [Store.get_set, if_pos rfl]
  | some i =>
    simp only [Versioned.commitRecords, Store.setMany, List.foldl_append,
      List.foldl_cons, List.foldl_nil]
    rw [Store.get_set, if_neg (fun e => TOTAL_ne_INFO h h e.symm)]
    rw [Store.get_set, if_pos rfl]

/-- The local-commit batch never touches a branch-head record. -/
theorem createCommit_get_head (v : Versioned) (updates : List (String × Bytes))
    (removals : List String) (info : Option (List (String × String))) (now : Nat)
    (b : String) :
    Store.get (v.createCommit updates removals info now).2.store (BRANCH_HEAD b) =
      Store.get v.store (BRANCH_HEAD b) := by
  have hstore : (v.createCommit updates removals info now).2.store =
      v.store.setMany
        ((Versioned.applyUpdates (contentHash [v.current_commit]
            (Versioned.previewKeyset updates (Versioned.carryKeyset v.commit_keys v.meta removals).1)
            updates info) updates (Versioned.carryKeyset v.commit_keys v.meta removals).1
            (Versioned.carryKeyset v.commit_keys v.meta removals).2 v.touch_counter now).1
         ++ Versioned.commitRecords (contentHash [v.current_commit]
            (Versioned.previewKeyset updates (Versioned.carryKeyset v.commit_keys v.meta removals).1)
            updates info) [v.current_commit]
            (Versioned.applyUpdates (contentHash [v.current_commit]
              (Versioned.previewKeyset updates (Versioned.carryKeyset v.commit_keys v.meta removals).1)
              updates info) updates (Versioned.carryKeyset v.commit_keys v.meta removals).1
              (Versioned.carryKeyset v.commit_keys v.meta removals).2 v.touch_counter now).2.1
            (Versioned.applyUpdates (contentHash [v.current_commit]
              (Versioned.previewKeyset updates (Versioned.carryKeyset v.commit_keys v.meta removals).1)
              updates info) updates (Versioned.carryKeyset v.commit_keys v.meta removals).1
              (Versioned.carryKeyset v.commit_keys v.meta removals).2 v.touch_counter now).2.2.1
            info) := rfl
  rw [hstore]
  apply Store.get_setMany_of_not_mem
  intro kv hkv
  rcases List.mem_append.mp hkv with h | h
  · obtain ⟨key, hkey⟩ := applyUpdates_diff_keys _ _ _ _ _ _ kv h
    rw [hkey]
    exact hashPtr_ne_reserved _ _ _ _ _ _ (HEAD_underscore b)
  · rcases commitRecords_keys _ _ _ _ _ kv h with h' | h' | h' | h' | h' <;> rw [h']
    · exact KEYSET_ne_HEAD _ _
    · exact PARENT_ne_HEAD _ _
    · exact (HEAD_ne_META _ _).symm
    · exact (HEAD_ne_TOTAL _ _).symm
    · exact (HEAD_ne_INFO _ _).symm

/-- The merge-commit batch never touches a branch-head record. -/
theorem mergeWrite_get_head (v : Versioned) (th : String) (plan : Versioned.MergePlan)
    (info : Option (List (String × String))) (now : Nat) (b : String) :
    Store.get (Versioned.mergeWrite v th plan info now).store (BRANCH_HEAD b) =
      Store.get v.store (BRANCH_HEAD b) := by
  unfold Versioned.mergeWrite
  apply Store.get_setMany_of_not_mem
  intro kv hkv
  rcases List.mem_append.mp hkv with h | h
  · have := foldl_proj_append (σ := List (String × Val) × List (String × String))
      (fun acc => acc.1) _
      (fun kv => ∃ key, kv.1 = contentHash [th, v.current_commit]
        (Versioned.previewKeyset plan.mergedVals plan.mergedKS) plan.mergedVals info
        ++ ":" ++ key) plan.mergedVals ([], plan.mergedKS)
      (fun acc x => ⟨[(contentHash [th, v.current_commit]
          (Versioned.previewKeyset plan.mergedVals plan.mergedKS) plan.mergedVals info
          ++ ":" ++ x.1, Val.blob x.2)], rfl, by
        rintro kv' hkv'
        rcases List.mem_cons.mp hkv' with h' | h'
        · exact ⟨x.1, by rw [h']⟩
        · simp at h'⟩)
      kv h
    rcases this with hin | ⟨key, hkey⟩
    · simp at hin
    · rw [hkey]
      exact hashPtr_ne_reserved _ _ _ _ _ _ (HEAD_underscore b)
  · rcases commitRecords_keys _ _ _ _ _ kv h with h2 | h2 | h2 | h2 | h2
    · rw [h2]; exact KEYSET_ne_HEAD _ _
    · rw [h2]; exact PARENT_ne_HEAD _ _
    · rw [h2]; exact (HEAD_ne_META _ _).symm
    · rw [h2]; exact (HEAD_ne_TOTAL _ _).symm
    · rw [h2]; exact (HEAD_ne_INFO _ _).symm

/-- `_create_commit` persists the meta and total-size records of the
new commit, the total being the sum over every meta entry. -/
theorem createCommit_records (v : Versioned) (updates : List (String × Bytes))
    (removals : List String) (info : Option (List (String × String))) (now : Nat) :
    Store.get (v.createCommit updates removals info now).2.store
        (META_KEY (v.createCommit updates removals info now).1)
      = some (.meta (v.createCommit updates removals info now).2.meta) ∧
    Store.get (v.createCommit updates removals info now).2.store
        (TOTAL_VAR_SIZE_KEY (v.createCommit updates removals info now).1)
      = some (.size (((v.createCommit updates removals info now).2.meta.map
          (fun e => (e.2.size).getD 0)).sum)) := by
  unfold Versioned.createCommit
  simp only [Store.setMany_append]
  exact ⟨get_records_meta _ _ _ _ _ _, get_records_total _ _ _ _ _ _⟩

/-- The merge-commit write phase persists the meta and total-size
records, the total being the sum over every merged meta entry. -/
theorem mergeWrite_records (v : Versioned) (th : String) (plan : Versioned.MergePlan)
    (info : Option (List (String × String))) (now : Nat) :
    Store.get (Versioned.mergeWrite v th plan info now).store
        (META_KEY (Versioned.mergeWrite v th plan info now).mergeHash)
      = some (.meta (Versioned.mergeWrite v th plan info now).mergedMeta) ∧
    Store.get (Versioned.mergeWrite v th plan info now).store
        (TOTAL_VAR_SIZE_KEY (Versioned.mergeWrite v th plan info now).mergeHash)
      = some (.size (((Versioned.mergeWrite v th plan info now).mergedMeta.map
          (fun e => (e.2.size).getD 0)).sum)) := by
  unfold Versioned.mergeWrite
  simp only [Store.setMany_append]
  exact ⟨get_records_meta _ _ _ _ _ _, get_records_total _ _ _ _ _ _⟩

/-- Keys written by the protected-blob copy loop of the rebase write
phase are all `<hash>:<key>` pointers. -/
theorem protStep_keys (g : GCVersioned) (H : String) :
    ∀ kv ∈ ((g.commit_keys.filter (fun kv => g.is_protected kv.1)).foldl
      (fun (acc : List (String × Val) × List (String × String)) kv =>
        match Versioned.getBlob g.store kv.2 with
        | none => acc
        | some value =>
          (acc.1 ++ [(H ++ ":" ++ kv.1, Val.blob value)],
           dset acc.2 kv.1 (H ++ ":" ++ kv.1)))
      ([], [])).1, ∃ key, kv.1 = H ++ ":" ++ key := by
  intro kv h
  rcases foldl_proj_append (fun (acc : List (String × Val) × List (String × String)) => acc.1)
    _ (fun kv => ∃ key, kv.1 = H ++ ":" ++ key)
    (g.commit_keys.filter (fun kv => g.is_protected kv.1)) ([], [])
    (fun acc x => by
      cases hb : Versioned.getBlob g.store x.2 with
      | none => exact ⟨[], by simp, by intro kv' h'; simp at h'⟩
      | some value =>
        refine ⟨[(H ++ ":" ++ x.1, Val.blob value)], rfl, ?_⟩
        rintro kv' hkv'
        rcases List.mem_cons.mp hkv' with h' | h'
        · exact ⟨x.1, by rw [h']⟩
        · simp at h') kv h with hin | hP
  · simp at hin
  · exact hP

/-- Keys written by the retained-blob loop of the rebase write phase
are all `<hash>:<key>` pointers when the initial batch's are. -/
theorem dataStep_keys (H : String) (retainedData : List (String × Bytes))
    (init : List (String × Val) × List (String × String))
    (hinit : ∀ kv ∈ init.1, ∃ key, kv.1 = H ++ ":" ++ key) :
    ∀ kv ∈ (retainedData.foldl
      (fun (acc : List (String × Val) × List (String × String)) kv =>
        (acc.1 ++ [(H ++ ":" ++ kv.1, Val.blob kv.2)], dset acc.2 kv.1 (H ++ ":" ++ kv.1)))
      init).1, ∃ key, kv.1 = H ++ ":" ++ key := by
  intro kv h
  rcases foldl_proj_append (fun (acc : List (String × Val) × List (String × String)) => acc.1)
    _ (fun kv => ∃ key, kv.1 = H ++ ":" ++ key) retainedData init
    (fun acc x => by
      refine ⟨[(H ++ ":" ++ x.1, Val.blob x.2)], rfl, ?_⟩
      rintro kv' hkv'
      rcases List.mem_cons.mp hkv' with h' | h'
      · exact ⟨x.1, by rw [h']⟩
      · simp at h') kv h with hin | hP
  · exact hinit kv hin
  · exact hP

/-- The rebase batch never touches a branch-head record. -/
theorem rebaseWrite_get_head (g : GCVersioned) (retainedData : List (String × Bytes))
    (newMeta : List (String × MetaEntry)) (info : Option (List (String × String)))
    (b : String) :
    Store.get (GCVersioned.rebaseWrite g retainedData newMeta info).store (BRANCH_HEAD b) =
      Store.get g.store (BRANCH_HEAD b) := by
  unfold GCVersioned.rebaseWrite
  apply Store.get_setMany_of_not_mem
  intro kv hkv
  rcases List.mem_append.mp hkv with h | h
  · rcases dataStep_keys _ _ _ (protStep_keys g _) kv h with ⟨key, hkey⟩
    rw [hkey]
    exact hashPtr_ne_reserved _ _ _ _ _ _ (HEAD_underscore b)
  · rcases commitRecords_keys _ _ _ _ _ kv h with h2 | h2 | h2 | h2 | h2
    · rw [h2]; exact KEYSET_ne_HEAD _ _
    · rw [h2]; exact PARENT_ne_HEAD _ _
    · rw [h2]; exact (HEAD_ne_META _ _).symm
    · rw [h2]; exact (HEAD_ne_TOTAL _ _).symm
    · rw [h2]; exact (HEAD_ne_INFO _ _).symm

/-- A minted blob pointer never starts with an underscore. -/
theorem hashPtr_not_underscore (parents : List String) (keyset : List (String × String))
    (updates : List (String × Bytes)) (info : Option (List (String × String)))
    (key : String) :
    ¬ startsUnderscore (contentHash parents keyset updates info ++ ":" ++ key) := by
  obtain ⟨c, t, hd, hc⟩ := contentHash_head parents keyset updates info
  rintro ⟨u, hu⟩
  rw [String.data_append, String.data_append, hd] at hu
  simp only [List.cons_append] at hu
  have hcu : c = '_' := (List.cons.injEq _ _ _ _ ▸ hu).1
  subst hcu
  revert hc
  decide

/-- Keyset values minted by the protected-blob copy loop are hash
pointers. -/
theorem protStep_vals (g : GCVersioned) (H : String) :
    ∀ kv ∈ ((g.commit_keys.filter (fun kv => g.is_protected kv.1)).foldl
      (fun (acc : List (String × Val) × List (String × String)) kv =>
        match Versioned.getBlob g.store kv.2 with
        | none => acc
        | some value =>
          (acc.1 ++ [(H ++ ":" ++ kv.1, Val.blob value)],
           dset acc.2 kv.1 (H ++ ":" ++ kv.1)))
      ([], [])).2, ∃ key, kv.2 = H ++ ":" ++ key := by
  intro kv h
  rcases foldl_proj_preserve (fun (acc : List (String × Val) × List (String × String)) => acc.2)
    _ (fun kv : String × String => ∃ key, kv.2 = H ++ ":" ++ key)
    (g.commit_keys.filter (fun kv => g.is_protected kv.1)) ([], [])
    (fun acc x _ => by
      intro kv' hkv'
      cases hb : Versioned.getBlob g.store x.2 with
      | none =>
        rw [hb] at hkv'
        exact Or.inl hkv'
      | some value =>
        rw [hb] at hkv'
        rcases mem_dset _ _ _ kv' hkv' with h' | h'
        · exact Or.inr ⟨x.1, by rw [h']⟩
        · exact Or.inl h') kv h with hin | hP
  · simp at hin
  · exact hP

/-- Keyset values minted by the retained-blob loop are hash pointers
when the initial batch's are. -/
theorem dataStep_vals (H : String) (retainedData : List (String × Bytes))
    (init : List (String × Val) × List (String × String))
    (hinit : ∀ kv ∈ init.2, ∃ key, kv.2 = H ++ ":" ++ key) :
    ∀ kv ∈ (retainedData.foldl
      (fun (acc : List (String × Val) × List (String × String)) kv =>
        (acc.1 ++ [(H ++ ":" ++ kv.1, Val.blob kv.2)], dset acc.2 kv.1 (H ++ ":" ++ kv.1)))
      init).2, ∃ key, kv.2 = H ++ ":" ++ key := by
  intro kv h
  rcases foldl_proj_preserve (fun (acc : List (String × Val) × List (String × String)) => acc.2)
    _ (fun kv : String × String => ∃ key, kv.2 = H ++ ":" ++ key) retainedData init
    (fun acc x _ => by
      intro kv' hkv'
      rcases mem_dset _ _ _ kv' hkv' with h' | h'
      · exact Or.inr ⟨x.1, by rw [h']⟩
      · exact Or.inl h') kv h with hin | hP
  · exact hinit kv hin
  · exact hP

/-- The rebase batch persists the total-size record of the fresh root,
carrying the sum over the collected meta. -/
theorem rebaseWrite_records (g : GCVersioned) (retainedData : List (String × Bytes))
    (newMeta : List (String × MetaEntry)) (info : Option (List (String × String))) :
    Store.get (GCVersioned.rebaseWrite g retainedData newMeta info).store
        (TOTAL_VAR_SIZE_KEY (GCVersioned.rebaseWrite g retainedData newMeta info).newHash)
      = some (.size ((newMeta.map (fun e => (e.2.size).getD 0)).sum)) := by
  unfold GCVersioned.rebaseWrite
  simp only [Store.setMany_append]
  exact get_records_total _ _ _ _ _ _

/-- Keyset records after the rebase batch are old records or the fresh
root's keyset, whose pointers are minted hash pointers. -/
theorem rebaseWrite_keyset_hyg (g : GCVersioned) (rd : List (String × Bytes))
    (nm : List (String × MetaEntry)) (info : Option (List (String × String)))
    (hsh : String) (ks : List (String × String))
    (h : Store.get (GCVersioned.rebaseWrite g rd nm info).store (COMMIT_KEYSET hsh) =
      some (.keyset ks))
    (hold : ∀ hsh' ks', Store.get g.store (COMMIT_KEYSET hsh') = some (.keyset ks') →
      ∀ kv ∈ ks', ¬ startsUnderscore kv.2) :
    ∀ kv ∈ ks, ¬ startsUnderscore kv.2 := by
  unfold GCVersioned.rebaseWrite at h
  simp only [] at h
  rcases get_setMany_cases g.store _ (COMMIT_KEYSET hsh) with he | ⟨v, hv, hg⟩
  · rw [he] at h
    exact hold hsh ks h
  · rw [hg] at h
    have hv2 : v = .keyset ks := by simpa using h
    subst hv2
    rcases List.mem_append.mp hv with hb | hr
    · exfalso
      rcases dataStep_keys _ _ _ (protStep_keys g _) _ hb with ⟨key, hkey⟩
      exact hashPtr_ne_reserved _ _ _ _ _ _ (KEYSET_underscore hsh) hkey.symm
    · unfold Versioned.commitRecords at hr
      rcases List.mem_append.mp hr with h4 | hinfo
      · rcases List.mem_cons.mp h4 with h' | h4
        · have hpair := h'
          simp only [Prod.mk.injEq, Val.keyset.injEq] at hpair
          rw [hpair.2]
          intro kv hkv
          rcases dataStep_vals _ _ _ (protStep_vals g _) kv hkv with ⟨key, hkey⟩
          rw [hkey]
          exact hashPtr_not_underscore _ _ _ _ _
        rcases List.mem_cons.mp h4 with h' | h4
        · simp at h'
        rcases List.mem_cons.mp h4 with h' | h4
        · simp at h'
        rcases List.mem_cons.mp h4 with h' | h4
        · simp at h'
        · simp at h4
      · cases info with
        | none => simp at hinfo
        | some i =>
          rcases List.mem_cons.mp hinfo with h' | h'
          · simp at h'
          · simp at h'

/-- Pointers gathered for deletion after a rebase come from the old
keyset and inherit its hygiene. -/
theorem toDelete_vals (g : GCVersioned) (dropped : List String)
    (hhyg : ∀ kv ∈ g.commit_keys, ¬ startsUnderscore kv.2) :
    ∀ v ∈ dropped.foldl
      (fun (acc : List String) key =>
        match dget g.commit_keys key with
        | some vk => if vk = "" then acc else acc ++ [vk]
        | none => acc) [],
      ¬ startsUnderscore v := by
  intro v hv
  rcases foldl_proj_preserve (fun (acc : List String) => acc) _
    (fun v : String => ¬ startsUnderscore v) dropped []
    (fun acc x _ => by
      intro v' hv'
      cases hk : dget g.commit_keys x with
      | some vk =>
        rw [hk] at hv'
        simp only [] at hv'
        by_cases hvk : vk = ""
        · rw [if_pos hvk] at hv'
          exact Or.inl hv'
        · rw [if_neg hvk] at hv'
          rcases List.mem_append.mp hv' with h' | h'
          · exact Or.inl h'
          · have hveq : v' = vk := by simpa using h'
            subst hveq
            exact Or.inr (hhyg (x, v') (dget_some_mem _ _ _ hk))
      | none =>
        rw [hk] at hv'
        exact Or.inl hv') v hv with hin | hP
  · simp at hin
  · exact hP

/-- The orphan sweep only edits the store, never the cached view state. -/
theorem cleanOrphans_state (g : GCVersioned) (min_age now : Nat) :
    (GCVersioned.cleanOrphans g min_age now).2.meta = g.meta ∧
    (GCVersioned.cleanOrphans g min_age now).2.commit_keys = g.commit_keys ∧
    (GCVersioned.cleanOrphans g min_age now).2.current_commit = g.current_commit ∧
    (GCVersioned.cleanOrphans g min_age now).2.base_commit = g.base_commit ∧
    (GCVersioned.cleanOrphans g min_age now).2.is_protected = g.is_protected :=
  ⟨rfl, rfl, rfl, rfl, rfl⟩

/-- Every meta entry collected for a rebase commit passes the
non-protected guard. -/
theorem rebaseCollect_not_protected (g : GCVersioned) (retainedKeys : List String) :
    ∀ kv ∈ (GCVersioned.rebaseCollect g retainedKeys).2, g.is_protected kv.1 = false := by
  intro kv h
  unfold GCVersioned.rebaseCollect at h
  rcases foldl_proj_append
    (fun (acc : List (String × Bytes) × List (String × MetaEntry)) => acc.2)
    _ (fun kv : String × MetaEntry => g.is_protected kv.1 = false) retainedKeys ([], [])
    (fun acc x => by
      cases hk : dget g.commit_keys x with
      | none => exact ⟨[], by simp [hk], by intro kv' h'; simp at h'⟩
      | some vk =>
        by_cases hvk : vk = ""
        · exact ⟨[], by simp [hk, hvk], by intro kv' h'; simp at h'⟩
        · cases hb : Versioned.getBlob g.store vk with
          | none => exact ⟨[], by simp [hk, hvk, hb], by intro kv' h'; simp at h'⟩
          | some value =>
            by_cases hp : g.is_protected x = true
            · exact ⟨[], by simp [hk, hvk, hb, hp], by intro kv' h'; simp at h'⟩
            · cases hm : dget g.meta x with
              | none =>
                exact ⟨[], by simp [hk, hvk, hb, hp, hm], by intro kv' h'; simp at h'⟩
              | some e =>
                refine ⟨[(x, e)], by simp [hk, hvk, hb, hp, hm], ?_⟩
                rintro kv' hkv'
                rcases List.mem_cons.mp hkv' with h' | h'
                · rw [h']
                  exact Bool.eq_false_iff.mpr hp
                · simp at h') kv h with hin | hP
  · simp at hin
  · exact hP

/-- With the head record unmoved, a quiescent `rebase` succeeds; the
reported size after is the sum over the new meta record, whose keys are
all non-protected. -/
theorem rebase_success (g : GCVersioned) (keep_keys : Option (List String))
    (info : Option (List (String × String))) (now : Nat)
    (hhead : Store.get g.store (BRANCH_HEAD g.branch) = some (.head g.base_commit)) :
    ∃ rr g', GCVersioned.rebase g keep_keys info now id = (.ok rr, g') ∧
      rr.performed = true ∧
      rr.total_size_after = ((g'.meta.map (fun e => (e.2.size).getD 0)).sum) ∧
      ∀ kv ∈ g'.meta, g.is_protected kv.1 = false := by
  unfold GCVersioned.rebase
  simp only [id_eq]
  set wr := GCVersioned.rebaseWrite g
      (GCVersioned.rebaseCollect g (GCVersioned.rebaseRetain g keep_keys).1).1
      (GCVersioned.rebaseCollect g (GCVersioned.rebaseRetain g keep_keys).1).2 info with hwr
  have hget : Store.get wr.store (BRANCH_HEAD g.branch) = some (.head g.base_commit) := by
    rw [hwr, rebaseWrite_get_head]
    exact hhead
  have hcr : Store.cas wr.store (BRANCH_HEAD g.branch) (.head wr.newHash)
      (some (.head g.base_commit))
      = (true, Store.set wr.store (BRANCH_HEAD g.branch) (.head wr.newHash)) := by
    unfold Store.cas
    rw [hget, if_pos rfl]
  rw [hcr]
  rw [if_neg (fun hc => hc rfl)]
  refine ⟨_, _, rfl, rfl, ?_, ?_⟩
  · rw [(cleanOrphans_state _ _ _).1]
  · rw [(cleanOrphans_state _ _ _).1]
    exact rebaseCollect_not_protected g _

/-- With the plan conflict-free and the head record still at `th`,
the three-way merge CAS succeeds and installs the written keyset. -/
theorem threeWayMerge_success (v : Versioned) (th oc : String)
    (fns : List (String × MergeFn)) (dm : Option MergeFn)
    (info : Option (List (String × String))) (saved : Option Versioned.Saved)
    (now : Nat) (lca : String)
    (hlca : findLca v.store v.current_commit th = some lca)
    (hconf : (Versioned.mergePlan v lca th fns dm).conflicts = [])
    (hhead : Store.get (Versioned.mergeWrite v th (Versioned.mergePlan v lca th fns dm) info now).store
      (BRANCH_HEAD v.branch) = some (.head th)) :
    ∃ res v', Versioned.threeWayMerge v th oc fns dm info saved now id = (.ok res, v') ∧
      res.merged = true ∧ res.strategy = "three_way" ∧
      v'.commit_keys =
        (Versioned.mergeWrite v th (Versioned.mergePlan v lca th fns dm) info now).mergedKS := by
  unfold Versioned.threeWayMerge
  rw [hlca]
  simp only [id_eq]
  rw [if_neg (fun h => h hconf)]
  have hcr : (Store.cas
      (Versioned.mergeWrite v th (Versioned.mergePlan v lca th fns dm) info now).store
      (BRANCH_HEAD v.branch)
      (.head (Versioned.mergeWrite v th (Versioned.mergePlan v lca th fns dm) info now).mergeHash)
      (some (.head th))) =
      (true, Store.set
        (Versioned.mergeWrite v th (Versioned.mergePlan v lca th fns dm) info now).store
        (BRANCH_HEAD v.branch)
        (.head (Versioned.mergeWrite v th (Versioned.mergePlan v lca th fns dm) info now).mergeHash)) := by
    unfold Store.cas
    rw [hhead, if_pos rfl]
  rw [hcr]
  exact ⟨_, _, rfl, rfl, rfl, rfl⟩

/-- With no resolver outputs the final merge keyset is the plan's. -/
theorem mergeWrite_mergedKS_of_no_vals (v : Versioned) (th : String)
    (plan : Versioned.MergePlan) (info : Option (List (String × String))) (now : Nat)
    (hvals : plan.mergedVals = []) :
    (Versioned.mergeWrite v th plan info now).mergedKS = plan.mergedKS := by
  obtain ⟨ks, vals, auto, conf⟩ := plan
  simp only at hvals
  subst hvals
  rfl

/-- The high/low-water drop loop: the retained list stays distinct and
within the original, the retained user sizes stay bounded by the
running total, and the loop stops under the low-water mark or only
after dropping every candidate. -/
theorem dropCold_spec (low : Int) (prot : String → Bool) (usize : String → Nat) :
    ∀ (cands : List (String × MetaEntry)) (retained dropped : List String) (total : Int),
    retained.Nodup →
    (∀ kv ∈ cands, kv.1 ∈ retained) →
    ((cands.map Prod.fst).Nodup) →
    (∀ kv ∈ cands, prot kv.1 = false) →
    (∀ kv ∈ cands, ((kv.2.size).getD 0 : Int) = (usize kv.1 : Int)) →
    ((((retained.filter (fun k => !(prot k))).map usize).sum : Int) ≤ total) →
    (GCVersioned.dropCold low cands retained dropped total).1.Nodup ∧
    (∀ k ∈ (GCVersioned.dropCold low cands retained dropped total).1, k ∈ retained) ∧
    (((((GCVersioned.dropCold low cands retained dropped total).1.filter
        (fun k => !(prot k))).map usize).sum : Int) ≤
      (GCVersioned.dropCold low cands retained dropped total).2.2) ∧
    ((GCVersioned.dropCold low cands retained dropped total).2.2 ≤ low ∨
      ∀ kv ∈ cands, kv.1 ∉ (GCVersioned.dropCold low cands retained dropped total).1) := by
  intro cands
  induction cands with
  | nil =>
    intro retained dropped total hnd _ _ _ _ hsum
    exact ⟨hnd, fun k hk => hk, hsum,
      Or.inr (fun kv hkv => absurd hkv (List.not_mem_nil kv))⟩
  | cons ce rest ih =>
    obtain ⟨k, e⟩ := ce
    intro retained dropped total hnd hin hcnd hprot husz hsum
    unfold GCVersioned.dropCold
    by_cases hstop : total ≤ low
    · rw [if_pos hstop]
      exact ⟨hnd, fun k' hk' => hk', hsum, Or.inl hstop⟩
    · rw [if_neg hstop]
      have hkret : k ∈ retained := hin (k, e) (List.mem_cons_self _ _)
      have hperm : retained.Perm (k :: retained.erase k) := List.perm_cons_erase hkret
      have hkprot : prot k = false := hprot (k, e) (List.mem_cons_self _ _)
      have hknd : (rest.map Prod.fst).Nodup ∧ k ∉ rest.map Prod.fst := by
        rw [List.map_cons, List.nodup_cons] at hcnd
        exact ⟨hcnd.2, hcnd.1⟩
      have hsum' : ((((retained.erase k).filter (fun k' => !(prot k'))).map usize).sum : Int)
          ≤ total - ((e.size).getD 0 : Int) := by
        have hfperm : (retained.filter (fun k' => !(prot k'))).Perm
            ((k :: retained.erase k).filter (fun k' => !(prot k'))) := hperm.filter _
        have hfc : (k :: retained.erase k).filter (fun k' => !(prot k')) =
            k :: (retained.erase k).filter (fun k' => !(prot k')) := by
          rw [List.filter_cons]
          rw [if_pos (by simp [hkprot])]
        have hsums : ((retained.filter (fun k' => !(prot k'))).map usize).sum =
            usize k + (((retained.erase k).filter (fun k' => !(prot k'))).map usize).sum := by
          rw [List.Perm.sum_eq (hfperm.map usize), hfc]
          simp
        have he : ((e.size).getD 0 : Int) = (usize k : Int) :=
          husz (k, e) (List.mem_cons_self _ _)
        rw [he]
        rw [hsums] at hsum
        push_cast at hsum ⊢
        omega
      have hres := ih (retained.erase k) (dropped ++ [k]) (total - ((e.size).getD 0 : Int))
        (hnd.erase k)
        (fun kv hkv => (List.Nodup.mem_erase_iff hnd).mpr
          ⟨fun heq => hknd.2 (heq ▸ List.mem_map.mpr ⟨kv, hkv, rfl⟩),
           hin kv (List.mem_cons_of_mem _ hkv)⟩)
        hknd.1
        (fun kv hkv => hprot kv (List.mem_cons_of_mem _ hkv))
        (fun kv hkv => husz kv (List.mem_cons_of_mem _ hkv))
        hsum'
      refine ⟨hres.1, ?_, hres.2.2.1, ?_⟩
      · exact fun k' hk' => List.erase_subset _ _ (hres.2.1 k' hk')
      · rcases hres.2.2.2 with h | h
        · exact Or.inl h
        · refine Or.inr ?_
          intro kv hkv hmem
          rcases List.mem_cons.mp hkv with h' | h'
          · have : kv.1 ∈ retained.erase k := hres.2.1 kv.1 hmem
            rw [h'] at this
            exact ((List.Nodup.mem_erase_iff hnd).mp this).1 rfl
          · exact h kv h' hmem

/-- The high/low-water retention keeps a distinct key list whose
non-protected user sizes sum to at most the low-water mark. -/
theorem rebaseRetain_bound (g : GCVersioned)
    (hnodupM : (g.meta.map Prod.fst).Nodup)
    (hnodupK : (g.commit_keys.map Prod.fst).Nodup) :
    (GCVersioned.rebaseRetain g none).1.Nodup ∧
    ((((GCVersioned.rebaseRetain g none).1.filter (fun k => !(g.is_protected k))).map
      (fun k => ((dget (g.meta.filter (fun kv => ¬ g.is_protected kv.1)) k).bind
        (fun e => e.size)).getD 0)).sum) ≤ g.low_water := by
  have hre : GCVersioned.rebaseRetain g none =
      GCVersioned.dropCold ((g.low_water : Nat) : Int)
        (sortLe GCVersioned.candLe (g.meta.filter (fun kv => ¬ g.is_protected kv.1)))
        (((g.commit_keys.filter (fun kv => g.is_protected kv.1)).map Prod.fst) ++
          (((g.meta.filter (fun kv => ¬ g.is_protected kv.1)).map Prod.fst).filter
            (fun k => decide (k ∉
              (g.commit_keys.filter (fun kv => g.is_protected kv.1)).map Prod.fst))))
        []
        ((((g.meta.filter (fun kv => ¬ g.is_protected kv.1)).map
          (fun e => (e.2.size).getD 0)).sum : Nat) : Int) := rfl
  have humnd : ((g.meta.filter (fun kv => ¬ g.is_protected kv.1)).map Prod.fst).Nodup :=
    hnodupM.sublist (List.Sublist.map _ (List.filter_sublist _))
  have hpknd : ((g.commit_keys.filter (fun kv => g.is_protected kv.1)).map Prod.fst).Nodup :=
    hnodupK.sublist (List.Sublist.map _ (List.filter_sublist _))
  have humprot : ∀ kv ∈ g.meta.filter (fun kv => ¬ g.is_protected kv.1),
      g.is_protected kv.1 = false := by
    intro kv hkv
    have := (List.mem_filter.mp hkv).2
    simpa using this
  have hpkprot : ∀ x ∈ (g.commit_keys.filter (fun kv => g.is_protected kv.1)).map Prod.fst,
      g.is_protected x = true := by
    intro x hx
    rcases List.mem_map.mp hx with ⟨kv, hkv, he⟩
    have := (List.mem_filter.mp hkv).2
    rw [← he]
    simpa using this
  have husz : ∀ kv ∈ g.meta.filter (fun kv => ¬ g.is_protected kv.1),
      dget (g.meta.filter (fun kv => ¬ g.is_protected kv.1)) kv.1 = some kv.2 := by
    intro kv hkv
    obtain ⟨k1, k2⟩ := kv
    exact dget_of_mem_nodup _ _ _ humnd hkv
  have hfresh_eq : ((g.meta.filter (fun kv => ¬ g.is_protected kv.1)).map Prod.fst).filter
      (fun k => decide (k ∉
        (g.commit_keys.filter (fun kv => g.is_protected kv.1)).map Prod.fst)) =
      (g.meta.filter (fun kv => ¬ g.is_protected kv.1)).map Prod.fst := by
    apply List.filter_eq_self.mpr
    intro a ha
    simp only [decide_eq_true_eq]
    intro hmem
    rcases List.mem_map.mp ha with ⟨kv, hkv, he⟩
    have h1 := humprot kv hkv
    have h2 := hpkprot a hmem
    rw [← he] at h2
    rw [h1] at h2
    exact absurd h2 (by simp)
  have hr0nd : (((g.commit_keys.filter (fun kv => g.is_protected kv.1)).map Prod.fst) ++
      (((g.meta.filter (fun kv => ¬ g.is_protected kv.1)).map Prod.fst).filter
        (fun k => decide (k ∉
          (g.commit_keys.filter (fun kv => g.is_protected kv.1)).map Prod.fst)))).Nodup := by
    rw [List.nodup_append]
    refine ⟨hpknd, humnd.sublist (List.filter_sublist _), ?_⟩
    intro a ha hmem
    have := (List.mem_filter.mp hmem).2
    simp only [decide_eq_true_eq] at this
    exact this ha
  have hperm := sortLe_perm GCVersioned.candLe (g.meta.filter (fun kv => ¬ g.is_protected kv.1))
  have hspec := dropCold_spec ((g.low_water : Nat) : Int) g.is_protected
    (fun k => ((dget (g.meta.filter (fun kv => ¬ g.is_protected kv.1)) k).bind
      (fun e => e.size)).getD 0)
    (sortLe GCVersioned.candLe (g.meta.filter (fun kv => ¬ g.is_protected kv.1)))
    (((g.commit_keys.filter (fun kv => g.is_protected kv.1)).map Prod.fst) ++
      (((g.meta.filter (fun kv => ¬ g.is_protected kv.1)).map Prod.fst).filter
        (fun k => decide (k ∉
          (g.commit_keys.filter (fun kv => g.is_protected kv.1)).map Prod.fst))))
    []
    ((((g.meta.filter (fun kv => ¬ g.is_protected kv.1)).map
      (fun e => (e.2.size).getD 0)).sum : Nat) : Int)
    hr0nd
    (by
      intro kv hkv
      have hmem : kv ∈ g.meta.filter (fun kv => ¬ g.is_protected kv.1) := hperm.subset hkv
      have hk : kv.1 ∈ (g.meta.filter (fun kv => ¬ g.is_protected kv.1)).map Prod.fst :=
        List.mem_map.mpr ⟨kv, hmem, rfl⟩
      rw [← hfresh_eq] at hk
      exact List.mem_append_right _ hk)
    ((hperm.map Prod.fst).nodup_iff.mpr humnd)
    (fun kv hkv => humprot kv (hperm.subset hkv))
    (by
      intro kv hkv
      have hmem : kv ∈ g.meta.filter (fun kv => ¬ g.is_protected kv.1) := hperm.subset hkv
      simp only []
      rw [husz kv hmem]
      rfl)
    (by
      rw [List.filter_append]
      have h1 : ((g.commit_keys.filter (fun kv => g.is_protected kv.1)).map Prod.fst).filter
          (fun k => !(g.is_protected k)) = [] := by
        rw [List.filter_eq_nil_iff]
        intro a ha
        rw [hpkprot a ha]
        simp
      rw [h1, List.nil_append]
      have h2 : (((g.meta.filter (fun kv => ¬ g.is_protected kv.1)).map Prod.fst).filter
          (fun k => decide (k ∉
            (g.commit_keys.filter (fun kv => g.is_protected kv.1)).map Prod.fst))).filter
          (fun k => !(g.is_protected k)) =
          ((g.meta.filter (fun kv => ¬ g.is_protected kv.1)).map Prod.fst) := by
        rw [hfresh_eq]
        apply List.filter_eq_self.mpr
        intro a ha
        rcases List.mem_map.mp ha with ⟨kv, hkv, he⟩
        rw [← he, humprot kv hkv]
        rfl
      rw [h2]
      have h3 : ((g.meta.filter (fun kv => ¬ g.is_protected kv.1)).map Prod.fst).map
          (fun k => ((dget (g.meta.filter (fun kv => ¬ g.is_protected kv.1)) k).bind
            (fun e => e.size)).getD 0) =
          (g.meta.filter (fun kv => ¬ g.is_protected kv.1)).map
            (fun e => (e.2.size).getD 0) := by
        rw [List.map_map]
        apply List.map_congr_left
        intro kv hkv
        simp only [Function.comp]
        rw [husz kv hkv]
        rfl
      rw [h3])
  rw [hre]
  refine ⟨hspec.1, ?_⟩
  rcases hspec.2.2.2 with hlow | hexh
  · have := le_trans hspec.2.2.1 hlow
    exact_mod_cast this
  · have hnil : (GCVersioned.dropCold ((g.low_water : Nat) : Int)
        (sortLe GCVersioned.candLe (g.meta.filter (fun kv => ¬ g.is_protected kv.1)))
        (((g.commit_keys.filter (fun kv => g.is_protected kv.1)).map Prod.fst) ++
          (((g.meta.filter (fun kv => ¬ g.is_protected kv.1)).map Prod.fst).filter
            (fun k => decide (k ∉
              (g.commit_keys.filter (fun kv => g.is_protected kv.1)).map Prod.fst))))
        []
        ((((g.meta.filter (fun kv => ¬ g.is_protected kv.1)).map
          (fun e => (e.2.size).getD 0)).sum : Nat) : Int)).1.filter
        (fun k => !(g.is_protected k)) = [] := by
      rw [List.eq_nil_iff_forall_not_mem]
      intro a hmem
      have ha := List.mem_filter.mp hmem
      have haR := hspec.2.1 a ha.1
      have haprot : g.is_protected a = false := by
        have := ha.2
        simpa using this
      rcases List.mem_append.mp haR with hpk | hfr
      · rw [hpkprot a hpk] at haprot
        exact absurd haprot (by simp)
      · rw [hfresh_eq] at hfr
        rcases List.mem_map.mp hfr with ⟨kv, hkv, he⟩
        have : kv ∈ sortLe GCVersioned.candLe
            (g.meta.filter (fun kv => ¬ g.is_protected kv.1)) :=
          (hperm.symm).subset hkv
        exact hexh kv this (he ▸ ha.1)
    rw [hnil]
    simp

/-- The collect phase keeps distinct keys, each a retained
non-protected key carrying its cached meta entry. -/
theorem rebaseCollect_spec (g : GCVersioned) :
    ∀ (keys : List String), keys.Nodup →
    (((GCVersioned.rebaseCollect g keys).2.map Prod.fst).Nodup) ∧
    (∀ kv ∈ (GCVersioned.rebaseCollect g keys).2,
      kv.1 ∈ keys ∧ g.is_protected kv.1 = false ∧ dget g.meta kv.1 = some kv.2) := by
  intro keys
  induction keys using List.reverseRecOn with
  | nil =>
    intro _
    refine ⟨by simp [GCVersioned.rebaseCollect], ?_⟩
    intro kv hkv
    simp [GCVersioned.rebaseCollect] at hkv
  | append_singleton keys k ih =>
    intro hnd
    have hnd' : keys.Nodup := (List.nodup_append.mp hnd).1
    have hknotin : k ∉ keys := by
      intro hmem
      exact (List.nodup_append.mp hnd).2.2 hmem (List.mem_singleton.mpr rfl)
    obtain ⟨ihnd, ihmem⟩ := ih hnd'
    have hfold : GCVersioned.rebaseCollect g (keys ++ [k]) =
        (match dget g.commit_keys k with
         | none => GCVersioned.rebaseCollect g keys
         | some vk =>
           if vk = "" then GCVersioned.rebaseCollect g keys
           else
             match Versioned.getBlob g.store vk with
             | none => GCVersioned.rebaseCollect g keys
             | some value =>
               if g.is_protected k then GCVersioned.rebaseCollect g keys
               else
                 ((GCVersioned.rebaseCollect g keys).1 ++ [(k, value)],
                  match dget g.meta k with
                  | some e => (GCVersioned.rebaseCollect g keys).2 ++ [(k, e)]
                  | none => (GCVersioned.rebaseCollect g keys).2)) := by
      unfold GCVersioned.rebaseCollect
      rw [List.foldl_append]
      rfl
    rw [hfold]
    have hweak : ∀ kv ∈ (GCVersioned.rebaseCollect g keys).2,
        kv.1 ∈ keys ++ [k] ∧ g.is_protected kv.1 = false ∧ dget g.meta kv.1 = some kv.2 :=
      fun kv hkv => ⟨List.mem_append_left _ (ihmem kv hkv).1,
        (ihmem kv hkv).2.1, (ihmem kv hkv).2.2⟩
    cases hk : dget g.commit_keys k with
    | none => exact ⟨ihnd, hweak⟩
    | some vk =>
      simp only []
      by_cases hvk : vk = ""
      · rw [if_pos hvk]
        exact ⟨ihnd, hweak⟩
      · rw [if_neg hvk]
        cases hb : Versioned.getBlob g.store vk with
        | none => exact ⟨ihnd, hweak⟩
        | some value =>
          simp only []
          by_cases hp : g.is_protected k
          · rw [if_pos hp]
            exact ⟨ihnd, hweak⟩
          · rw [if_neg hp]
            cases hm : dget g.meta k with
            | none => exact ⟨ihnd, hweak⟩
            | some e =>
              simp only []
              constructor
              · rw [List.map_append, List.nodup_append]
                refine ⟨ihnd, by simp, ?_⟩
                intro a ha hmem
                have : a = k := by simpa using hmem
                subst this
                rcases List.mem_map.mp ha with ⟨kv, hkv, he⟩
                exact hknotin (he ▸ (ihmem kv hkv).1)
              · intro kv hkv
                rcases List.mem_append.mp hkv with h | h
                · exact hweak kv h
                · have : kv = (k, e) := by simpa using h
                  subst this
                  exact ⟨List.mem_append_right _ (List.mem_singleton.mpr rfl),
                    Bool.eq_false_iff.mpr hp, hm⟩

/-- The rebase commit's total size is at most the low-water mark. -/
theorem rebase_totalAfter_le (g : GCVersioned)
    (hnodupM : (g.meta.map Prod.fst).Nodup)
    (hnodupK : (g.commit_keys.map Prod.fst).Nodup) :
    (((GCVersioned.rebaseCollect g (GCVersioned.rebaseRetain g none).1).2).map
      (fun e => (e.2.size).getD 0)).sum ≤ g.low_water := by
  obtain ⟨hrnd, hrsum⟩ := rebaseRetain_bound g hnodupM hnodupK
  obtain ⟨hcnd, hcmem⟩ := rebaseCollect_spec g (GCVersioned.rebaseRetain g none).1 hrnd
  have humnd : ((g.meta.filter (fun kv => ¬ g.is_protected kv.1)).map Prod.fst).Nodup :=
    hnodupM.sublist (List.Sublist.map _ (List.filter_sublist _))
  have hpoint : ∀ kv ∈ (GCVersioned.rebaseCollect g (GCVersioned.rebaseRetain g none).1).2,
      (kv.2.size).getD 0 =
        ((dget (g.meta.filter (fun kv => ¬ g.is_protected kv.1)) kv.1).bind
          (fun e => e.size)).getD 0 := by
    intro kv hkv
    obtain ⟨hk1, hk2, hk3⟩ := hcmem kv hkv
    have hmm : (kv.1, kv.2) ∈ g.meta := dget_some_mem _ _ _ hk3
    have hum : (kv.1, kv.2) ∈ g.meta.filter (fun kv => ¬ g.is_protected kv.1) :=
      List.mem_filter.mpr ⟨hmm, by simp [hk2]⟩
    have hdg : dget (g.meta.filter (fun kv => ¬ g.is_protected kv.1)) kv.1 = some kv.2 :=
      dget_of_mem_nodup _ _ _ humnd hum
    rw [hdg]
    rfl
  have hmap : ((GCVersioned.rebaseCollect g (GCVersioned.rebaseRetain g none).1).2).map
      (fun e => (e.2.size).getD 0) =
      (((GCVersioned.rebaseCollect g (GCVersioned.rebaseRetain g none).1).2).map
        Prod.fst).map
        (fun k => ((dget (g.meta.filter (fun kv => ¬ g.is_protected kv.1)) k).bind
          (fun e => e.size)).getD 0) := by
    rw [List.map_map]
    refine List.map_congr_left ?_
    intro kv hkv
    simp only [Function.comp]
    exact hpoint kv hkv
  rw [hmap]
  refine le_trans (sum_map_subset _ _ hcnd
    ((GCVersioned.rebaseRetain g none).1.filter (fun k => !(g.is_protected k))) ?_) hrsum
  intro x hx
  rcases List.mem_map.mp hx with ⟨kv, hkv, he⟩
  obtain ⟨hk1, hk2, _⟩ := hcmem kv hkv
  rw [← he]
  exact List.mem_filter.mpr ⟨hk1, by simp [hk2]⟩

/-! ### Orphan-sweep preservation lemmas -/

/-- The history BFS only grows its visited list. -/
theorem historyLoop_visited_subset (s : Store) :
    ∀ (fuel : Nat) (q visited : List String), ∀ x ∈ visited,
      x ∈ historyLoop s fuel q visited := by
  intro fuel
  induction fuel with
  | zero => exact fun q visited x hx => hx
  | succ fuel ih =>
    intro q visited x hx
    unfold historyLoop
    cases q with
    | nil => exact hx
    | cons cur q' =>
      simp only []
      by_cases hc : cur ∈ visited
      · rw [if_pos hc]
        exact ih q' visited x hx
      · rw [if_neg hc]
        exact ih _ _ x (List.mem_append_left _ hx)

/-- The start commit always appears in its own full history. -/
theorem start_mem_historyAll (s : Store) (h : String) : h ∈ historyAll s h := by
  unfold historyAll historyFuel
  show h ∈ historyLoop s ((parentIdsOf s).length + 1 + 1) [h] []
  unfold historyLoop
  simp only []
  rw [if_neg (List.not_mem_nil h)]
  exact historyLoop_visited_subset s _ _ _ h
    (List.mem_append_right _ (List.mem_singleton.mpr rfl))

/-- Growing folds keep earlier members. -/
theorem foldl_grow_mem {γ : Type} (step : List String → γ → List String)
    (hgrow : ∀ acc k, ∀ y ∈ acc, y ∈ step acc k) :
    ∀ (l : List γ) (acc : List String) (y : String), y ∈ acc → y ∈ l.foldl step acc := by
  intro l
  induction l with
  | nil => exact fun acc y hy => hy
  | cons a rest ih => exact fun acc y hy => ih (step acc a) y (hgrow acc a y hy)

/-- An element contributed at some processed key survives a growing fold. -/
theorem foldl_grow_mem_of_elem {γ : Type} (step : List String → γ → List String)
    (hgrow : ∀ acc k, ∀ y ∈ acc, y ∈ step acc k)
    (k₀ : γ) (y : String) (hy : ∀ acc, y ∈ step acc k₀) :
    ∀ (l : List γ) (acc : List String), k₀ ∈ l → y ∈ l.foldl step acc := by
  intro l
  induction l with
  | nil => intro acc h; simp at h
  | cons a rest ih =>
    intro acc hk
    rcases List.mem_cons.mp hk with h | h
    · subst h
      exact foldl_grow_mem step hgrow rest (step acc k₀) y (hy acc)
    · exact ih (step acc a) h

/-- A commit named by a branch-head record is marked reachable. -/
theorem mem_markReachable (s : Store) (b h : String)
    (hget : Store.get s (BRANCH_HEAD b) = some (.head h)) :
    h ∈ GCVersioned.markReachable s := by
  unfold GCVersioned.markReachable
  have hkey : BRANCH_HEAD b ∈ Store.keysOf s := dget_some_mem_fst s _ _ hget
  refine foldl_grow_mem_of_elem _ ?_ (BRANCH_HEAD b) h ?_ _ _ hkey
  · intro acc k y hy
    by_cases hp : List.isPrefixOf (String.data "__branch_head__") k.data
    · rw [if_pos hp]
      cases hg : Store.get s k with
      | none => exact hy
      | some v =>
        cases v with
        | head hh => exact List.mem_append_left _ hy
        | blob bb => exact hy
        | keyset ks => exact hy
        | parents ps => exact hy
        | meta m => exact hy
        | size n => exact hy
        | info i => exact hy
    · rw [if_neg hp]
      exact hy
  · intro acc
    have hp : List.isPrefixOf (String.data "__branch_head__") (BRANCH_HEAD b).data = true := by
      rw [List.isPrefixOf_iff_prefix]
      show (String.data "__branch_head__") <+: (BRANCH_HEAD b).data
      unfold BRANCH_HEAD
      rw [String.data_append]
      exact List.prefix_append _ _
    rw [if_pos hp, hget]
    exact List.mem_append_right _ (start_mem_historyAll s h)

/-- Collected orphans are unreachable and non-empty ids. -/
theorem collectOrphans_unreachable (s : Store) (reach : List String) (cutoff : Int) :
    ∀ o ∈ GCVersioned.collectOrphans s reach cutoff, o ∉ reach ∧ o ≠ "" := by
  unfold GCVersioned.collectOrphans
  refine foldl_preserve (fun acc => ∀ o ∈ acc, o ∉ reach ∧ o ≠ "") _ _ []
    ?_ (fun o ho => absurd ho (List.not_mem_nil o))
  intro acc key _ hacc o ho
  by_cases hp : List.isPrefixOf (String.data "__meta__") key.data
  · rw [if_pos hp] at ho
    simp only [] at ho
    by_cases hpred : String.mk (key.data.drop 8) = "" ∨ String.mk (key.data.drop 8) ∈ reach
    · rw [if_pos hpred] at ho
      exact hacc o ho
    · rw [if_neg hpred] at ho
      push_neg at hpred
      cases hg : Store.get s key with
      | none => rw [hg] at ho; exact hacc o ho
      | some v =>
        rw [hg] at ho
        cases v with
        | meta m =>
          cases m with
          | nil => exact hacc o ho
          | cons e rest =>
            simp only [] at ho
            by_cases hage : (e.2.created_at : Int) < cutoff
            · rw [if_pos hage] at ho
              rcases List.mem_append.mp ho with h | h
              · exact hacc o h
              · have : o = String.mk (key.data.drop 8) := by simpa using h
                exact this ▸ ⟨hpred.2, hpred.1⟩
            · rw [if_neg hage] at ho
              exact hacc o ho
        | blob bb => exact hacc o ho
        | keyset ks => exact hacc o ho
        | parents ps => exact hacc o ho
        | head hh => exact hacc o ho
        | size n => exact hacc o ho
        | info i => exact hacc o ho
  · rw [if_neg hp] at ho
    exact hacc o ho

/-- A record present after one sweep step was present before it. -/
theorem sweepStep_some (st : Store) (o k : String) (v : Val)
    (h : Store.get (GCVersioned.sweepStep st o) k = some v) : Store.get st k = some v := by
  unfold GCVersioned.sweepStep at h
  cases hg : Store.get st (COMMIT_KEYSET o) with
  | none =>
    rw [hg] at h
    rcases get_removeMany_cases st _ k with he | he
    · rw [he] at h; exact h
    · rw [he] at h; exact absurd h (by simp)
  | some w =>
    rw [hg] at h
    cases w with
    | keyset ks =>
      simp only [] at h
      rcases get_removeMany_cases (Store.removeMany st (ks.map Prod.snd)) _ k
        with he | he
      · rw [he] at h
        rcases get_removeMany_cases st (ks.map Prod.snd) k with he2 | he2
        · rw [he2] at h; exact h
        · rw [he2] at h; exact absurd h (by simp)
      · rw [he] at h; exact absurd h (by simp)
    | blob bb =>
      rcases get_removeMany_cases st _ k with he | he
      · rw [he] at h; exact h
      · rw [he] at h; exact absurd h (by simp)
    | parents ps =>
      rcases get_removeMany_cases st _ k with he | he
      · rw [he] at h; exact h
      · rw [he] at h; exact absurd h (by simp)
    | head hh =>
      rcases get_removeMany_cases st _ k with he | he
      · rw [he] at h; exact h
      · rw [he] at h; exact absurd h (by simp)
    | meta m =>
      rcases get_removeMany_cases st _ k with he | he
      · rw [he] at h; exact h
      · rw [he] at h; exact absurd h (by simp)
    | size n =>
      rcases get_removeMany_cases st _ k with he | he
      · rw [he] at h; exact h
      · rw [he] at h; exact absurd h (by simp)
    | info i =>
      rcases get_removeMany_cases st _ k with he | he
      · rw [he] at h; exact h
      · rw [he] at h; exact absurd h (by simp)

/-- One sweep step spares a reserved key that is none of the orphan's
record keys, with keyset-pointer hygiene in force. -/
theorem sweepStep_get (st : Store) (o K : String)
    (hK : startsUnderscore K)
    (hhyg : ∀ hsh ks, Store.get st (COMMIT_KEYSET hsh) = some (.keyset ks) →
      ∀ kv ∈ ks, ¬ startsUnderscore kv.2)
    (hrec : META_KEY o ≠ K ∧ COMMIT_KEYSET o ≠ K ∧ PARENT_COMMIT o ≠ K ∧
      TOTAL_VAR_SIZE_KEY o ≠ K ∧ INFO_KEY o ≠ K) :
    Store.get (GCVersioned.sweepStep st o) K = Store.get st K := by
  unfold GCVersioned.sweepStep
  have hKnot : K ∉ [META_KEY o, COMMIT_KEYSET o, PARENT_COMMIT o,
      TOTAL_VAR_SIZE_KEY o, INFO_KEY o] := by
    intro hmem
    rcases List.mem_cons.mp hmem with h | hmem
    · exact hrec.1 h.symm
    rcases List.mem_cons.mp hmem with h | hmem
    · exact hrec.2.1 h.symm
    rcases List.mem_cons.mp hmem with h | hmem
    · exact hrec.2.2.1 h.symm
    rcases List.mem_cons.mp hmem with h | hmem
    · exact hrec.2.2.2.1 h.symm
    rcases List.mem_cons.mp hmem with h | hmem
    · exact hrec.2.2.2.2 h.symm
    · exact absurd hmem (List.not_mem_nil K)
  rw [Store.get_removeMany_of_not_mem _ _ _ hKnot]
  cases hg : Store.get st (COMMIT_KEYSET o) with
  | none => rfl
  | some w =>
    cases w with
    | keyset ks =>
      simp only []
      apply Store.get_removeMany_of_not_mem
      intro hmem
      rcases List.mem_map.mp hmem with ⟨kv, hkv, he⟩
      exact hhyg o ks hg kv hkv (he ▸ hK)
    | blob bb => rfl
    | parents ps => rfl
    | head hh => rfl
    | meta m => rfl
    | size n => rfl
    | info i => rfl

/-- The whole sweep spares such a key. -/
theorem sweep_fold_get (K : String) (hK : startsUnderscore K) :
    ∀ (orphans : List String) (s₀ : Store),
    (∀ hsh ks, Store.get s₀ (COMMIT_KEYSET hsh) = some (.keyset ks) →
      ∀ kv ∈ ks, ¬ startsUnderscore kv.2) →
    (∀ o ∈ orphans, META_KEY o ≠ K ∧ COMMIT_KEYSET o ≠ K ∧ PARENT_COMMIT o ≠ K ∧
      TOTAL_VAR_SIZE_KEY o ≠ K ∧ INFO_KEY o ≠ K) →
    Store.get (orphans.foldl GCVersioned.sweepStep s₀) K = Store.get s₀ K := by
  intro orphans
  induction orphans with
  | nil => intro s₀ _ _; rfl
  | cons o rest ih =>
    intro s₀ hhyg hrec
    have hhyg' : ∀ hsh ks,
        Store.get (GCVersioned.sweepStep s₀ o) (COMMIT_KEYSET hsh) = some (.keyset ks) →
        ∀ kv ∈ ks, ¬ startsUnderscore kv.2 :=
      fun hsh ks hg => hhyg hsh ks (sweepStep_some s₀ o _ _ hg)
    have hstep := sweepStep_get s₀ o K hK hhyg (hrec o (List.mem_cons_self _ _))
    calc Store.get ((o :: rest).foldl GCVersioned.sweepStep s₀) K
        = Store.get (rest.foldl GCVersioned.sweepStep (GCVersioned.sweepStep s₀ o)) K := rfl
      _ = Store.get (GCVersioned.sweepStep s₀ o) K :=
          ih _ hhyg' (fun o' ho' => hrec o' (List.mem_cons_of_mem _ ho'))
      _ = Store.get s₀ K := hstep

/-- `clean_orphans` spares a reserved key that no unreachable commit
owns, with keyset-pointer hygiene in force. -/
theorem cleanOrphans_get (g : GCVersioned) (min_age now : Nat) (K : String)
    (hK : startsUnderscore K)
    (hhyg : ∀ hsh ks, Store.get g.store (COMMIT_KEYSET hsh) = some (.keyset ks) →
      ∀ kv ∈ ks, ¬ startsUnderscore kv.2)
    (hrec : ∀ o, o ∉ GCVersioned.markReachable g.store →
      META_KEY o ≠ K ∧ COMMIT_KEYSET o ≠ K ∧ PARENT_COMMIT o ≠ K ∧
      TOTAL_VAR_SIZE_KEY o ≠ K ∧ INFO_KEY o ≠ K) :
    Store.get (GCVersioned.cleanOrphans g min_age now).2.store K = Store.get g.store K := by
  have hst : (GCVersioned.cleanOrphans g min_age now).2.store =
      (GCVersioned.collectOrphans g.store (GCVersioned.markReachable g.store)
        ((now : Int) - (min_age : Int))).foldl GCVersioned.sweepStep g.store := rfl
  rw [hst]
  exact sweep_fold_get K hK _ g.store hhyg
    (fun o ho => hrec o (collectOrphans_unreachable g.store _ _ o ho).1)

/-- The orphan sweep leaves the branch-head record and the head
commit's total-size record in place. -/
theorem cleanOrphans_keeps_head_total (g1 : GCVersioned) (min_age now : Nat)
    (b H : String) (n : Nat)
    (hhyg : ∀ hsh ks, Store.get g1.store (COMMIT_KEYSET hsh) = some (.keyset ks) →
      ∀ kv ∈ ks, ¬ startsUnderscore kv.2)
    (hh : Store.get g1.store (BRANCH_HEAD b) = some (.head H))
    (ht : Store.get g1.store (TOTAL_VAR_SIZE_KEY H) = some (.size n)) :
    Store.get (GCVersioned.cleanOrphans g1 min_age now).2.store (BRANCH_HEAD b)
      = some (.head H) ∧
    Store.get (GCVersioned.cleanOrphans g1 min_age now).2.store (TOTAL_VAR_SIZE_KEY H)
      = some (.size n) := by
  have hreach : H ∈ GCVersioned.markReachable g1.store := mem_markReachable g1.store b H hh
  constructor
  · have hrec : ∀ o, o ∉ GCVersioned.markReachable g1.store →
        META_KEY o ≠ BRANCH_HEAD b ∧ COMMIT_KEYSET o ≠ BRANCH_HEAD b ∧
        PARENT_COMMIT o ≠ BRANCH_HEAD b ∧ TOTAL_VAR_SIZE_KEY o ≠ BRANCH_HEAD b ∧
        INFO_KEY o ≠ BRANCH_HEAD b :=
      fun o _ => ⟨(HEAD_ne_META _ _).symm, KEYSET_ne_HEAD _ _, PARENT_ne_HEAD _ _,
        (HEAD_ne_TOTAL _ _).symm, (HEAD_ne_INFO _ _).symm⟩
    rw [cleanOrphans_get g1 min_age now _ (HEAD_underscore b) hhyg hrec]
    exact hh
  · have hrec : ∀ o, o ∉ GCVersioned.markReachable g1.store →
        META_KEY o ≠ TOTAL_VAR_SIZE_KEY H ∧ COMMIT_KEYSET o ≠ TOTAL_VAR_SIZE_KEY H ∧
        PARENT_COMMIT o ≠ TOTAL_VAR_SIZE_KEY H ∧
        TOTAL_VAR_SIZE_KEY o ≠ TOTAL_VAR_SIZE_KEY H ∧
        INFO_KEY o ≠ TOTAL_VAR_SIZE_KEY H := by
      intro o ho
      refine ⟨(META_ne_TOTAL _ _), (KEYSET_ne_TOTAL _ _).symm.symm, (PARENT_ne_TOTAL _ _), ?_,
        (TOTAL_ne_INFO _ _).symm⟩
      intro e
      apply ho
      rw [TOTAL_inj e]
      exact hreach
    rw [cleanOrphans_get g1 min_age now _ (TOTAL_underscore H) hhyg hrec]
    exact ht

/-- A quiescent `rebase` with the head in place succeeds, leaves the
head on the fresh root commit with its total-size record persisted, and
the recorded total is at most the low-water mark. -/
theorem rebase_bound (g : GCVersioned) (now : Nat)
    (hnodupM : (g.meta.map Prod.fst).Nodup)
    (hnodupK : (g.commit_keys.map Prod.fst).Nodup)
    (hhead : Store.get g.store (BRANCH_HEAD g.branch) = some (.head g.base_commit))
    (hkeysHyg : ∀ kv ∈ g.commit_keys, ¬ startsUnderscore kv.2)
    (hksHyg : ∀ hsh ks, Store.get g.store (COMMIT_KEYSET hsh) = some (.keyset ks) →
      ∀ kv ∈ ks, ¬ startsUnderscore kv.2) :
    ∃ rr g', GCVersioned.rebase g none none now id = (.ok rr, g') ∧
      Store.get g'.store (BRANCH_HEAD g.branch) = some (.head g'.current_commit) ∧
      Store.get g'.store (TOTAL_VAR_SIZE_KEY g'.current_commit) =
        some (.size rr.total_size_after) ∧
      rr.total_size_after ≤ g.low_water := by
  unfold GCVersioned.rebase
  simp only [id_eq]
  set wr := GCVersioned.rebaseWrite g
      (GCVersioned.rebaseCollect g (GCVersioned.rebaseRetain g none).1).1
      (GCVersioned.rebaseCollect g (GCVersioned.rebaseRetain g none).1).2 none with hwr
  have hget : Store.get wr.store (BRANCH_HEAD g.branch) = some (.head g.base_commit) := by
    rw [hwr, rebaseWrite_get_head]
    exact hhead
  have hcr : Store.cas wr.store (BRANCH_HEAD g.branch) (.head wr.newHash)
      (some (.head g.base_commit))
      = (true, Store.set wr.store (BRANCH_HEAD g.branch) (.head wr.newHash)) := by
    unfold Store.cas
    rw [hget, if_pos rfl]
  rw [hcr]
  rw [if_neg (fun hc => hc rfl)]
  set td := ((GCVersioned.rebaseRetain g none).2.1.foldl
      (fun (acc : List String) key =>
        match dget g.commit_keys key with
        | some vk => if vk = "" then acc else acc ++ [vk]
        | none => acc) []) with htd
  set st3 := Store.removeMany
      (Store.set wr.store (BRANCH_HEAD g.branch) (.head wr.newHash)) td with hst3
  have htdv : ∀ v ∈ td, ¬ startsUnderscore v := by
    rw [htd]
    exact toDelete_vals g _ hkeysHyg
  have hhead3 : Store.get st3 (BRANCH_HEAD g.branch) = some (.head wr.newHash) := by
    rw [hst3, Store.get_removeMany_of_not_mem]
    · rw [Store.get_set, if_pos rfl]
    · intro hmem
      exact htdv _ hmem (HEAD_underscore g.branch)
  have htot3 : Store.get st3 (TOTAL_VAR_SIZE_KEY wr.newHash)
      = some (.size ((((GCVersioned.rebaseCollect g
          (GCVersioned.rebaseRetain g none).1).2).map
          (fun e => (e.2.size).getD 0)).sum)) := by
    rw [hst3, Store.get_removeMany_of_not_mem]
    · rw [Store.get_set, if_neg (HEAD_ne_TOTAL _ _)]
      rw [hwr]
      exact rebaseWrite_records g _ _ none
    · intro hmem
      exact htdv _ hmem (TOTAL_underscore wr.newHash)
  have hhyg3 : ∀ hsh ks, Store.get st3 (COMMIT_KEYSET hsh) = some (.keyset ks) →
      ∀ kv ∈ ks, ¬ startsUnderscore kv.2 := by
    intro hsh ks hgk
    rw [hst3] at hgk
    rcases get_removeMany_cases
      (Store.set wr.store (BRANCH_HEAD g.branch) (.head wr.newHash)) td (COMMIT_KEYSET hsh)
      with he | he
    · rw [he] at hgk
      rw [Store.get_set, if_neg (fun e => KEYSET_ne_HEAD hsh g.branch e.symm)] at hgk
      rw [hwr] at hgk
      exact rebaseWrite_keyset_hyg g _ _ none hsh ks hgk hksHyg
    · rw [he] at hgk
      exact absurd hgk (by simp)
  have hkeep := cleanOrphans_keeps_head_total
    { g with toVersioned :=
      { g.toVersioned with
        store := st3
        commit_keys := wr.newCommitKeys
        current_commit := wr.newHash
        base_commit := wr.newHash
        meta := (GCVersioned.rebaseCollect g (GCVersioned.rebaseRetain g none).1).2 } }
    3600 now g.branch wr.newHash
    ((((GCVersioned.rebaseCollect g (GCVersioned.rebaseRetain g none).1).2).map
      (fun e => (e.2.size).getD 0)).sum)
    hhyg3 hhead3 htot3
  exact ⟨_, _, rfl, hkeep.1, hkeep.2, rebase_totalAfter_le g hnodupM hnodupK⟩

/-! ### Fast-forward commit characterization and state propagation -/

/-- The carried keyset is the parent keyset minus the removals. -/
theorem carryKeyset_fst (m : List (String × MetaEntry)) (rem : List String) :
    ∀ (ck : List (String × String)),
    (Versioned.carryKeyset ck m rem).1 = ck.filter (fun kv => decide (kv.1 ∉ rem)) := by
  intro ck
  induction ck using List.reverseRecOn with
  | nil => rfl
  | append_singleton ck kv ih =>
    have hfold : Versioned.carryKeyset (ck ++ [kv]) m rem =
        (if kv.1 ∈ rem then Versioned.carryKeyset ck m rem
         else
           ((Versioned.carryKeyset ck m rem).1 ++ [kv],
            match dget m kv.1 with
            | some e => (Versioned.carryKeyset ck m rem).2 ++ [(kv.1, e)]
            | none => (Versioned.carryKeyset ck m rem).2)) := by
      unfold Versioned.carryKeyset
      rw [List.foldl_append]
      rfl
    rw [hfold, List.filter_append]
    by_cases hr : kv.1 ∈ rem
    · rw [if_pos hr, ih]
      have hk : List.filter (fun kv => decide (kv.1 ∉ rem)) [kv] = [] := by
        simp [hr]
      rw [hk, List.append_nil]
    · rw [if_neg hr]
      cases hd : dget m kv.1 with
      | some e =>
        simp only []
        rw [ih]
        have hk : List.filter (fun kv => decide (kv.1 ∉ rem)) [kv] = [kv] := by
          simp [hr]
        rw [hk]
      | none =>
        simp only []
        rw [ih]
        have hk : List.filter (fun kv => decide (kv.1 ∉ rem)) [kv] = [kv] := by
          simp [hr]
        rw [hk]

/-- The carried meta keys form a subsequence of the parent keyset keys. -/
theorem carryKeyset_meta_keys (m : List (String × MetaEntry)) (rem : List String) :
    ∀ (ck : List (String × String)),
    ((Versioned.carryKeyset ck m rem).2.map Prod.fst).Sublist (ck.map Prod.fst) := by
  intro ck
  induction ck using List.reverseRecOn with
  | nil => exact List.Sublist.refl _
  | append_singleton ck kv ih =>
    have hfold : Versioned.carryKeyset (ck ++ [kv]) m rem =
        (if kv.1 ∈ rem then Versioned.carryKeyset ck m rem
         else
           ((Versioned.carryKeyset ck m rem).1 ++ [kv],
            match dget m kv.1 with
            | some e => (Versioned.carryKeyset ck m rem).2 ++ [(kv.1, e)]
            | none => (Versioned.carryKeyset ck m rem).2)) := by
      unfold Versioned.carryKeyset
      rw [List.foldl_append]
      rfl
    rw [hfold, List.map_append]
    by_cases hr : kv.1 ∈ rem
    · rw [if_pos hr]
      exact ih.trans (List.sublist_append_left _ _)
    · rw [if_neg hr]
      cases hd : dget m kv.1 with
      | some e =>
        simp only [List.map_append]
        exact List.Sublist.append ih (List.Sublist.refl _)
      | none =>
        simp only []
        exact ih.trans (List.sublist_append_left _ _)

/-- The update loop keeps the keyset keys distinct. -/
theorem applyUpdates_keys_nodup (H : String) (updates : List (String × Bytes))
    (k0 : List (String × String)) (m0 : List (String × MetaEntry)) (t0 now : Nat)
    (h : (k0.map Prod.fst).Nodup) :
    (((Versioned.applyUpdates H updates k0 m0 t0 now).2.1).map Prod.fst).Nodup :=
  foldl_preserve (fun (acc : List (String × Val) × List (String × String) ×
      List (String × MetaEntry) × Nat) => ((acc.2.1).map Prod.fst).Nodup) _ updates
    ([], k0, m0, t0)
    (fun acc x _ hInv => by
      cases hd : dget acc.2.2.1 x.1 with
      | some e => exact dset_nodup _ _ _ hInv
      | none => exact dset_nodup _ _ _ hInv) h

/-- The update loop keeps the meta keys distinct. -/
theorem applyUpdates_meta_nodup (H : String) (updates : List (String × Bytes))
    (k0 : List (String × String)) (m0 : List (String × MetaEntry)) (t0 now : Nat)
    (h : (m0.map Prod.fst).Nodup) :
    (((Versioned.applyUpdates H updates k0 m0 t0 now).2.2.1).map Prod.fst).Nodup :=
  foldl_preserve (fun (acc : List (String × Val) × List (String × String) ×
      List (String × MetaEntry) × Nat) => ((acc.2.2.1).map Prod.fst).Nodup) _ updates
    ([], k0, m0, t0)
    (fun acc x _ hInv => by
      cases hd : dget acc.2.2.1 x.1 with
      | some e => exact dset_nodup _ _ _ hInv
      | none => exact dset_nodup _ _ _ hInv) h

/-- The update loop only writes minted hash pointers into the keyset. -/
theorem applyUpdates_keys_hyg (H : String) (updates : List (String × Bytes))
    (k0 : List (String × String)) (m0 : List (String × MetaEntry)) (t0 now : Nat)
    (hinit : ∀ kv ∈ k0, ¬ startsUnderscore kv.2)
    (hH : ∀ key, ¬ startsUnderscore (H ++ ":" ++ key)) :
    ∀ kv ∈ (Versioned.applyUpdates H updates k0 m0 t0 now).2.1, ¬ startsUnderscore kv.2 := by
  intro kv h
  rcases foldl_proj_preserve
    (fun (acc : List (String × Val) × List (String × String) ×
      List (String × MetaEntry) × Nat) => acc.2.1)
    _ (fun kv : String × String => ¬ startsUnderscore kv.2) updates ([], k0, m0, t0)
    (fun acc x _ => by
      intro kv' hkv'
      cases hd : dget acc.2.2.1 x.1 with
      | some e =>
        rw [hd] at hkv'
        rcases mem_dset _ _ _ kv' hkv' with h' | h'
        · exact Or.inr (by rw [h']; exact hH x.1)
        · exact Or.inl h'
      | none =>
        rw [hd] at hkv'
        rcases mem_dset _ _ _ kv' hkv' with h' | h'
        · exact Or.inr (by rw [h']; exact hH x.1)
        · exact Or.inl h') kv h with hin | hP
  · exact hinit kv hin
  · exact hP

/-- The new local commit's keyset keys stay distinct. -/
theorem createCommit_keys_nodup (v : Versioned) (updates : List (String × Bytes))
    (removals : List String) (info : Option (List (String × String))) (now : Nat)
    (hK : (v.commit_keys.map Prod.fst).Nodup) :
    (((v.createCommit updates removals info now).2.commit_keys).map Prod.fst).Nodup := by
  have he : (v.createCommit updates removals info now).2.commit_keys =
      (Versioned.applyUpdates (contentHash [v.current_commit]
        (Versioned.previewKeyset updates
          (Versioned.carryKeyset v.commit_keys v.meta removals).1)
        updates info) updates (Versioned.carryKeyset v.commit_keys v.meta removals).1
        (Versioned.carryKeyset v.commit_keys v.meta removals).2 v.touch_counter now).2.1 := rfl
  rw [he]
  apply applyUpdates_keys_nodup
  rw [carryKeyset_fst]
  exact hK.sublist (List.Sublist.map _ (List.filter_sublist _))

/-- The new local commit's meta keys stay distinct. -/
theorem createCommit_meta_nodup (v : Versioned) (updates : List (String × Bytes))
    (removals : List String) (info : Option (List (String × String))) (now : Nat)
    (hK : (v.commit_keys.map Prod.fst).Nodup) :
    (((v.createCommit updates removals info now).2.meta).map Prod.fst).Nodup := by
  have he : (v.createCommit updates removals info now).2.meta =
      (Versioned.applyUpdates (contentHash [v.current_commit]
        (Versioned.previewKeyset updates
          (Versioned.carryKeyset v.commit_keys v.meta removals).1)
        updates info) updates (Versioned.carryKeyset v.commit_keys v.meta removals).1
        (Versioned.carryKeyset v.commit_keys v.meta removals).2 v.touch_counter now).2.2.1 := rfl
  rw [he]
  apply applyUpdates_meta_nodup
  exact hK.sublist (carryKeyset_meta_keys v.meta removals v.commit_keys)

/-- The new local commit's keyset pointers inherit hygiene. -/
theorem createCommit_keys_hyg (v : Versioned) (updates : List (String × Bytes))
    (removals : List String) (info : Option (List (String × String))) (now : Nat)
    (h : ∀ kv ∈ v.commit_keys, ¬ startsUnderscore kv.2) :
    ∀ kv ∈ (v.createCommit updates removals info now).2.commit_keys,
      ¬ startsUnderscore kv.2 := by
  have he : (v.createCommit updates removals info now).2.commit_keys =
      (Versioned.applyUpdates (contentHash [v.current_commit]
        (Versioned.previewKeyset updates
          (Versioned.carryKeyset v.commit_keys v.meta removals).1)
        updates info) updates (Versioned.carryKeyset v.commit_keys v.meta removals).1
        (Versioned.carryKeyset v.commit_keys v.meta removals).2 v.touch_counter now).2.1 := rfl
  rw [he]
  apply applyUpdates_keys_hyg
  · intro kv hkv
    rw [carryKeyset_fst] at hkv
    exact h kv (List.mem_filter.mp hkv).1
  · intro key
    exact hashPtr_not_underscore _ _ _ _ _

/-- A non-empty batch with the head unmoved commits fast-forward: the
local commit is built, the head CAS succeeds, and the view advances to
the new commit. -/
theorem commit_ff (v : Versioned) (updates : List (String × Bytes)) (removals : List String)
    (info : Option (List (String × String))) (now : Nat)
    (hne : ¬(updates = [] ∧ removals = [] ∧ info = none))
    (hhead : Store.get v.store (BRANCH_HEAD v.branch) = some (.head v.base_commit)) :
    ∃ res v', Versioned.commit v updates removals "raise" [] none info now id =
        (.ok res, v') ∧
      res.merged = true ∧
      v'.branch = v.branch ∧
      v'.current_commit = (v.createCommit updates removals info now).1 ∧
      v'.base_commit = (v.createCommit updates removals info now).1 ∧
      v'.commit_keys = (v.createCommit updates removals info now).2.commit_keys ∧
      v'.meta = (v.createCommit updates removals info now).2.meta ∧
      v'.store = Store.set (v.createCommit updates removals info now).2.store
        (BRANCH_HEAD v.branch) (.head (v.createCommit updates removals info now).1) := by
  unfold Versioned.commit
  rw [if_neg hne]
  rw [if_neg (fun hc => hc (Or.inl rfl))]
  have hlh : v.latestHead = some v.base_commit := by
    unfold Versioned.latestHead
    rw [hhead]
  simp only [hlh, id_eq]
  rw [if_pos trivial]
  have hg1 : Store.get (v.createCommit updates removals info now).2.store
      (BRANCH_HEAD (v.createCommit updates removals info now).2.branch)
      = some (.head (v.createCommit updates removals info now).2.base_commit) := by
    have hbr : (v.createCommit updates removals info now).2.branch = v.branch := rfl
    have hbc : (v.createCommit updates removals info now).2.base_commit = v.base_commit := rfl
    rw [hbr, hbc, createCommit_get_head]
    exact hhead
  have hcas : Store.cas (v.createCommit updates removals info now).2.store
      (BRANCH_HEAD (v.createCommit updates removals info now).2.branch)
      (.head (v.createCommit updates removals info now).2.current_commit)
      (some (.head (v.createCommit updates removals info now).2.base_commit))
      = (true, Store.set (v.createCommit updates removals info now).2.store
          (BRANCH_HEAD (v.createCommit updates removals info now).2.branch)
          (.head (v.createCommit updates removals info now).2.current_commit)) := by
    unfold Store.cas
    rw [hg1, if_pos rfl]
  rw [hcas]
  rw [if_pos rfl]
  exact ⟨_, _, rfl, rfl, rfl, rfl, rfl, rfl, rfl, rfl⟩

/-- Keyset records after a fast-forward commit are old records or the
new commit's keyset, which inherits hygiene. -/
theorem commit_store_ksHyg (v : Versioned) (updates : List (String × Bytes))
    (removals : List String) (info : Option (List (String × String))) (now : Nat)
    (hold : ∀ hsh' ks', Store.get v.store (COMMIT_KEYSET hsh') = some (.keyset ks') →
      ∀ kv ∈ ks', ¬ startsUnderscore kv.2)
    (hkeys : ∀ kv ∈ v.commit_keys, ¬ startsUnderscore kv.2) :
    ∀ hsh ks, Store.get (Store.set (v.createCommit updates removals info now).2.store
        (BRANCH_HEAD v.branch) (.head (v.createCommit updates removals info now).1))
        (COMMIT_KEYSET hsh) = some (.keyset ks) →
      ∀ kv ∈ ks, ¬ startsUnderscore kv.2 := by
  intro hsh ks h
  rw [Store.get_set, if_neg (fun e => KEYSET_ne_HEAD hsh v.branch e.symm)] at h
  have he : (v.createCommit updates removals info now).2.store =
      Store.setMany v.store
        ((Versioned.applyUpdates (contentHash [v.current_commit]
            (Versioned.previewKeyset updates
              (Versioned.carryKeyset v.commit_keys v.meta removals).1) updates info)
          updates (Versioned.carryKeyset v.commit_keys v.meta removals).1
          (Versioned.carryKeyset v.commit_keys v.meta removals).2 v.touch_counter now).1
         ++ Versioned.commitRecords (contentHash [v.current_commit]
            (Versioned.previewKeyset updates
              (Versioned.carryKeyset v.commit_keys v.meta removals).1) updates info)
            [v.current_commit]
            (v.createCommit updates removals info now).2.commit_keys
            (v.createCommit updates removals info now).2.meta info) := rfl
  rw [he] at h
  rcases get_setMany_cases v.store _ (COMMIT_KEYSET hsh) with hc | ⟨w, hw, hg⟩
  · rw [hc] at h
    exact hold hsh ks h
  · rw [hg] at h
    have hw2 : w = .keyset ks := by simpa using h
    subst hw2
    rcases List.mem_append.mp hw with hb | hr
    · exfalso
      rcases applyUpdates_diff_keys _ _ _ _ _ _ _ hb with ⟨key, hkey⟩
      exact hashPtr_ne_reserved _ _ _ _ _ _ (KEYSET_underscore hsh) hkey.symm
    · unfold Versioned.commitRecords at hr
      rcases List.mem_append.mp hr with h4 | hinfo
      · rcases List.mem_cons.mp h4 with h' | h4
        · have hpair := h'
          simp only [Prod.mk.injEq, Val.keyset.injEq] at hpair
          rw [hpair.2]
          exact createCommit_keys_hyg v updates removals info now hkeys
        rcases List.mem_cons.mp h4 with h' | h4
        · simp at h'
        rcases List.mem_cons.mp h4 with h' | h4
        · simp at h'
        rcases List.mem_cons.mp h4 with h' | h4
        · simp at h'
        · simp at h4
      · cases info with
        | none => simp at hinfo
        | some i =>
          rcases List.mem_cons.mp hinfo with h' | h'
          · simp at h'
          · simp at h'

/-- The automatic high/low check leaves the branch head on a commit
whose persisted total is at most the high-water mark. -/
theorem maybeRebase_bound (g1 : GCVersioned) (now t0 : Nat)
    (hlw : g1.low_water < g1.high_water)
    (hnodupM : (g1.meta.map Prod.fst).Nodup)
    (hnodupK : (g1.commit_keys.map Prod.fst).Nodup)
    (hcur : g1.current_commit = g1.base_commit)
    (hhead : Store.get g1.store (BRANCH_HEAD g1.branch) = some (.head g1.base_commit))
    (htot : Store.get g1.store (TOTAL_VAR_SIZE_KEY g1.current_commit) = some (.size t0))
    (hkeysHyg : ∀ kv ∈ g1.commit_keys, ¬ startsUnderscore kv.2)
    (hksHyg : ∀ hsh ks, Store.get g1.store (COMMIT_KEYSET hsh) = some (.keyset ks) →
      ∀ kv ∈ ks, ¬ startsUnderscore kv.2) :
    ∃ rr g', GCVersioned.maybeRebase g1 now id = (.ok rr, g') ∧
      ∃ h n, Store.get g'.store (BRANCH_HEAD g1.branch) = some (.head h) ∧
        Store.get g'.store (TOTAL_VAR_SIZE_KEY h) = some (.size n) ∧
        n ≤ g1.high_water := by
  have hlt : GCVersioned.loadTotalSize g1 0 = t0 := by
    unfold GCVersioned.loadTotalSize
    rw [htot]
  unfold GCVersioned.maybeRebase
  simp only [hlt]
  by_cases hc : t0 ≤ g1.high_water
  · rw [if_pos hc]
    refine ⟨_, g1, rfl, g1.base_commit, t0, hhead, ?_, hc⟩
    rw [← hcur]
    exact htot
  · rw [if_neg hc]
    obtain ⟨rr, g', he, h1, h2, h3⟩ := rebase_bound g1 now hnodupM hnodupK hhead hkeysHyg hksHyg
    exact ⟨rr, g', he, g'.current_commit, rr.total_size_after, h1, h2,
      le_of_lt (lt_of_le_of_lt h3 hlw)⟩

/-- Control flow of the GC-layer commit: a merged inner commit followed
by a successful automatic rebase check yields both results. -/
theorem commitGC_ok (g : GCVersioned) (updates : List (String × Bytes))
    (removals : List String) (on_conflict : String) (merge_fns : List (String × MergeFn))
    (default_merge : Option MergeFn) (info : Option (List (String × String)))
    (now : Nat) (tamper : Store → Store) (res : MergeResult) (v' : Versioned)
    (rr : RebaseResult) (g2 : GCVersioned)
    (hc : Versioned.commit g.toVersioned updates removals on_conflict merge_fns
      default_merge info now tamper = (.ok res, v'))
    (hm : res.merged = true)
    (hmb : GCVersioned.maybeRebase { g with toVersioned := v' } now tamper = (.ok rr, g2)) :
    GCVersioned.commitGC g updates removals on_conflict merge_fns default_merge info now tamper
      = (.ok res, { g2 with last_rebase_result := some rr }) := by
  unfold GCVersioned.commitGC
  rw [hc]
  simp only []
  rw [if_pos hm]
  rw [hmb]

/-! ### LCA: the interleaved BFS and its invariants -/

/-- Every parent link read by the BFS lies in `parentIdsOf`. -/
theorem loadParents_subset (s : Store) (c p : String)
    (h : p ∈ Versioned.loadParents s c) : p ∈ parentIdsOf s := by
  unfold Versioned.loadParents Store.get at h
  induction s with
  | nil => simp [dget] at h
  | cons kv t ih =>
    unfold dget at h
    by_cases hk : kv.1 = PARENT_COMMIT c
    · rw [if_pos hk] at h
      cases hv : kv.2 with
      | parents ps =>
        rw [hv] at h
        simp only at h
        simp only [parentIdsOf, List.foldr_cons, hv]
        exact List.mem_append_left _ h
      | blob b => rw [hv] at h; simp at h
      | keyset ks => rw [hv] at h; simp at h
      | head hh => rw [hv] at h; simp at h
      | meta m => rw [hv] at h; simp at h
      | size n => rw [hv] at h; simp at h
      | info i => rw [hv] at h; simp at h
    · rw [if_neg hk] at h
      have := ih h
      simp only [parentIdsOf, List.foldr_cons]
      cases hv : kv.2 with
      | parents ps => exact List.mem_append_right _ (by simpa [parentIdsOf] using this)
      | blob b => simpa [parentIdsOf] using this
      | keyset ks => simpa [parentIdsOf] using this
      | head hh => simpa [parentIdsOf] using this
      | meta m => simpa [parentIdsOf] using this
      | size n => simpa [parentIdsOf] using this
      | info i => simpa [parentIdsOf] using this

/-- A parent-closed set containing `x` contains every ancestor of `x`. -/
theorem closed_reach (s : Store) (L : List String)
    (hclosed : ∀ x ∈ L, ∀ p ∈ Versioned.loadParents s x, p ∈ L)
    (x : String) (hx : x ∈ L) (c : String) (hc : isAncestor s c x) : c ∈ L := by
  induction hc with
  | refl => exact hx
  | tail h1 h2 ih => exact hclosed _ ih _ h2

/-- Filtering drops length when some member fails the predicate. -/
theorem length_filter_lt_of_mem (p : String → Bool) (M : List String) (n : String)
    (hn : n ∈ M) (hp : p n = false) : (M.filter p).length < M.length := by
  induction M with
  | nil => simp at hn
  | cons y M ih =>
    rw [List.filter_cons]
    by_cases hy : p y = true
    · rcases List.mem_cons.mp hn with h | h
      · rw [← h] at hy
        rw [hp] at hy
        exact absurd hy (by simp)
      · rw [if_pos hy]
        simpa using ih h
    · rw [if_neg hy]
      exact Nat.lt_succ_of_le (List.length_filter_le _ M)

/-- Extending the seen set by fresh distinct universe members shrinks
the unseen count by at least their number. -/
theorem filter_not_mem_append (u : List String) :
    ∀ (new L : List String), new.Nodup → (∀ x ∈ new, x ∈ u ∧ x ∉ L) →
    (u.filter (fun x => decide (x ∉ L ++ new))).length + new.length ≤
      (u.filter (fun x => decide (x ∉ L))).length := by
  intro new
  induction new with
  | nil => intro L _ _; simp
  | cons n rest ih =>
    intro L hnd hmem
    have hsplit : L ++ n :: rest = (L ++ [n]) ++ rest := by simp
    rw [hsplit]
    have hrec := ih (L ++ [n]) (List.Nodup.of_cons hnd) (fun x hx => by
      refine ⟨(hmem x (List.mem_cons_of_mem _ hx)).1, ?_⟩
      intro hmem'
      rcases List.mem_append.mp hmem' with h | h
      · exact (hmem x (List.mem_cons_of_mem _ hx)).2 h
      · have hxn : x = n := by simpa using h
        rw [List.nodup_cons] at hnd
        exact hnd.1 (hxn ▸ hx))
    have hfe : u.filter (fun x => decide (x ∉ L ++ [n])) =
        (u.filter (fun x => decide (x ∉ L))).filter (fun x => decide (x ≠ n)) := by
      rw [List.filter_filter]
      apply List.filter_congr
      intro x _
      by_cases h1 : x ∈ L <;> by_cases h2 : x = n <;> simp [h1, h2]
    have hstep : (u.filter (fun x => decide (x ∉ L ++ [n]))).length <
        (u.filter (fun x => decide (x ∉ L))).length := by
      rw [hfe]
      refine length_filter_lt_of_mem _ _ n ?_ (by simp)
      exact List.mem_filter.mpr ⟨(hmem n (List.mem_cons_self _ _)).1,
        by simpa using (hmem n (List.mem_cons_self _ _)).2⟩
    simp only [List.length_cons]
    omega

/-- When the expansion returns early, the hit is one of the expanded
parents and lies on the other side. -/
theorem lcaExpand_found (seenOther : List String) :
    ∀ (ps seenMe q s2 q2 : List String) (r : String),
    lcaExpand seenMe seenOther q ps = (s2, q2, some r) → r ∈ ps ∧ r ∈ seenOther := by
  intro ps
  induction ps with
  | nil =>
    intro seenMe q s2 q2 r h
    simp [lcaExpand] at h
  | cons p ps ih =>
    intro seenMe q s2 q2 r h
    simp only [lcaExpand] at h
    by_cases hp : p ∈ seenMe
    · rw [if_pos hp] at h
      obtain ⟨h1, h2⟩ := ih _ _ _ _ _ h
      exact ⟨List.mem_cons_of_mem _ h1, h2⟩
    · rw [if_neg hp] at h
      by_cases ho : p ∈ seenOther
      · rw [if_pos ho] at h
        simp only [Prod.mk.injEq, Option.some.injEq] at h
        rw [← h.2.2]
        exact ⟨List.mem_cons_self _ _, ho⟩
      · rw [if_neg ho] at h
        obtain ⟨h1, h2⟩ := ih _ _ _ _ _ h
        exact ⟨List.mem_cons_of_mem _ h1, h2⟩

/-- When the expansion runs through, it appends exactly the fresh
parents to the seen set and queue, and afterwards every expanded parent
is seen. -/
theorem lcaExpand_none_spec (seenOther : List String) :
    ∀ (ps seenMe q s2 q2 : List String),
    lcaExpand seenMe seenOther q ps = (s2, q2, none) →
    ∃ new, s2 = seenMe ++ new ∧ q2 = q ++ new ∧
      (∀ x ∈ new, x ∈ ps ∧ x ∉ seenMe ∧ x ∉ seenOther) ∧
      (∀ p ∈ ps, p ∈ s2) ∧ new.Nodup := by
  intro ps
  induction ps with
  | nil =>
    intro seenMe q s2 q2 h
    simp only [lcaExpand, Prod.mk.injEq] at h
    refine ⟨[], by simp [← h.1], by simp [← h.2.1], by simp, by simp, List.nodup_nil⟩
  | cons p ps ih =>
    intro seenMe q s2 q2 h
    simp only [lcaExpand] at h
    by_cases hp : p ∈ seenMe
    · rw [if_pos hp] at h
      obtain ⟨new, h1, h2, h3, h4, h5⟩ := ih _ _ _ _ h
      refine ⟨new, h1, h2, ?_, ?_, h5⟩
      · exact fun x hx => ⟨List.mem_cons_of_mem _ (h3 x hx).1, (h3 x hx).2.1, (h3 x hx).2.2⟩
      · intro p' hp'
        rcases List.mem_cons.mp hp' with h' | h'
        · rw [h', h1]
          exact List.mem_append_left _ hp
        · exact h4 p' h'
    · rw [if_neg hp] at h
      by_cases ho : p ∈ seenOther
      · rw [if_pos ho] at h
        simp at h
      · rw [if_neg ho] at h
        obtain ⟨new, h1, h2, h3, h4, h5⟩ := ih _ _ _ _ h
        refine ⟨p :: new, ?_, ?_, ?_, ?_, ?_⟩
        · rw [h1, List.append_assoc]
          rfl
        · rw [h2, List.append_assoc]
          rfl
        · intro x hx
          rcases List.mem_cons.mp hx with h' | h'
          · exact ⟨h' ▸ List.mem_cons_self _ _, h' ▸ hp, h' ▸ ho⟩
          · refine ⟨List.mem_cons_of_mem _ (h3 x h').1, ?_, (h3 x h').2.2⟩
            intro hxs
            exact (h3 x h').2.1 (List.mem_append_left _ hxs)
        · intro p' hp'
          rcases List.mem_cons.mp hp' with h' | h'
          · rw [h', h1]
            exact List.mem_append_left _ (List.mem_append_right _ (List.mem_singleton.mpr rfl))
          · exact h4 p' h'
        · rw [List.nodup_cons]
          refine ⟨?_, h5⟩
          intro hmem
          exact (h3 p hmem).2.1 (List.mem_append_right _ (List.mem_singleton.mpr rfl))

/-- A `found` turn hits a queued commit or one of its parents, already
seen by the other side. -/
theorem lcaSide_found (s : Store) (q seenMe seenOther : List String) (c : String)
    (h : lcaSide s q seenMe seenOther = .found c) :
    ∃ cur, cur ∈ q ∧ (c = cur ∨ c ∈ Versioned.loadParents s cur) ∧ c ∈ seenOther := by
  unfold lcaSide at h
  cases q with
  | nil => simp at h
  | cons cur q' =>
    simp only [] at h
    by_cases ho : cur ∈ seenOther
    · rw [if_pos ho] at h
      simp only [SideRes.found.injEq] at h
      exact ⟨cur, List.mem_cons_self _ _, Or.inl h.symm, h ▸ ho⟩
    · rw [if_neg ho] at h
      rcases hexp : lcaExpand seenMe seenOther q' (Versioned.loadParents s cur)
        with ⟨s2, q2, res⟩
      rw [hexp] at h
      cases res with
      | none => simp at h
      | some r =>
        simp only [SideRes.found.injEq] at h
        obtain ⟨h1, h2⟩ := lcaExpand_found seenOther _ _ _ _ _ _ hexp
        exact ⟨cur, List.mem_cons_self _ _, Or.inr (h ▸ h1), h ▸ h2⟩

/-- A `cont` turn either skips an empty queue or pops the head and
appends its fresh parents to the seen set and queue. -/
theorem lcaSide_cont (s : Store) (q seenMe seenOther q2 s2 : List String)
    (h : lcaSide s q seenMe seenOther = .cont q2 s2) :
    (q = [] ∧ q2 = [] ∧ s2 = seenMe) ∨
    ∃ cur q' new, q = cur :: q' ∧ cur ∉ seenOther ∧
      s2 = seenMe ++ new ∧ q2 = q' ++ new ∧
      (∀ x ∈ new, x ∈ Versioned.loadParents s cur ∧ x ∉ seenMe ∧ x ∉ seenOther) ∧
      (∀ p ∈ Versioned.loadParents s cur, p ∈ s2) ∧ new.Nodup := by
  unfold lcaSide at h
  cases q with
  | nil =>
    simp only [SideRes.cont.injEq] at h
    exact Or.inl ⟨rfl, h.1.symm, h.2.symm⟩
  | cons cur q' =>
    simp only [] at h
    by_cases ho : cur ∈ seenOther
    · rw [if_pos ho] at h
      simp at h
    · rw [if_neg ho] at h
      rcases hexp : lcaExpand seenMe seenOther q' (Versioned.loadParents s cur)
        with ⟨se, qe, res⟩
      rw [hexp] at h
      cases res with
      | some r => simp at h
      | none =>
        simp only [SideRes.cont.injEq] at h
        obtain ⟨new, h1, h2, h3, h4, h5⟩ := lcaExpand_none_spec seenOther _ _ _ _ _ hexp
        exact Or.inr ⟨cur, q', new, rfl, ho, h.2.symm.trans h1, h.1.symm.trans h2, h3,
          fun p hp => h.2 ▸ h4 p hp, h5⟩

/-- A `cont` turn preserves one side's BFS invariants: queued commits
are seen, seen commits are ancestors of the start `t`, non-queued seen
commits are parent-closed, the seen set only grows, freshly seen
commits are off the other side, and the side's measure share drops by
one whenever the queue was non-empty. -/
theorem side_cont_invariants (s : Store) (t : String) (u : List String)
    (hu : ∀ c p, p ∈ Versioned.loadParents s c → p ∈ u)
    (q seen other q2 seen2 : List String)
    (h : lcaSide s q seen other = .cont q2 seen2)
    (hq : ∀ x ∈ q, x ∈ seen)
    (hs : ∀ x ∈ seen, isAncestor s x t)
    (hc : ∀ x ∈ seen, x ∉ q → ∀ p ∈ Versioned.loadParents s x, p ∈ seen) :
    (∀ x ∈ q2, x ∈ seen2) ∧
    (∀ x ∈ seen2, isAncestor s x t) ∧
    (∀ x ∈ seen2, x ∉ q2 → ∀ p ∈ Versioned.loadParents s x, p ∈ seen2) ∧
    (∀ x ∈ seen, x ∈ seen2) ∧
    (∀ x ∈ seen2, x ∉ seen → x ∉ other) ∧
    (q ≠ [] → q2.length + 2 * (u.filter (fun x => decide (x ∉ seen2))).length + 1 ≤
      q.length + 2 * (u.filter (fun x => decide (x ∉ seen))).length) ∧
    (q = [] → q2 = [] ∧ seen2 = seen) := by
  rcases lcaSide_cont s q seen other q2 seen2 h with ⟨hq0, hq20, hs20⟩ |
    ⟨cur, q', new, hqeq, hcur, hs2, hq2, hnew, hall, hnd⟩
  · subst hq0; subst hq20; subst hs20
    refine ⟨fun x hx => absurd hx (List.not_mem_nil x), hs, ?_, fun x hx => hx,
      fun x hx hnx => absurd hx hnx, fun hne => absurd rfl hne, fun _ => ⟨rfl, rfl⟩⟩
    exact fun x hx _ => hc x hx (List.not_mem_nil x)
  · subst hqeq; subst hs2; subst hq2
    have hcurSeen : cur ∈ seen := hq cur (List.mem_cons_self _ _)
    refine ⟨?_, ?_, ?_, fun x hx => List.mem_append_left _ hx, ?_, ?_, ?_⟩
    · intro x hx
      rcases List.mem_append.mp hx with h' | h'
      · exact List.mem_append_left _ (hq x (List.mem_cons_of_mem _ h'))
      · exact List.mem_append_right _ h'
    · intro x hx
      rcases List.mem_append.mp hx with h' | h'
      · exact hs x h'
      · exact (hs cur hcurSeen).tail (hnew x h').1
    · intro x hx hnx
      rcases List.mem_append.mp hx with h' | h'
      · by_cases hxc : x = cur
        · subst hxc
          exact hall
        · have hxq : x ∉ cur :: q' := by
            intro hmem
            rcases List.mem_cons.mp hmem with h2 | h2
            · exact hxc h2
            · exact hnx (List.mem_append_left _ h2)
          exact fun p hp => List.mem_append_left _ (hc x h' hxq p hp)
      · exact absurd (List.mem_append_right _ h') hnx
    · intro x hx hns
      rcases List.mem_append.mp hx with h' | h'
      · exact absurd h' hns
      · exact (hnew x h').2.2
    · intro _
      have hcount := filter_not_mem_append u new seen hnd
        (fun x hx => ⟨hu cur x (hnew x hx).1, (hnew x hx).2.1⟩)
      simp only [List.length_append, List.length_cons]
      omega
    · intro h0
      exact absurd h0 (by simp)

/-- The interleaved BFS, run under its invariants with enough fuel,
returns a common ancestor whenever `a` is an ancestor of `b`. -/
theorem lcaLoop_spec (s : Store) (a b : String) (u : List String)
    (hu : ∀ c p, p ∈ Versioned.loadParents s c → p ∈ u)
    (hreach : isAncestor s a b) :
    ∀ (fuel : Nat) (qa qb seenA seenB : List String),
    (∀ x ∈ qa, x ∈ seenA) → (∀ x ∈ qb, x ∈ seenB) →
    (∀ x ∈ seenA, isAncestor s x a) → (∀ x ∈ seenB, isAncestor s x b) →
    (∀ x ∈ seenA, x ∉ qa → ∀ p ∈ Versioned.loadParents s x, p ∈ seenA) →
    (∀ x ∈ seenB, x ∉ qb → ∀ p ∈ Versioned.loadParents s x, p ∈ seenB) →
    a ∈ seenA → b ∈ seenB → a ∉ seenB →
    qa.length + qb.length +
      2 * (u.filter (fun x => decide (x ∉ seenA))).length +
      2 * (u.filter (fun x => decide (x ∉ seenB))).length < fuel →
    ∃ c, lcaLoop s fuel qa qb seenA seenB = some c ∧
      isAncestor s c a ∧ isAncestor s c b := by
  intro fuel
  induction fuel with
  | zero =>
    intro qa qb seenA seenB _ _ _ _ _ _ _ _ _ hfuel
    omega
  | succ fuel ih =>
    intro qa qb seenA seenB hqa hqb hsa hsb hca hcb ha hb hanb hfuel
    by_cases hg : qa = [] ∧ qb = []
    · exfalso
      have hclosed : ∀ x ∈ seenB, ∀ p ∈ Versioned.loadParents s x, p ∈ seenB :=
        fun x hx => hcb x hx (hg.2 ▸ List.not_mem_nil x)
      exact hanb (closed_reach s seenB hclosed b hb a hreach)
    · cases hsideA : lcaSide s qa seenA seenB with
      | found c =>
        obtain ⟨cur, hcur, hcopt, hcB⟩ := lcaSide_found s qa seenA seenB c hsideA
        refine ⟨c, ?_, ?_, hsb c hcB⟩
        · unfold lcaLoop
          rw [if_neg hg, hsideA]
        · rcases hcopt with h' | h'
          · exact h' ▸ hsa cur (hqa cur hcur)
          · exact (hsa cur (hqa cur hcur)).tail h'
      | cont qa2 seenA2 =>
        obtain ⟨hqa2, hsa2, hca2, hsubA, _, hmetA, hempA⟩ :=
          side_cont_invariants s a u hu qa seenA seenB qa2 seenA2 hsideA hqa hsa hca
        have ha2 : a ∈ seenA2 := hsubA a ha
        cases hsideB : lcaSide s qb seenB seenA2 with
        | found c =>
          obtain ⟨cur, hcur, hcopt, hcA⟩ := lcaSide_found s qb seenB seenA2 c hsideB
          refine ⟨c, ?_, hsa2 c hcA, ?_⟩
          · unfold lcaLoop
            rw [if_neg hg, hsideA]
            simp only []
            rw [hsideB]
          · rcases hcopt with h' | h'
            · exact h' ▸ hsb cur (hqb cur hcur)
            · exact (hsb cur (hqb cur hcur)).tail h'
        | cont qb2 seenB2 =>
          obtain ⟨hqb2, hsb2, hcb2, hsubB, hfreshB, hmetB, hempB⟩ :=
            side_cont_invariants s b u hu qb seenB seenA2 qb2 seenB2 hsideB hqb hsb hcb
          have hb2 : b ∈ seenB2 := hsubB b hb
          have hanb2 : a ∉ seenB2 := by
            intro hmem
            by_cases hin : a ∈ seenB
            · exact hanb hin
            · exact hfreshB a hmem hin ha2
          have hmet : qa2.length + qb2.length +
              2 * (u.filter (fun x => decide (x ∉ seenA2))).length +
              2 * (u.filter (fun x => decide (x ∉ seenB2))).length < fuel := by
            by_cases hqae : qa = []
            · obtain ⟨he1, he2⟩ := hempA hqae
              subst he1; subst he2
              have hqbe : qb ≠ [] := fun h0 => hg ⟨hqae, h0⟩
              have := hmetB hqbe
              subst hqae
              simp only [List.length_nil] at hfuel ⊢
              omega
            · have h1 := hmetA hqae
              by_cases hqbe : qb = []
              · obtain ⟨he1, he2⟩ := hempB hqbe
                subst he1; subst he2
                subst hqbe
                simp only [List.length_nil] at hfuel ⊢
                omega
              · have h2 := hmetB hqbe
                omega
          obtain ⟨c, hc, h1, h2⟩ := ih qa2 qb2 seenA2 seenB2 hqa2 hqb2 hsa2 hsb2
            hca2 hcb2 ha2 hb2 hanb2 hmet
          refine ⟨c, ?_, h1, h2⟩
          unfold lcaLoop
          rw [if_neg hg, hsideA]
          simp only []
          rw [hsideB]
          exact hc

/-! ### Claim theorems -/

/-- C9: the counter merge returns `ours + theirs − old` with a missing
old value read as zero, and is commutative in the two writers' values. -/
theorem claim_C9_counter_merge (old : Option Int) (ours theirs : Int) :
    counterMerge old ours theirs = ours + theirs - old.getD 0 ∧
    counterMerge none ours theirs = ours + theirs ∧
    counterMerge old ours theirs = counterMerge old theirs ours := by
  refine ⟨rfl, by simp [counterMerge], by unfold counterMerge; ring⟩

/-- C3: the commit id is a pure function of its inputs — reordering the
keyset, updates or info dictionaries (the only freedom two equal inputs
have) leaves it unchanged — and it is exactly the first 40 hex
characters of the SHA-256 digest of the canonical byte stream. -/
theorem claim_C3_content_hash_deterministic
    (parents : List String) (ks₁ ks₂ : List (String × String))
    (us₁ us₂ : List (String × Bytes)) (info₁ info₂ : Option (List (String × String)))
    (hks : ks₁.Perm ks₂) (hus : us₁.Perm us₂) (hnd : (us₁.map Prod.fst).Nodup)
    (hinfo : (info₁ = none ∧ info₂ = none) ∨
      (∃ i₁ i₂, info₁ = some i₁ ∧ info₂ = some i₂ ∧ i₁.Perm i₂)) :
    contentHash parents ks₁ us₁ info₁ = contentHash parents ks₂ us₂ info₂ ∧
    contentHash parents ks₁ us₁ info₁ =
      String.mk ((sha256Hex (hashStream parents ks₁ us₁ info₁)).take 40) := by
  refine ⟨?_, rfl⟩
  suffices hs : hashStream parents ks₁ us₁ info₁ = hashStream parents ks₂ us₂ info₂ by
    unfold contentHash
    rw [hs]
  unfold hashStream
  have e2 : sortLe pairLeB ks₁ = sortLe pairLeB ks₂ :=
    sortLe_eq_of_perm _ pairLeB_antisymm pairLeB_trans pairLeB_total _ _ hks
  have e3 : sortLe strLeB (us₁.map Prod.fst) = sortLe strLeB (us₂.map Prod.fst) :=
    sortLe_eq_of_perm _ strLeB_antisymm strLeB_trans strLeB_total _ _ (hus.map _)
  have e4 : ∀ k, dget us₁ k = dget us₂ k := fun k => dget_perm _ _ hus hnd k
  rw [e2, e3]
  rcases hinfo with ⟨h1, h2⟩ | ⟨i₁, i₂, h1, h2, hp⟩
  · subst h1; subst h2
    simp only [e4]
  · subst h1; subst h2
    have e5 : sortLe pairLeB i₁ = sortLe pairLeB i₂ :=
      sortLe_eq_of_perm _ pairLeB_antisymm pairLeB_trans pairLeB_total _ _ hp
    simp only [e4, e5]

/-- Witness for C3 at concrete inputs (two dict orderings of the same
keyset, updates and info). -/
theorem claim_C3_witness :
    contentHash ["p"] [("b", "x"), ("a", "y")] [("k", [1]), ("j", [2])] (some [("m", "n"), ("q", "w")]) =
      contentHash ["p"] [("a", "y"), ("b", "x")] [("j", [2]), ("k", [1])] (some [("q", "w"), ("m", "n")]) :=
  (claim_C3_content_hash_deterministic ["p"] _ _ _ _ _ _ (by decide) (by decide) (by decide)
    (Or.inr ⟨_, _, rfl, rfl, by decide⟩)).1

/-- C8 counterexample: with empty updates, removals and info, `commit()`
returns the no-op result without ever validating `on_conflict`, so the
invalid value "bogus" is silently swallowed rather than raised. -/
theorem claim_C8_counterexample :
    Versioned.commit vR [] [] "bogus" [] none none 0 id =
      (.ok ⟨true, some "r", "no_op", [], []⟩,
       { vR with last_merge_result := some ⟨true, some "r", "no_op", [], []⟩ }) := by
  rfl

/-- C8 (amended): a call with `on_conflict` outside `{"raise",
"abandon"}` raises `ValueError` whenever at least one of updates,
removals and info is non-empty; the all-empty call no-ops without
validating. -/
theorem claim_C8_amended (v : Versioned) (updates : List (String × Bytes))
    (removals : List String) (oc : String) (fns : List (String × MergeFn))
    (dm : Option MergeFn) (info : Option (List (String × String))) (now : Nat)
    (tamper : Store → Store)
    (hne : ¬ (updates = [] ∧ removals = [] ∧ info = none))
    (h1 : oc ≠ "raise") (h2 : oc ≠ "abandon") :
    Versioned.commit v updates removals oc fns dm info now tamper = (.error .valueError, v) := by
  unfold Versioned.commit
  rw [if_neg hne, if_pos]
  rintro (h | h)
  · exact h1 h
  · exact h2 h

/-- Witness for the amended C8 at a concrete invalid `on_conflict`. -/
theorem claim_C8_amended_witness :
    Versioned.commit vR [("k", [1])] [] "bogus" [] none none 0 id = (.error .valueError, vR) :=
  claim_C8_amended vR [("k", [1])] [] "bogus" [] none none 0 id
    (by simp) (by decide) (by decide)

/-- C10: opening a view on a branch with no head record creates and
persists a root commit (empty keyset, no parents, empty meta, zero
total size), points the branch head at it, and sets both
`current_commit` and `base_commit` to that root id. -/
theorem claim_C10_init (store : Store) (branch : String)
    (habs : Store.get store (BRANCH_HEAD branch) = none) :
    (Versioned.init store branch).current_commit = contentHash [] [] [] none ∧
    (Versioned.init store branch).base_commit = contentHash [] [] [] none ∧
    Store.get (Versioned.init store branch).store (COMMIT_KEYSET (contentHash [] [] [] none)) =
      some (.keyset []) ∧
    Store.get (Versioned.init store branch).store (PARENT_COMMIT (contentHash [] [] [] none)) =
      some (.parents []) ∧
    Store.get (Versioned.init store branch).store (META_KEY (contentHash [] [] [] none)) =
      some (.meta []) ∧
    Store.get (Versioned.init store branch).store (TOTAL_VAR_SIZE_KEY (contentHash [] [] [] none)) =
      some (.size 0) ∧
    Store.get (Versioned.init store branch).store (BRANCH_HEAD branch) =
      some (.head (contentHash [] [] [] none)) := by
  have hstore : (Versioned.init store branch).store = Store.setMany store
      [(COMMIT_KEYSET (contentHash [] [] [] none), .keyset []),
       (PARENT_COMMIT (contentHash [] [] [] none), .parents []),
       (BRANCH_HEAD branch, .head (contentHash [] [] [] none)),
       (META_KEY (contentHash [] [] [] none), .meta []),
       (TOTAL_VAR_SIZE_KEY (contentHash [] [] [] none), .size 0)] := by
    unfold Versioned.init
    rw [habs]
  have hcur : (Versioned.init store branch).current_commit = contentHash [] [] [] none := by
    unfold Versioned.init
    rw [habs]
  have hbase : (Versioned.init store branch).base_commit = contentHash [] [] [] none := by
    unfold Versioned.init
    rw [habs]
  rw [hstore, hcur, hbase]
  simp only [Store.setMany, List.foldl_cons, List.foldl_nil]
  refine ⟨trivial, trivial, ?_, ?_, ?_, ?_, ?_⟩
  · rw [Store.get_set, if_neg (KEYSET_ne_TOTAL _ _).symm]
    rw [Store.get_set, if_neg (KEYSET_ne_META _ _).symm]
    rw [Store.get_set, if_neg (KEYSET_ne_HEAD _ _).symm]
    rw [Store.get_set, if_neg (KEYSET_ne_PARENT _ _).symm]
    rw [Store.get_set, if_pos rfl]
  · rw [Store.get_set, if_neg (PARENT_ne_TOTAL _ _).symm]
    rw [Store.get_set, if_neg (PARENT_ne_META _ _).symm]
    rw [Store.get_set, if_neg (PARENT_ne_HEAD _ _).symm]
    rw [Store.get_set, if_pos rfl]
  · rw [Store.get_set, if_neg (META_ne_TOTAL _ _).symm]
    rw [Store.get_set, if_pos rfl]
  · rw [Store.get_set, if_pos rfl]
  · rw [Store.get_set, if_neg (HEAD_ne_TOTAL _ _).symm]
    rw [Store.get_set, if_neg (HEAD_ne_META _ _).symm]
    rw [Store.get_set, if_pos rfl]

/-- Helper for C2: every run of the three-way merge in which the
post-write CAS is doomed (the tampered store's head reads `w`, distinct
from the expected `th`) either raises `MergeConflict` before the CAS,
or restores the saved in-memory state and resolves per `on_conflict`. -/
theorem threeWayMerge_fail (v : Versioned) (th : String) (oc : String)
    (fns : List (String × MergeFn)) (dm : Option MergeFn)
    (info : Option (List (String × String))) (saved : Versioned.Saved)
    (now : Nat) (tamper : Store → Store) (w : String)
    (hoc : oc = "raise" ∨ oc = "abandon")
    (htamper : ∀ s, Store.get (tamper s) (BRANCH_HEAD v.branch) = some (.head w))
    (hw : w ≠ th) :
    (∃ ks, (Versioned.threeWayMerge v th oc fns dm info (some saved) now tamper).1 =
        .error (.mergeConflict ks)) ∨
    ((Versioned.threeWayMerge v th oc fns dm info (some saved) now tamper).2.current_commit = saved.1 ∧
     (Versioned.threeWayMerge v th oc fns dm info (some saved) now tamper).2.commit_keys = saved.2.1 ∧
     (Versioned.threeWayMerge v th oc fns dm info (some saved) now tamper).2.meta = saved.2.2.1 ∧
     (Versioned.threeWayMerge v th oc fns dm info (some saved) now tamper).2.touch_counter = saved.2.2.2 ∧
     (oc = "abandon" → ∃ res, (Versioned.threeWayMerge v th oc fns dm info (some saved) now tamper).1 =
        .ok res ∧ res.merged = false) ∧
     (oc = "raise" → (Versioned.threeWayMerge v th oc fns dm info (some saved) now tamper).1 =
        .error .concurrency)) := by
  unfold Versioned.threeWayMerge
  cases hlca : findLca v.store v.current_commit th with
  | none =>
    right
    by_cases hab : oc = "abandon"
    · rw [if_pos hab]
      exact ⟨rfl, rfl, rfl, rfl, fun _ => ⟨_, rfl, rfl⟩, fun hr => absurd (hr ▸ hab) (by decide)⟩
    · rw [if_neg hab]
      have hr : oc = "raise" := hoc.resolve_right hab
      exact ⟨rfl, rfl, rfl, rfl, fun ha => absurd ha hab, fun _ => rfl⟩
  | some lca =>
    simp only []
    split
    · rename_i hconf
      left
      exact ⟨_, rfl⟩
    · rename_i hconf
      split
      · rename_i hcas
        exfalso
        revert hcas
        unfold Store.cas
        rw [htamper]
        have : ¬ (some (Val.head w) = some (Val.head th)) := by
          intro e
          exact hw (Val.head.inj (Option.some.inj e))
        rw [if_neg this]
        intro hcas
        exact Bool.false_ne_true hcas
      · right
        by_cases hab : oc = "abandon"
        · rw [if_pos hab]
          exact ⟨rfl, rfl, rfl, rfl, fun _ => ⟨_, rfl, rfl⟩, fun hr => absurd (hr ▸ hab) (by decide)⟩
        · rw [if_neg hab]
          have hr : oc = "raise" := hoc.resolve_right hab
          exact ⟨rfl, rfl, rfl, rfl, fun ha => absurd ha hab, fun _ => rfl⟩

/-- C2: a `commit()` whose branch-head CAS fails (fast-forward or
three-way path; here the tampered store's head reads `w`, which differs
from both CAS expectations) restores the in-memory view — current
commit, cached keyset, meta and touch counter — to its pre-attempt
value; with `on_conflict = "abandon"` it returns a falsy `MergeResult`,
with `"raise"` it raises `ConcurrencyError`. (The run is assumed not to
raise `MergeConflict`, which aborts before any CAS.) -/
theorem claim_C2_cas_failure_restores (v : Versioned) (updates : List (String × Bytes))
    (removals : List String) (oc : String) (fns : List (String × MergeFn))
    (dm : Option MergeFn) (info : Option (List (String × String))) (now : Nat)
    (tamper : Store → Store) (th w : String)
    (hne : ¬ (updates = [] ∧ removals = [] ∧ info = none))
    (hoc : oc = "raise" ∨ oc = "abandon")
    (hhead : v.latestHead = some th)
    (htamper : ∀ s, Store.get (tamper s) (BRANCH_HEAD v.branch) = some (.head w))
    (hw1 : w ≠ v.base_commit) (hw2 : w ≠ th)
    (hnoconf : ∀ ks, (Versioned.commit v updates removals oc fns dm info now tamper).1 ≠
        .error (.mergeConflict ks)) :
    (Versioned.commit v updates removals oc fns dm info now tamper).2.current_commit =
      v.current_commit ∧
    (Versioned.commit v updates removals oc fns dm info now tamper).2.commit_keys =
      v.commit_keys ∧
    (Versioned.commit v updates removals oc fns dm info now tamper).2.meta = v.meta ∧
    (Versioned.commit v updates removals oc fns dm info now tamper).2.touch_counter =
      v.touch_counter ∧
    (oc = "abandon" → ∃ res, (Versioned.commit v updates removals oc fns dm info now tamper).1 =
        .ok res ∧ res.merged = false) ∧
    (oc = "raise" → (Versioned.commit v updates removals oc fns dm info now tamper).1 =
        .error .concurrency) := by
  have hval : ¬ ¬ (oc = "raise" ∨ oc = "abandon") := not_not_intro hoc
  unfold Versioned.commit
  rw [if_neg hne, if_neg hval, hhead]
  by_cases hbase : th = v.base_commit
  · -- fast-forward path
    rw [if_pos (by rw [hbase])]
    have hcas : (Store.cas
        (tamper (v.createCommit updates removals info now).2.store)
        (BRANCH_HEAD (v.createCommit updates removals info now).2.branch)
        (.head (v.createCommit updates removals info now).2.current_commit)
        (some (.head (v.createCommit updates removals info now).2.base_commit))).1 = false := by
      have hbr : (v.createCommit updates removals info now).2.branch = v.branch := rfl
      have hbc : (v.createCommit updates removals info now).2.base_commit = v.base_commit := rfl
      rw [hbr, hbc]
      unfold Store.cas
      rw [htamper]
      have : ¬ (some (Val.head w) = some (Val.head v.base_commit)) := by
        intro e
        exact hw1 (Val.head.inj (Option.some.inj e))
      rw [if_neg this]
    simp only [hcas, Bool.false_eq_true, if_false]
    by_cases hab : oc = "abandon"
    · rw [if_pos hab]
      exact ⟨rfl, rfl, rfl, rfl, fun _ => ⟨_, rfl, rfl⟩, fun hr => absurd (hr ▸ hab) (by decide)⟩
    · rw [if_neg hab]
      exact ⟨rfl, rfl, rfl, rfl, fun ha => absurd ha hab, fun _ => rfl⟩
  · -- three-way path
    rw [if_neg (by intro e; exact hbase (Option.some.inj e))]
    have htamper' : ∀ s, Store.get (tamper s)
        (BRANCH_HEAD (v.createCommit updates removals none now).2.branch) = some (.head w) := by
      intro s
      have hbr : (v.createCommit updates removals none now).2.branch = v.branch := rfl
      rw [hbr]
      exact htamper s
    have := threeWayMerge_fail (v.createCommit updates removals none now).2 th oc fns dm info
      v.snapshotState now tamper w hoc htamper' hw2
    rcases this with ⟨ks, hks⟩ | hok
    · exfalso
      refine hnoconf ks ?_
      unfold Versioned.commit
      rw [if_neg hne, if_neg hval, hhead,
        if_neg (by intro e; exact hbase (Option.some.inj e))]
      exact hks
    · exact hok

/-- Witness for C2: a concrete fast-forward attempt against a tampered
head; the view rolls back and both conflict policies behave as stated. -/
theorem claim_C2_witness :
    (Versioned.commit vR [("k", [1])] [] "abandon" [] none none 0
        (fun _ => [(BRANCH_HEAD "main", .head "w")])).2.current_commit = vR.current_commit ∧
    (Versioned.commit vR [("k", [1])] [] "abandon" [] none none 0
        (fun _ => [(BRANCH_HEAD "main", .head "w")])).2.commit_keys = vR.commit_keys ∧
    (Versioned.commit vR [("k", [1])] [] "abandon" [] none none 0
        (fun _ => [(BRANCH_HEAD "main", .head "w")])).2.meta = vR.meta ∧
    (Versioned.commit vR [("k", [1])] [] "abandon" [] none none 0
        (fun _ => [(BRANCH_HEAD "main", .head "w")])).2.touch_counter = vR.touch_counter ∧
    ("abandon" = "abandon" → ∃ res, (Versioned.commit vR [("k", [1])] [] "abandon" [] none none 0
        (fun _ => [(BRANCH_HEAD "main", .head "w")])).1 = .ok res ∧ res.merged = false) ∧
    ("abandon" = "raise" → (Versioned.commit vR [("k", [1])] [] "abandon" [] none none 0
        (fun _ => [(BRANCH_HEAD "main", .head "w")])).1 = .error .concurrency) := by
  have h := claim_C2_cas_failure_restores vR [("k", [1])] [] "abandon" [] none none 0
    (fun _ => [(BRANCH_HEAD "main", .head "w")]) "r" "w"
    (by simp) (Or.inr rfl) (by decide) (fun s => by rfl) (by decide) (by decide)
    (by
      intro ks h
      have hfst : (Versioned.commit vR [("k", [1])] [] "abandon" [] none none 0
          (fun _ => [(BRANCH_HEAD "main", .head "w")])).1 =
          .ok ⟨false, none, "fast_forward", [], []⟩ := by decide
      rw [hfst] at h
      exact Except.noConfusion h)
  exact ⟨h.1, h.2.1, h.2.2.1, h.2.2.2.1, fun _ => h.2.2.2.2.1 rfl,
    fun he => absurd he (by decide)⟩

/-- C1: for a three-way merge whose two sides changed disjoint key
sets, `commit()` succeeds with strategy `"three_way"` and the merge
commit's keyset is exactly the union the spec describes: our
added/modified entries under our pointers, theirs under their
pointers, LCA-surviving keys unchanged by both carried with the head's
pointer, and keys removed by either side absent (`specMergeKeyset`). -/
theorem claim_C1_threeway_disjoint_union (v : Versioned)
    (updates : List (String × Bytes)) (removals : List String) (oc : String)
    (fns : List (String × MergeFn)) (dm : Option MergeFn)
    (info : Option (List (String × String))) (now : Nat) (th lca : String)
    (hne : ¬ (updates = [] ∧ removals = [] ∧ info = none))
    (hoc : oc = "raise" ∨ oc = "abandon")
    (hheadStore : Store.get v.store (BRANCH_HEAD v.branch) = some (.head th))
    (hth : th ≠ v.base_commit)
    (hlca : findLca (v.createCommit updates removals none now).2.store
        (v.createCommit updates removals none now).2.current_commit th = some lca)
    (hdisj : ∀ k,
      k ∈ Versioned.changedKeys ((v.createCommit updates removals none now).2.diff lca
        (v.createCommit updates removals none now).2.current_commit) →
      k ∉ Versioned.changedKeys ((v.createCommit updates removals none now).2.diff lca th)) :
    ∃ res v', Versioned.commit v updates removals oc fns dm info now id = (.ok res, v') ∧
      res.merged = true ∧ res.strategy = "three_way" ∧
      ∀ k, dget v'.commit_keys k =
        specMergeKeyset
          ((v.createCommit updates removals none now).2.diff lca
            (v.createCommit updates removals none now).2.current_commit)
          ((v.createCommit updates removals none now).2.diff lca th)
          (Versioned.loadKeyset (v.createCommit updates removals none now).2.store lca)
          (Versioned.loadKeyset (v.createCommit updates removals none now).2.store
            (v.createCommit updates removals none now).2.current_commit)
          (Versioned.loadKeyset (v.createCommit updates removals none now).2.store th) k := by
  have hplan := mergePlan_disjoint (v.createCommit updates removals none now).2 lca th fns dm hdisj
  have hlh : v.latestHead = some th := by
    unfold Versioned.latestHead
    rw [hheadStore]
  have hbr : (v.createCommit updates removals none now).2.branch = v.branch := rfl
  have hhead2 : Store.get (Versioned.mergeWrite (v.createCommit updates removals none now).2 th
      (Versioned.mergePlan (v.createCommit updates removals none now).2 lca th fns dm) info now).store
      (BRANCH_HEAD (v.createCommit updates removals none now).2.branch) = some (.head th) := by
    rw [mergeWrite_get_head, hbr, createCommit_get_head]
    exact hheadStore
  obtain ⟨res, v', heq, hm, hs, hks⟩ := threeWayMerge_success
    (v.createCommit updates removals none now).2 th oc fns dm info
    (some v.snapshotState) now lca hlca hplan.1 hhead2
  refine ⟨res, v', ?_, hm, hs, ?_⟩
  · unfold Versioned.commit
    rw [if_neg hne, if_neg (not_not_intro hoc), hlh,
      if_neg (fun e => hth (Option.some.inj e))]
    exact heq
  · intro k
    rw [hks, mergeWrite_mergedKS_of_no_vals _ _ _ _ _ hplan.2.1]
    exact hplan.2.2 k

/-- Witness for C1: the disjoint writers from the fixture. -/
theorem claim_C1_witness :
    ∃ res v', Versioned.commit vL [("c", [1])] [] "raise" [] none none 0 id = (.ok res, v') ∧
      res.merged = true ∧ res.strategy = "three_way" ∧
      ∀ k, dget v'.commit_keys k =
        specMergeKeyset
          ((vL.createCommit [("c", [1])] [] none 0).2.diff "L"
            (vL.createCommit [("c", [1])] [] none 0).2.current_commit)
          ((vL.createCommit [("c", [1])] [] none 0).2.diff "L" "H")
          (Versioned.loadKeyset (vL.createCommit [("c", [1])] [] none 0).2.store "L")
          (Versioned.loadKeyset (vL.createCommit [("c", [1])] [] none 0).2.store
            (vL.createCommit [("c", [1])] [] none 0).2.current_commit)
          (Versioned.loadKeyset (vL.createCommit [("c", [1])] [] none 0).2.store "H") k :=
  claim_C1_threeway_disjoint_union vL [("c", [1])] [] "raise" [] none none 0 "H" "L"
    (by simp) (Or.inl rfl) (by decide) (by decide) (by decide)
    (by
      intro k hk hk2
      have h1 : Versioned.changedKeys ((vL.createCommit [("c", [1])] [] none 0).2.diff "L"
          (vL.createCommit [("c", [1])] [] none 0).2.current_commit) = ["c"] := by decide
      have h2 : Versioned.changedKeys ((vL.createCommit [("c", [1])] [] none 0).2.diff "L" "H") =
          ["b"] := by decide
      rw [h1] at hk
      rw [h2] at hk2
      simp at hk hk2
      rw [hk] at hk2
      exact absurd hk2 (by decide))

/-- C4 at its failing input: commit `r` is reachable from the branch
head and its keyset lists blob `r:k`, yet `clean_orphans` removes that
blob while sweeping the unreachable commit `o`, whose carried-forward
keyset shares the pointer. The reachable commit's records survive; the
blob its keyset lists does not — contradicting orphan-sweep soundness. -/
theorem claim_C4_failing_input :
    Store.get gOrph.store (BRANCH_HEAD "main") = some (.head "r") ∧
    "r" ∈ historyAll gOrph.store "r" ∧
    "r:k" ∈ (Versioned.loadKeyset gOrph.store "r").map Prod.snd ∧
    Store.get gOrph.store "r:k" = some (.blob [7]) ∧
    (GCVersioned.cleanOrphans gOrph 3600 10000).1 = 1 ∧
    Store.get (GCVersioned.cleanOrphans gOrph 3600 10000).2.store "r:k" = none ∧
    Store.get (GCVersioned.cleanOrphans gOrph 3600 10000).2.store (COMMIT_KEYSET "r") =
      some (.keyset [("k", "r:k")]) := by
  decide

/-- Counterexample to C6: committing the protected key `__p` (two
bytes) through `updates` on a GC view succeeds, and the persisted
total-size of the new head commit is 2, while the spec's accounting —
the sum of meta sizes over the non-protected keyset keys — is 0. -/
theorem claim_C6_counterexample :
    gProt.is_protected "__p" = true ∧
    (GCVersioned.commitGC gProt [("__p", [0, 0])] [] "raise" [] none none 0 id).1.toOption.map
        MergeResult.merged = some true ∧
    Store.get (GCVersioned.commitGC gProt [("__p", [0, 0])] [] "raise" [] none none 0 id).2.store
        (TOTAL_VAR_SIZE_KEY
          (GCVersioned.commitGC gProt [("__p", [0, 0])] [] "raise" [] none none 0 id).2.current_commit)
      = some (.size 2) ∧
    specTotalSize
        (GCVersioned.commitGC gProt [("__p", [0, 0])] [] "raise" [] none none 0 id).2.store
        gProt.is_protected
        (GCVersioned.commitGC gProt [("__p", [0, 0])] [] "raise" [] none none 0 id).2.current_commit
      = 0 := by
  refine ⟨by decide, by decide, by decide, by decide⟩

/-- C6 (amended): the total-size record persisted by `_create_commit`
(ordinary and fast-forward commits) and by the three-way merge's write
phase is the sum of `meta[k].size` over ALL of the commit's meta
entries — protected keys written through `updates` included; only
rebase commits realise the claimed accounting: their meta record holds
exactly the retained non-protected keys, so the reported total excludes
protected keys. -/
theorem claim_C6_amended :
    (∀ (v : Versioned) (updates : List (String × Bytes)) (removals : List String)
        (info : Option (List (String × String))) (now : Nat),
      Store.get (v.createCommit updates removals info now).2.store
          (TOTAL_VAR_SIZE_KEY (v.createCommit updates removals info now).1)
        = some (.size (((v.createCommit updates removals info now).2.meta.map
            (fun e => (e.2.size).getD 0)).sum))) ∧
    (∀ (v : Versioned) (th : String) (plan : Versioned.MergePlan)
        (info : Option (List (String × String))) (now : Nat),
      Store.get (Versioned.mergeWrite v th plan info now).store
          (TOTAL_VAR_SIZE_KEY (Versioned.mergeWrite v th plan info now).mergeHash)
        = some (.size (((Versioned.mergeWrite v th plan info now).mergedMeta.map
            (fun e => (e.2.size).getD 0)).sum))) ∧
    (∀ (g : GCVersioned) (keep_keys : Option (List String))
        (info : Option (List (String × String))) (now : Nat),
      Store.get g.store (BRANCH_HEAD g.branch) = some (.head g.base_commit) →
      ∃ rr g', GCVersioned.rebase g keep_keys info now id = (.ok rr, g') ∧
        rr.total_size_after = ((g'.meta.map (fun e => (e.2.size).getD 0)).sum) ∧
        ∀ kv ∈ g'.meta, g.is_protected kv.1 = false) :=
  ⟨fun v u r i n => (createCommit_records v u r i n).2,
   fun v th p i n => (mergeWrite_records v th p i n).2,
   fun g k i n hh => by
     obtain ⟨rr, g', e, _, h1, h2⟩ := rebase_success g k i n hh
     exact ⟨rr, g', e, h1, h2⟩⟩

/-- Witness for the amended C6: the rebase clause instantiated at the
concrete GC fixture, its head hypothesis discharged by evaluation. -/
theorem claim_C6_amended_witness :
    Store.get gProt.store (BRANCH_HEAD gProt.branch) = some (.head gProt.base_commit) ∧
    ∃ rr g', GCVersioned.rebase gProt none none 0 id = (.ok rr, g') ∧
      rr.total_size_after = ((g'.meta.map (fun e => (e.2.size).getD 0)).sum) ∧
      ∀ kv ∈ g'.meta, gProt.is_protected kv.1 = false :=
  ⟨by decide, claim_C6_amended.2.2 gProt none none 0 (by decide)⟩

/-- Counterexample to C7 monotonicity: `a` is a parent (hence an
ancestor) of `b`, yet the interleaved BFS meets at the other common
ancestor `p` first and returns it instead of `a`. -/
theorem claim_C7_counterexample :
    isAncestor sLca "a" "b" ∧
    findLca sLca "a" "b" = some "p" ∧
    findLca sLca "a" "b" ≠ some "a" :=
  ⟨Relation.ReflTransGen.single (by decide), by decide, by decide⟩

/-- C7 (amended): `_find_lca` is reflexive, and whenever `a` is an
ancestor of `b` it returns some commit that is a common ancestor of
both — but not necessarily `a` itself. -/
theorem claim_C7_amended :
    (∀ (s : Store) (a : String), findLca s a a = some a) ∧
    (∀ (s : Store) (a b : String), isAncestor s a b →
      ∃ c, findLca s a b = some c ∧ isAncestor s c a ∧ isAncestor s c b) := by
  constructor
  · intro s a
    simp [findLca]
  · intro s a b hanc
    by_cases hab : a = b
    · subst hab
      exact ⟨a, by simp [findLca], Relation.ReflTransGen.refl, Relation.ReflTransGen.refl⟩
    · have hu : ∀ c p, p ∈ Versioned.loadParents s c → p ∈ a :: b :: parentIdsOf s :=
        fun c p hp =>
          List.mem_cons_of_mem _ (List.mem_cons_of_mem _ (loadParents_subset s c p hp))
      have hfa : ((a :: b :: parentIdsOf s).filter
            (fun x => decide (x ∉ ([a] : List String)))).length <
          (a :: b :: parentIdsOf s).length :=
        length_filter_lt_of_mem _ _ a (List.mem_cons_self _ _) (by simp)
      have hfb : ((a :: b :: parentIdsOf s).filter
            (fun x => decide (x ∉ ([b] : List String)))).length <
          (a :: b :: parentIdsOf s).length :=
        length_filter_lt_of_mem _ _ b (List.mem_cons_of_mem _ (List.mem_cons_self _ _))
          (by simp)
      have hfuel : ([a] : List String).length + ([b] : List String).length +
          2 * ((a :: b :: parentIdsOf s).filter
            (fun x => decide (x ∉ ([a] : List String)))).length +
          2 * ((a :: b :: parentIdsOf s).filter
            (fun x => decide (x ∉ ([b] : List String)))).length < lcaFuel s := by
        simp only [List.length_cons, List.length_nil] at hfa hfb ⊢
        unfold lcaFuel
        omega
      obtain ⟨c, hc, h1, h2⟩ := lcaLoop_spec s a b (a :: b :: parentIdsOf s) hu hanc
        (lcaFuel s) [a] [b] [a] [b]
        (fun x hx => hx) (fun x hx => hx)
        (fun x hx => by rw [List.mem_singleton.mp hx]; exact Relation.ReflTransGen.refl)
        (fun x hx => by rw [List.mem_singleton.mp hx]; exact Relation.ReflTransGen.refl)
        (fun x hx hnx => absurd hx hnx) (fun x hx hnx => absurd hx hnx)
        (List.mem_singleton.mpr rfl) (List.mem_singleton.mpr rfl)
        (by simp [hab]) hfuel
      refine ⟨c, ?_, h1, h2⟩
      unfold findLca
      rw [if_neg hab]
      exact hc

/-- Witness for the amended C7: reflexivity at `p`, and the ancestry
hypothesis discharged by the explicit parent link from `b` to `a`. -/
theorem claim_C7_amended_witness :
    findLca sLca "p" "p" = some "p" ∧
    (∃ c, findLca sLca "a" "b" = some c ∧
      isAncestor sLca c "a" ∧ isAncestor sLca c "b") :=
  ⟨claim_C7_amended.1 sLca "p",
   claim_C7_amended.2 sLca "a" "b" (Relation.ReflTransGen.single (by decide))⟩

/-- Witness for C10: an empty store has no head record, and `init`
plants the root commit there. -/
theorem claim_C10_init_witness :
    (Versioned.init [] "main").current_commit = contentHash [] [] [] none ∧
    (Versioned.init [] "main").base_commit = contentHash [] [] [] none ∧
    Store.get (Versioned.init [] "main").store (COMMIT_KEYSET (contentHash [] [] [] none)) =
      some (.keyset []) ∧
    Store.get (Versioned.init [] "main").store (PARENT_COMMIT (contentHash [] [] [] none)) =
      some (.parents []) ∧
    Store.get (Versioned.init [] "main").store (META_KEY (contentHash [] [] [] none)) =
      some (.meta []) ∧
    Store.get (Versioned.init [] "main").store (TOTAL_VAR_SIZE_KEY (contentHash [] [] [] none)) =
      some (.size 0) ∧
    Store.get (Versioned.init [] "main").store (BRANCH_HEAD "main") =
      some (.head (contentHash [] [] [] none)) :=
  claim_C10_init [] "main" rfl

/-- The fixture's only keyset record is empty, so pointer hygiene of
its keyset records holds vacuously. -/
theorem gProt_ksHyg : ∀ hsh ks,
    Store.get gProt.store (COMMIT_KEYSET hsh) = some (.keyset ks) →
    ∀ kv ∈ ks, ¬ startsUnderscore kv.2 := by
  intro hsh ks h kv hkv
  have hm := dget_some_mem _ _ _ h
  simp [gProt, vR] at hm
  rw [hm.2] at hkv
  exact absurd hkv (List.not_mem_nil kv)

/-- C5: GC bound — when `low_water < high_water`, every successful
`commit()` on the GC layer (including its automatic `maybe_rebase`) in
a single-writer execution leaves the branch head on a commit whose
persisted `total_size` is at most `high_water`. Stated under
well-formedness of the starting view: duplicate-free keyset and meta
keys, the head and total records in place, `current = base`, and all
keyset records holding only non-underscore-prefixed pointers. -/
theorem claim_C5_gc_bound (g : GCVersioned) (updates : List (String × Bytes))
    (removals : List String) (info : Option (List (String × String))) (now t0 : Nat)
    (hlw : g.low_water < g.high_water)
    (hnodupM : (g.meta.map Prod.fst).Nodup)
    (hnodupK : (g.commit_keys.map Prod.fst).Nodup)
    (hcur : g.current_commit = g.base_commit)
    (hhead : Store.get g.store (BRANCH_HEAD g.branch) = some (.head g.base_commit))
    (htot : Store.get g.store (TOTAL_VAR_SIZE_KEY g.current_commit) = some (.size t0))
    (hkeysHyg : ∀ kv ∈ g.commit_keys, ¬ startsUnderscore kv.2)
    (hksHyg : ∀ hsh ks, Store.get g.store (COMMIT_KEYSET hsh) = some (.keyset ks) →
      ∀ kv ∈ ks, ¬ startsUnderscore kv.2) :
    ∃ res g', GCVersioned.commitGC g updates removals "raise" [] none info now id =
        (.ok res, g') ∧ res.merged = true ∧
      ∃ h n, Store.get g'.store (BRANCH_HEAD g.branch) = some (.head h) ∧
        Store.get g'.store (TOTAL_VAR_SIZE_KEY h) = some (.size n) ∧
        n ≤ g.high_water := by
  by_cases hne : updates = [] ∧ removals = [] ∧ info = none
  · have hceq : Versioned.commit g.toVersioned updates removals "raise" [] none info now id =
        (.ok ⟨true, some g.toVersioned.current_commit, "no_op", [], []⟩,
         { g.toVersioned with
             last_merge_result :=
               some ⟨true, some g.toVersioned.current_commit, "no_op", [], []⟩ }) := by
      unfold Versioned.commit
      rw [if_pos hne]
    obtain ⟨rr, g', hmeq, h, n, hh, hn, hb⟩ :=
      maybeRebase_bound
        { g with
            toVersioned :=
              { g.toVersioned with
                  last_merge_result :=
                    some ⟨true, some g.toVersioned.current_commit, "no_op", [], []⟩ } }
        now t0 hlw hnodupM hnodupK hcur hhead htot hkeysHyg hksHyg
    rw [commitGC_ok g updates removals "raise" [] none info now id _ _ rr g' hceq rfl hmeq]
    exact ⟨_, _, rfl, rfl, h, n, hh, hn, hb⟩
  · obtain ⟨res, v', hceq, hmerged, hbr, hcu', hbc', hck, hme, hst⟩ :=
      commit_ff g.toVersioned updates removals info now hne hhead
    obtain ⟨rr, g2, hmeq, h, n, hh, hn, hb⟩ :=
      maybeRebase_bound { g with toVersioned := v' } now
        (((g.toVersioned.createCommit updates removals info now).2.meta.map
          (fun e => (e.2.size).getD 0)).sum)
        hlw
        (by show ((v'.meta).map Prod.fst).Nodup
            rw [hme]
            exact createCommit_meta_nodup g.toVersioned updates removals info now hnodupK)
        (by show ((v'.commit_keys).map Prod.fst).Nodup
            rw [hck]
            exact createCommit_keys_nodup g.toVersioned updates removals info now hnodupK)
        (by show v'.current_commit = v'.base_commit
            rw [hcu', hbc'])
        (by show Store.get v'.store (BRANCH_HEAD v'.branch) = some (.head v'.base_commit)
            rw [hst, hbr, hbc', Store.get_set, if_pos rfl])
        (by show Store.get v'.store (TOTAL_VAR_SIZE_KEY v'.current_commit)
              = some (.size (((g.toVersioned.createCommit updates removals info now).2.meta.map
                  (fun e => (e.2.size).getD 0)).sum))
            rw [hst, hcu', Store.get_set,
              if_neg (HEAD_ne_TOTAL g.toVersioned.branch _)]
            exact (createCommit_records g.toVersioned updates removals info now).2)
        (by intro kv hkv
            have hkv' : kv ∈ v'.commit_keys := hkv
            rw [hck] at hkv'
            exact createCommit_keys_hyg g.toVersioned updates removals info now hkeysHyg kv hkv')
        (by intro hsh ks hgk kv hkv
            have hgk' : Store.get v'.store (COMMIT_KEYSET hsh) = some (.keyset ks) := hgk
            rw [hst] at hgk'
            exact commit_store_ksHyg g.toVersioned updates removals info now
              hksHyg hkeysHyg hsh ks hgk' kv hkv)
    have hh2 : Store.get g2.store (BRANCH_HEAD g.branch) = some (.head h) := by
      have hx : Store.get g2.store (BRANCH_HEAD v'.branch) = some (.head h) := hh
      rw [hbr] at hx
      exact hx
    rw [commitGC_ok g updates removals "raise" [] none info now id res v' rr g2 hceq hmerged hmeq]
    exact ⟨_, _, rfl, hmerged, h, n, hh2, hn, hb⟩

/-- Witness for C5: the GC fixture (marks 100/80) committing one small
blob; all well-formedness hypotheses hold by evaluation. -/
theorem claim_C5_witness :
    gProt.low_water < gProt.high_water ∧
    ∃ res g', GCVersioned.commitGC gProt [("a", [1, 2])] [] "raise" [] none none 0 id =
        (.ok res, g') ∧ res.merged = true ∧
      ∃ h n, Store.get g'.store (BRANCH_HEAD gProt.branch) = some (.head h) ∧
        Store.get g'.store (TOTAL_VAR_SIZE_KEY h) = some (.size n) ∧
        n ≤ gProt.high_water :=
  ⟨by decide,
   claim_C5_gc_bound gProt [("a", [1, 2])] [] none 0 0 (by decide) (by decide) (by decide)
     (by decide) (by decide) (by decide)
     (fun kv hkv => absurd hkv (List.not_mem_nil kv)) gProt_ksHyg⟩

end KvGit
